import Mathlib

/-!
# Digraph: adjacency-list directed graph, strong connectivity and Dijkstra

A shallow embedding of `src/core/Digraph.hpp` (class template `Digraph<VertexInfo, EdgeInfo>`)
and of the predecessor walk `coord` of `src/app/main.cpp`.

Modelling conventions.

* `std::map<int, X>` is an association list `StdMap X`; lookups take the first entry with the
  key, insertion keeps the keys in ascending order and never overwrites.  A list with strictly
  ascending keys (`StdMap.Ordered`) is the representation of a real `std::map`.
* Vertex numbers (`int`) are `Int`; no arithmetic is ever done on them.  Container sizes
  (`vertexCount`, `edgeCount`) are `Nat`: they agree with the `int` results of the source as
  long as the sizes stay below `2^31`.
* Edge weights and distances (`double`) are elements of an arbitrary linearly ordered
  commutative ring `W` (for instance `ℤ`, `ℚ` or `ℝ`).  In `relax`, `spLoop` and
  `findShortestPaths` the one sum of the function is exact; `relaxWith`, `spLoopWith` and
  `findShortestPathsWith` take the addition of the machine as the parameter `add`, and
  `doubleAdd` on `ℚ` is the addition of `double` (the exact sum rounded to binary64).  The
  claim on the least total weight is stated for `findShortestPathsWith`.
* C++ exceptions are the `Except.error` results; `Exn.fuel` is not an exception of the program
  but the exhaustion of the step budget of a loop of the model.
* `std::priority_queue` is library code; it enters through its contract, `PriorityQueue`,
  which leaves open which of several entries of equal weight `top()` returns.
* Member functions that change the object are also given as calls (`Call`): how the call
  ends together with the graph the object holds at that point.  Undefined behaviour (the
  increment of an erased `std::list` iterator, the end of a non-void function) is the result
  `Exn.undefined`; a sequence of calls (`runCalls`) has no graph once it is reached.
* Copy and move assignment act on a store of two objects (`Objects`), so that the source and
  the destination of an assignment may be one object.
* For the claims on the course of the main loop of `findShortestPaths`, `spLoopLog` is the
  loop `spLoop` with a record of its iterations; `spLoopLog_erase` shows that it computes
  what `spLoop` computes.
-/

namespace RoadTrip

/-! ## Failures -/

/-- The ways in which a member function can fail to return. -/
inductive Exn where
  /-- A `DigraphException` thrown by the source. -/
  | DigraphException
  /-- The `std::out_of_range` thrown by `std::map::at` on an absent key. -/
  | out_of_range
  /-- Undefined behaviour: use of an invalidated iterator, or flowing off the end of a
  value-returning function. -/
  | undefined
  /-- The step budget of the model ran out (no outcome of the program). -/
  | fuel
  deriving DecidableEq

/-! ## `std::map<int, X>` -/

/-- Association list standing for a `std::map<int, X>`. -/
abbrev StdMap (X : Type) := List (Int × X)

namespace StdMap

variable {X : Type}

/-- The value stored under `k`, `std::map::find`. -/
def find : StdMap X → Int → Option X
  | [], _ => none
  | (k', x) :: rest, k => if k' = k then some x else find rest k

/-- Membership test, `std::map::count` read as a truth value. -/
def count (m : StdMap X) (k : Int) : Bool := (m.find k).isSome

/-- Puts a new entry in front of the first entry with a larger key. -/
def insertSorted : StdMap X → Int → X → StdMap X
  | [], k, x => [(k, x)]
  | (k', x') :: rest, k, x =>
    if k < k' then (k, x) :: (k', x') :: rest
    else (k', x') :: insertSorted rest k x

/-- Insertion that keeps an existing entry: `std::map::emplace` and `std::map::insert`. -/
def emplace (m : StdMap X) (k : Int) (x : X) : StdMap X :=
  if m.count k then m else m.insertSorted k x

/-- Checked access, `std::map::at`. -/
def at_ (m : StdMap X) (k : Int) : Except Exn X :=
  match m.find k with
  | some x => .ok x
  | none => .error .out_of_range

/-- Assignment through the reference returned by `at(k)` or `operator[]` for a present key. -/
def assign : StdMap X → Int → X → StdMap X
  | [], _, _ => []
  | (k', x') :: rest, k, x =>
    if k' = k then (k', x) :: rest else (k', x') :: assign rest k x

/-- Read through `operator[]`: an absent key is first inserted with the default value `d`.
Returns the value read and the map after the access. -/
def index (m : StdMap X) (k : Int) (d : X) : X × StdMap X :=
  let m' := m.emplace k d
  ((m'.find k).getD d, m')

/-- Removal by key, `std::map::erase(key)`. -/
def erase : StdMap X → Int → StdMap X
  | [], _ => []
  | (k', x') :: rest, k => if k' = k then rest else (k', x') :: erase rest k

/-- The keys in iteration order. -/
def keys (m : StdMap X) : List Int := m.map Prod.fst

/-- Strictly ascending keys: the list represents a `std::map`. -/
def Ordered (m : StdMap X) : Prop := (m.keys).Pairwise (· < ·)

instance (m : StdMap X) : Decidable m.Ordered :=
  inferInstanceAs (Decidable ((m.keys).Pairwise (· < ·)))

end StdMap

/-! ## The graph -/

/-- An edge record: `struct DigraphEdge`. -/
structure DigraphEdge (EdgeInfo : Type) where
  fromVertex : Int
  toVertex : Int
  einfo : EdgeInfo

/-- A vertex record: `struct DigraphVertex`. -/
structure DigraphVertex (VertexInfo EdgeInfo : Type) where
  vinfo : VertexInfo
  edges : List (DigraphEdge EdgeInfo)

/-- The class `Digraph`: its only member `obj`. -/
structure Digraph (VertexInfo EdgeInfo : Type) where
  obj : StdMap (DigraphVertex VertexInfo EdgeInfo)

namespace Digraph

variable {VertexInfo EdgeInfo : Type}

/-- The default constructor: no vertices and no edges. -/
def empty : Digraph VertexInfo EdgeInfo := ⟨[]⟩

/-- The member `vertices()`. -/
def vertices (g : Digraph VertexInfo EdgeInfo) : List Int :=
  g.obj.map (fun ent => ent.1)

/-- The member `edges()`. -/
def edges (g : Digraph VertexInfo EdgeInfo) : List (Int × Int) :=
  g.obj.flatMap (fun outer => outer.2.edges.map (fun inner => (inner.fromVertex, inner.toVertex)))

/-- The member `edges(int vertex)`. -/
def edgesOf (g : Digraph VertexInfo EdgeInfo) (vertex : Int) : Except Exn (List (Int × Int)) :=
  match g.obj.find vertex with
  | some vr => .ok (vr.edges.map (fun ent => (ent.fromVertex, ent.toVertex)))
  | none => .error .DigraphException

/-- The member `vertexInfo(int vertex)`. -/
def vertexInfo (g : Digraph VertexInfo EdgeInfo) (vertex : Int) : Except Exn VertexInfo :=
  match g.obj.find vertex with
  | some vr => .ok vr.vinfo
  | none => .error .DigraphException

/-- The member `edgeInfo(int fromVertex, int toVertex)`.  The last loop returns the label of
the first record whose `toVertex` matches; leaving it without a match would flow off the end
of the function. -/
def edgeInfo (g : Digraph VertexInfo EdgeInfo) (fromVertex toVertex : Int) :
    Except Exn EdgeInfo :=
  match g.edgesOf fromVertex with
  | .error e => .error e
  | .ok from_ =>
    if g.obj.count fromVertex && g.obj.count toVertex then
      if (fromVertex, toVertex) ∈ from_ then
        match g.obj.find fromVertex with
        | none => .error .out_of_range
        | some vr =>
          match vr.edges.find? (fun ent => ent.toVertex == toVertex) with
          | some ent => .ok ent.einfo
          | none => .error .undefined
      else .error .DigraphException
    else .error .DigraphException

/-- The member `addVertex(int vertex, const VertexInfo& vinfo)`. -/
def addVertex (g : Digraph VertexInfo EdgeInfo) (vertex : Int) (vinfo : VertexInfo) :
    Except Exn (Digraph VertexInfo EdgeInfo) :=
  if !(g.obj.count vertex) then .ok ⟨g.obj.emplace vertex ⟨vinfo, []⟩⟩
  else .error .DigraphException

/-- The member `addEdge(int fromVertex, int toVertex, const EdgeInfo& einfo)`. -/
def addEdge (g : Digraph VertexInfo EdgeInfo) (fromVertex toVertex : Int) (einfo : EdgeInfo) :
    Except Exn (Digraph VertexInfo EdgeInfo) :=
  match g.edgesOf fromVertex with
  | .error e => .error e
  | .ok from_ =>
    if g.obj.count fromVertex && g.obj.count toVertex then
      if (fromVertex, toVertex) ∈ from_ then .error .DigraphException
      else
        match g.obj.at_ fromVertex with
        | .error e => .error e
        | .ok vr =>
          .ok ⟨g.obj.assign fromVertex
            ⟨vr.vinfo, vr.edges ++ [⟨fromVertex, toVertex, einfo⟩]⟩⟩
    else .error .DigraphException

/-- The member `vertexCount()`. -/
def vertexCount (g : Digraph VertexInfo EdgeInfo) : Nat := g.obj.length

/-- The member `edgeCount()`. -/
def edgeCount (g : Digraph VertexInfo EdgeInfo) : Nat :=
  g.obj.foldl (fun count ent => count + ent.2.edges.length) 0

/-- The member `edgeCount(int vertex)`. -/
def edgeCountOf (g : Digraph VertexInfo EdgeInfo) (vertex : Int) : Except Exn Nat :=
  if g.obj.count vertex == false then .error .DigraphException
  else
    match g.obj.at_ vertex with
    | .error e => .error e
    | .ok vr => .ok vr.edges.length

end Digraph

/-! ## The priority queue of the shortest-path engine -/

/-- The local class `V` of `findShortestPaths`: a tentative distance and a vertex. -/
structure V (W : Type) where
  weight : W
  v : Int

/-- The contract of `std::priority_queue<V, std::vector<V>, compare>` with
`compare(lhs, rhs) = rhs.weight < lhs.weight`: `pop` stands for `top()` followed by `pop()`
and hands out an entry of least weight; `items` is the content of the queue. -/
structure PriorityQueue (W : Type) [LinearOrder W] where
  Q : Type
  empty : Q
  push : Q → V W → Q
  pop : Q → Option (V W × Q)
  items : Q → List (V W)
  items_empty : items empty = []
  items_push : ∀ q x, (items (push q x)).Perm (x :: items q)
  pop_none : ∀ q, pop q = none ↔ items q = []
  pop_some : ∀ q x q', pop q = some (x, q') →
    (items q).Perm (x :: items q') ∧ ∀ y ∈ items q, x.weight ≤ y.weight

/-- Splits a non-empty list into its first entry of least weight and the other entries, in
their order. -/
def extractMin {W : Type} [LinearOrder W] : V W → List (V W) → V W × List (V W)
  | x, [] => (x, [])
  | x, y :: rest =>
    let r := extractMin y rest
    if x.weight ≤ r.1.weight then (x, y :: rest) else (r.1, x :: r.2)

/-- Pop of the list queue. -/
def listPop {W : Type} [LinearOrder W] : List (V W) → Option (V W × List (V W))
  | [] => none
  | x :: rest => some (extractMin x rest)

/-- A priority queue kept as a plain list: `push` puts the entry in front, `pop` takes out
the first entry of least weight. -/
def listQueue (W : Type) [LinearOrder W] : PriorityQueue W where
  Q := List (V W)
  empty := []
  push := fun q x => x :: q
  pop := listPop
  items := fun q => q
  items_empty := rfl
  items_push := fun _ _ => List.Perm.refl _
  pop_none := by
    intro q
    cases q <;> simp [listPop]
  pop_some := by
    intro q x q' h
    have hperm : ∀ (l : List (V W)) (a : V W),
        (a :: l).Perm ((extractMin a l).1 :: (extractMin a l).2) := by
      intro l
      induction l with
      | nil => intro a; simp [extractMin]
      | cons y rest ih =>
        intro a
        simp only [extractMin]
        split
        · exact List.Perm.refl _
        · exact ((ih y).cons a).trans (List.Perm.swap _ _ _)
    have hle : ∀ (l : List (V W)) (a : V W),
        ∀ y ∈ a :: l, (extractMin a l).1.weight ≤ y.weight := by
      intro l
      induction l with
      | nil => intro a; simp [extractMin]
      | cons z rest ih =>
        intro a y hy
        have hz := ih z
        simp only [extractMin]
        split
        · rename_i h
          rcases List.mem_cons.1 hy with rfl | hy
          · exact le_rfl
          · exact le_trans h (hz y hy)
        · rename_i h
          rcases List.mem_cons.1 hy with rfl | hy
          · exact le_of_lt (not_le.1 h)
          · exact hz y hy
    cases q with
    | nil => simp [listPop] at h
    | cons a rest =>
      simp only [listPop, Option.some.injEq] at h
      have h1 : (extractMin a rest).1 = x := by rw [h]
      have h2 : (extractMin a rest).2 = q' := by rw [h]
      subst h1 h2
      exact ⟨hperm rest a, hle rest a⟩

namespace Digraph

variable {VertexInfo EdgeInfo : Type}

/-! ## Strong connectivity -/

/-- The private member `connect(v, visited, visit)`.  The first argument bounds the depth of
the recursion. -/
def connect (g : Digraph VertexInfo EdgeInfo) :
    Nat → Int → StdMap Bool × List Int → Except Exn (StdMap Bool × List Int)
  | 0, _, _ => .error .fuel
  | depth + 1, v, (visited, visit) =>
    let visited := (visited.emplace v false).assign v true
    let visit := visit ++ [v]
    match g.obj.at_ v with
    | .error e => .error e
    | .ok vr =>
      vr.edges.foldlM
        (fun (st : StdMap Bool × List Int) ent =>
          let (b, visited) := st.1.index ent.toVertex false
          if !b then connect g depth ent.toVertex (visited, st.2) else .ok (visited, st.2))
        (visited, visit)

/-- The loop `for(auto& inner: obj) visited[inner.first] = false;` of
`isStronglyConnected()`, from the empty map. -/
def visitedInit (g : Digraph VertexInfo EdgeInfo) : StdMap Bool :=
  g.obj.foldl (fun (m : StdMap Bool) inner => (m.emplace inner.1 false).assign inner.1 false) []

/-- The outer loop of `isStronglyConnected()`, over the remaining entries of `obj`.  The
recursion of `connect` is at most `obj.size()` deep, which gives its budget. -/
def isStronglyConnectedLoop (g : Digraph VertexInfo EdgeInfo) :
    List (Int × DigraphVertex VertexInfo EdgeInfo) → Except Exn Bool
  | [] => .ok true
  | outer :: rest =>
    match g.connect (g.obj.length + 1) outer.1 (g.visitedInit, []) with
    | .error e => .error e
    | .ok (_, visit) =>
      if visit.length != g.obj.length then .ok false
      else isStronglyConnectedLoop g rest

/-- The member `isStronglyConnected()`. -/
def isStronglyConnected (g : Digraph VertexInfo EdgeInfo) : Except Exn Bool :=
  g.isStronglyConnectedLoop g.obj

/-! ## Shortest paths -/

/-- The constant `INF` of the source, `0x3f3f3f3f`. -/
def INF : Nat := 0x3f3f3f3f

/-- The local variables of `findShortestPaths`. -/
structure SPState (Q W : Type) where
  kv : StdMap Bool
  pv : StdMap Int
  dv : StdMap W
  pq : Q

variable {W : Type} [LinearOrderedCommRing W]

/-- The initialisation loop of `findShortestPaths`. -/
def initMaps (startVertex : Int) :
    List (Int × DigraphVertex VertexInfo EdgeInfo) →
    StdMap Bool × StdMap Int × StdMap W → StdMap Bool × StdMap Int × StdMap W
  | [], m => m
  | ent :: rest, (kv, pv, dv) =>
    initMaps startVertex rest
      (kv.emplace ent.1 false, pv.emplace ent.1 ent.1,
        if startVertex ≠ ent.1 then dv.emplace ent.1 (INF : W) else dv.emplace ent.1 0)

/-- The inner loop of `findShortestPaths` over the pairs `eg` of the finalized vertex, with
the sum `dv[ver.v] + edgeWeightFunc(einf)` taken exactly; `relaxWith` is the loop with the
rounding addition of `double`. -/
def relax (P : PriorityQueue W) (g : Digraph VertexInfo EdgeInfo)
    (edgeWeightFunc : EdgeInfo → W) (ver_v : Int) :
    List (Int × Int) → SPState P.Q W → Except Exn (SPState P.Q W)
  | [], st => .ok st
  | e :: rest, st =>
    match g.edgeInfo e.1 e.2 with
    | .error x => .error x
    | .ok einf =>
      let (d, dv) := st.dv.index ver_v 0
      let tot := d + edgeWeightFunc einf
      match dv.at_ e.2 with
      | .error x => .error x
      | .ok tidis =>
        if tidis > tot then
          match st.pv.at_ e.2 with
          | .error x => .error x
          | .ok _ =>
            relax P g edgeWeightFunc ver_v rest
              ⟨st.kv, st.pv.assign e.2 ver_v, dv.assign e.2 tot, P.push st.pq ⟨tot, e.2⟩⟩
        else relax P g edgeWeightFunc ver_v rest ⟨st.kv, st.pv, dv, st.pq⟩

/-- The main loop of `findShortestPaths`; the first argument bounds the number of
iterations. -/
def spLoop (P : PriorityQueue W) (g : Digraph VertexInfo EdgeInfo)
    (edgeWeightFunc : EdgeInfo → W) : Nat → SPState P.Q W → Except Exn (SPState P.Q W)
  | 0, _ => .error .fuel
  | n + 1, st =>
    match P.pop st.pq with
    | none => .ok st
    | some (ver, pq) =>
      match st.kv.at_ ver.v with
      | .error x => .error x
      | .ok b =>
        if !b then
          match g.edgesOf ver.v with
          | .error x => .error x
          | .ok eg =>
            match relax P g edgeWeightFunc ver.v eg
                ⟨st.kv.assign ver.v true, st.pv, st.dv, pq⟩ with
            | .error x => .error x
            | .ok st' => spLoop P g edgeWeightFunc n st'
        else spLoop P g edgeWeightFunc n ⟨st.kv, st.pv, st.dv, pq⟩

/-- The member `findShortestPaths(startVertex, edgeWeightFunc)`.  Every iteration of the main
loop pops one entry and at most `1 + edgeCount()` entries are ever pushed, which gives the
budget of the loop. -/
def findShortestPaths (P : PriorityQueue W) (g : Digraph VertexInfo EdgeInfo)
    (startVertex : Int) (edgeWeightFunc : EdgeInfo → W) : Except Exn (StdMap Int) :=
  let (kv, pv, dv) := initMaps startVertex g.obj (([], [], []) : StdMap Bool × StdMap Int × StdMap W)
  match spLoop P g edgeWeightFunc (g.edgeCount + 2) ⟨kv, pv, dv, P.push P.empty ⟨0, startVertex⟩⟩ with
  | .error x => .error x
  | .ok st => .ok st.pv

/-! ## Vocabulary of the specification -/

/-- There is a record for an edge from `u` to `v` in the outgoing list of `u`. -/
def hasEdge (g : Digraph VertexInfo EdgeInfo) (u v : Int) : Bool :=
  match g.obj.find u with
  | some vr => vr.edges.any (fun e => e.toVertex == v)
  | none => false

/-- The graph stores an edge from `u` to `v`. -/
def Edge (g : Digraph VertexInfo EdgeInfo) (u v : Int) : Prop := g.hasEdge u v = true

instance (g : Digraph VertexInfo EdgeInfo) (u v : Int) : Decidable (g.Edge u v) :=
  inferInstanceAs (Decidable (g.hasEdge u v = true))

/-- The vertex `v` is reachable from `u` by directed edges (possibly none). -/
def Reach (g : Digraph VertexInfo EdgeInfo) (u v : Int) : Prop :=
  Relation.ReflTransGen g.Edge u v

/-- Every edge's destination is a vertex of the graph. -/
def Closed (g : Digraph VertexInfo EdgeInfo) : Prop :=
  ∀ ent ∈ g.obj, ∀ e ∈ ent.2.edges, g.obj.count e.toVertex = true

instance (g : Digraph VertexInfo EdgeInfo) : Decidable g.Closed :=
  inferInstanceAs (Decidable (∀ ent ∈ g.obj, ∀ e ∈ ent.2.edges, g.obj.count e.toVertex = true))

/-- Every edge record lies in the outgoing list of its own `fromVertex`, as `addEdge`
stores it. -/
def OwnEdges (g : Digraph VertexInfo EdgeInfo) : Prop :=
  ∀ ent ∈ g.obj, ∀ e ∈ ent.2.edges, e.fromVertex = ent.1

instance (g : Digraph VertexInfo EdgeInfo) : Decidable g.OwnEdges :=
  inferInstanceAs (Decidable (∀ ent ∈ g.obj, ∀ e ∈ ent.2.edges, e.fromVertex = ent.1))

/-- The list `p` is a directed path from `s` to `v`: it starts with `s`, ends with `v` and
every two neighbours are joined by an edge of the graph. -/
def IsPath (g : Digraph VertexInfo EdgeInfo) (s v : Int) (p : List Int) : Prop :=
  p.head? = some s ∧ p.getLast? = some v ∧ p.Chain' g.Edge

/-- The weight of the edge from `u` to `v`: the weight function applied to the label that
`edgeInfo(u, v)` returns. -/
def edgeW (g : Digraph VertexInfo EdgeInfo) (edgeWeightFunc : EdgeInfo → W) (u v : Int) : W :=
  match g.edgeInfo u v with
  | .ok einf => edgeWeightFunc einf
  | .error _ => 0

/-- The total weight of a path given as the list of its vertices. -/
def pathWeight (g : Digraph VertexInfo EdgeInfo) (edgeWeightFunc : EdgeInfo → W) :
    List Int → W
  | [] => 0
  | [_] => 0
  | x :: y :: rest => g.edgeW edgeWeightFunc x y + pathWeight g edgeWeightFunc (y :: rest)

end Digraph

/-- The function `coord` of `main.cpp` with `x = startVertex`, `y = endVertex`: the walk
from the end vertex back along the predecessor map.  The first argument bounds the number
of iterations of its loop. -/
def coord (pv : StdMap Int) : Nat → Int → Int → List Int → Except Exn (List Int)
  | 0, _, _, _ => .error .fuel
  | n + 1, x, y, num =>
    if x ≠ y then
      let (y', pv') := pv.index y 0
      coord pv' n x y' (y :: num)
    else .ok (x :: num)

namespace Digraph

variable {VertexInfo EdgeInfo : Type} {W : Type} [LinearOrderedCommRing W]

/-! ## Invariants of the shortest-path engine -/

/-- One pass of the inner loop of `findShortestPaths` on a state that has both keys: the
edge from `u` to `y` of weight `c` is relaxed. -/
def relaxEdge (P : PriorityQueue W) (u y : Int) (c : W) (st : SPState P.Q W) : SPState P.Q W :=
  match st.dv.find u, st.dv.find y with
  | some du, some dy =>
    if dy > du + c then
      ⟨st.kv, st.pv.assign y u, st.dv.assign y (du + c), P.push st.pq ⟨du + c, y⟩⟩
    else st
  | _, _ => st

/-- The number of entries the main loop can still push: the lengths of the outgoing lists of
the vertices that are not finalized. -/
def pot (g : Digraph VertexInfo EdgeInfo) (kv : StdMap Bool) : Nat :=
  (g.obj.map (fun ent => if kv.find ent.1 = some true then 0 else ent.2.edges.length)).sum

/-- A list of vertices in the order of their finalization, the latest first: the start
vertex came first and the predecessor of every other one was finalized before it. -/
inductive FinOrder (pv : Int → Option Int) (s : Int) : List Int → Prop
  | nil : FinOrder pv s []
  | start : FinOrder pv s [s]
  | cons {k p : Int} {fl : List Int} : FinOrder pv s fl → k ∉ fl → pv k = some p → p ∈ fl →
      FinOrder pv s (k :: fl)

/-- The part of the loop invariant of `findShortestPaths` that holds for every weight
function. -/
structure Inv0 (P : PriorityQueue W) (g : Digraph VertexInfo EdgeInfo) (s : Int)
    (st : SPState P.Q W) : Prop where
  kv_keys : ∀ k, (st.kv.find k).isSome = g.obj.count k
  pv_keys : ∀ k, (st.pv.find k).isSome = g.obj.count k
  dv_keys : ∀ k, (st.dv.find k).isSome = g.obj.count k
  pq_keys : ∀ x ∈ P.items st.pq, g.obj.count x.v = true
  pv_edge : ∀ k p, st.pv.find k = some p → p ≠ k → st.kv.find p = some true ∧ g.Edge p k
  fin_reach : ∀ k, st.kv.find k = some true → g.Reach s k
  pq_reach : ∀ x ∈ P.items st.pq, g.Reach s x.v
  pv_ord : st.pv.Ordered

/-- The part of the loop invariant of `findShortestPaths` that rests on non-negative
weights.  While the edges of the vertex `u` are relaxed, `pend` lists the destinations still
to come; between two iterations of the main loop `pend` is empty. -/
structure Inv1 (P : PriorityQueue W) (g : Digraph VertexInfo EdgeInfo) (w : EdgeInfo → W)
    (s : Int) (st : SPState P.Q W) (u : Int) (pend : List Int) : Prop where
  dv_s : st.dv.find s = some 0
  pv_s : st.pv.find s = some s
  dv_nonneg : ∀ k d, st.dv.find k = some d → 0 ≤ d
  dv_le_inf : ∀ k d, st.dv.find k = some d → d ≤ (INF : W)
  started : st.kv.find s = some true ∨
    ((∀ k, st.kv.find k ≠ some true) ∧ ∀ x ∈ P.items st.pq, x.v = s)
  pq_entry : ∀ y d, st.kv.find y = some false → st.dv.find y = some d →
    d = (INF : W) ∨ ∃ x ∈ P.items st.pq, x.v = y ∧ x.weight = d
  pq_ge : ∀ x ∈ P.items st.pq, ∀ d, st.dv.find x.v = some d → d ≤ x.weight
  fin_le : ∀ k y dk dy, st.kv.find k = some true → st.kv.find y = some false →
    st.dv.find k = some dk → st.dv.find y = some dy → dk ≤ dy
  cur_max : pend ≠ [] → ∀ k dk du, st.kv.find k = some true →
    st.dv.find k = some dk → st.dv.find u = some du → dk ≤ du
  pv_dist : ∀ k p, st.pv.find k = some p → p ≠ k →
    ∃ dk dp, st.dv.find k = some dk ∧ st.dv.find p = some dp ∧
      dk = dp + g.edgeW w p k ∧ dk < (INF : W)
  edge_relaxed : ∀ x y dx dy, st.kv.find x = some true → g.Edge x y →
    st.dv.find x = some dx → st.dv.find y = some dy →
    (x = u ∧ y ∈ pend) ∨ dy ≤ dx + g.edgeW w x y
  order : ∃ fl, FinOrder st.pv.find s fl ∧ fl.Nodup ∧ ∀ k, st.kv.find k = some true ↔ k ∈ fl
  pq_pred : ∀ x ∈ P.items st.pq, x.v = s ∨ ∃ p, st.pv.find x.v = some p ∧ p ≠ x.v

/-! ## Invariants of the depth-first search -/

/-- The number of entries of `obj` whose key is not marked in `visited`. -/
def unmarked (g : Digraph VertexInfo EdgeInfo) (visited : StdMap Bool) : Nat :=
  (g.obj.map (fun ent => if visited.find ent.1 = some true then 0 else 1)).sum

/-- What a stretch of the depth-first search below the vertex `r` does to `visited` and
`visit`: marks are only added, every vertex newly marked is reachable from `r` and has all
its successors marked, and `visit` grows by the newly marked vertices, each once. -/
structure DfsPost (g : Digraph VertexInfo EdgeInfo) (r : Int) (vis : StdMap Bool)
    (visit : List Int) (vis' : StdMap Bool) (visit' : List Int) : Prop where
  keys : ∀ k, (vis'.find k).isSome = (vis.find k).isSome
  mono : ∀ k, vis.find k = some true → vis'.find k = some true
  reach : ∀ x, vis'.find x = some true → vis.find x ≠ some true → g.Reach r x
  closed : ∀ x y, vis'.find x = some true → vis.find x ≠ some true → g.Edge x y →
    vis'.find y = some true
  visit : ∃ new, visit' = visit ++ new ∧ new.Nodup ∧
    ∀ x, x ∈ new ↔ (vis'.find x = some true ∧ vis.find x ≠ some true)

end Digraph

namespace Digraph

variable {VertexInfo EdgeInfo : Type}

/-! ## Removal -/

/-- The outcome of a call of a member function that changes the object: how the call ends
and the graph the object holds at that point. -/
structure Call (VertexInfo EdgeInfo : Type) where
  result : Except Exn Unit
  after : Digraph VertexInfo EdgeInfo

/-- The graph a call returns with, or the way in which it does not return. -/
def Call.toExcept (c : Call VertexInfo EdgeInfo) : Except Exn (Digraph VertexInfo EdgeInfo) :=
  match c.result with
  | .ok _ => .ok c.after
  | .error e => .error e

/-- The loop `for (iter = l.begin(); iter != l.end(); ++iter) if (iter->toVertex == vertex)
l.erase(iter);` of `removeVertex` and `removeEdge` over a `std::list`.  The first list holds
the records already passed, the second the records from `iter` on.  `erase(iter)`
invalidates `iter`, so that the `++iter` that follows it is undefined.  Returns how the loop
ends and the list at that point. -/
def eraseLoop (vertex : Int) :
    List (DigraphEdge EdgeInfo) → List (DigraphEdge EdgeInfo) →
    Except Exn Unit × List (DigraphEdge EdgeInfo)
  | done, [] => (.ok (), done)
  | done, e :: rest =>
    if e.toVertex == vertex then (.error .undefined, done ++ rest)
    else eraseLoop vertex (done ++ [e]) rest

/-- The loop `for (auto& outer: obj)` of `removeVertex`: the first map holds the entries
already scanned, the second the entries still to scan. -/
def removeVertexLoop (vertex : Int) :
    StdMap (DigraphVertex VertexInfo EdgeInfo) → StdMap (DigraphVertex VertexInfo EdgeInfo) →
    Except Exn Unit × StdMap (DigraphVertex VertexInfo EdgeInfo)
  | done, [] => (.ok (), done)
  | done, outer :: rest =>
    match eraseLoop vertex [] outer.2.edges with
    | (.ok _, l) => removeVertexLoop vertex (done ++ [(outer.1, ⟨outer.2.vinfo, l⟩)]) rest
    | (.error e, l) => (.error e, done ++ (outer.1, ⟨outer.2.vinfo, l⟩) :: rest)

/-- The member `removeVertex(int vertex)` as a call on the object `g`. -/
def removeVertexCall (g : Digraph VertexInfo EdgeInfo) (vertex : Int) :
    Call VertexInfo EdgeInfo :=
  if g.obj.count vertex then
    let r := removeVertexLoop vertex [] (g.obj.erase vertex)
    ⟨r.1, ⟨r.2⟩⟩
  else ⟨.error .DigraphException, g⟩

/-- The member `removeEdge(int fromVertex, int toVertex)` as a call on the object `g`. -/
def removeEdgeCall (g : Digraph VertexInfo EdgeInfo) (fromVertex toVertex : Int) :
    Call VertexInfo EdgeInfo :=
  match g.edgesOf fromVertex with
  | .error e => ⟨.error e, g⟩
  | .ok from_ =>
    if g.obj.count fromVertex && g.obj.count toVertex then
      if (fromVertex, toVertex) ∈ from_ then
        match g.obj.at_ fromVertex with
        | .error e => ⟨.error e, g⟩
        | .ok vr =>
          let r := eraseLoop toVertex [] vr.edges
          ⟨r.1, ⟨g.obj.assign fromVertex ⟨vr.vinfo, r.2⟩⟩⟩
      else ⟨.error .DigraphException, g⟩
    else ⟨.error .DigraphException, g⟩

/-- The member `addVertex` as a call on the object `g`. -/
def addVertexCall (g : Digraph VertexInfo EdgeInfo) (vertex : Int) (vinfo : VertexInfo) :
    Call VertexInfo EdgeInfo :=
  if !(g.obj.count vertex) then ⟨.ok (), ⟨g.obj.emplace vertex ⟨vinfo, []⟩⟩⟩
  else ⟨.error .DigraphException, g⟩

/-- The member `addEdge` as a call on the object `g`. -/
def addEdgeCall (g : Digraph VertexInfo EdgeInfo) (fromVertex toVertex : Int)
    (einfo : EdgeInfo) : Call VertexInfo EdgeInfo :=
  match g.edgesOf fromVertex with
  | .error e => ⟨.error e, g⟩
  | .ok from_ =>
    if g.obj.count fromVertex && g.obj.count toVertex then
      if (fromVertex, toVertex) ∈ from_ then ⟨.error .DigraphException, g⟩
      else
        match g.obj.at_ fromVertex with
        | .error e => ⟨.error e, g⟩
        | .ok vr =>
          ⟨.ok (), ⟨g.obj.assign fromVertex
            ⟨vr.vinfo, vr.edges ++ [⟨fromVertex, toVertex, einfo⟩]⟩⟩⟩
    else ⟨.error .DigraphException, g⟩

/-- The member `removeVertex(int vertex)`: the graph it returns with. -/
def removeVertex (g : Digraph VertexInfo EdgeInfo) (vertex : Int) :
    Except Exn (Digraph VertexInfo EdgeInfo) :=
  (g.removeVertexCall vertex).toExcept

/-- The member `removeEdge(int fromVertex, int toVertex)`: the graph it returns with. -/
def removeEdge (g : Digraph VertexInfo EdgeInfo) (fromVertex toVertex : Int) :
    Except Exn (Digraph VertexInfo EdgeInfo) :=
  (g.removeEdgeCall fromVertex toVertex).toExcept

/-- A call of one of the four mutating member functions with its arguments. -/
inductive Op (VertexInfo EdgeInfo : Type) where
  | addVertex (vertex : Int) (vinfo : VertexInfo)
  | addEdge (fromVertex toVertex : Int) (einfo : EdgeInfo)
  | removeVertex (vertex : Int)
  | removeEdge (fromVertex toVertex : Int)

/-- The call `op` on the object `g`. -/
def Op.call : Op VertexInfo EdgeInfo → Digraph VertexInfo EdgeInfo → Call VertexInfo EdgeInfo
  | .addVertex vertex vinfo, g => g.addVertexCall vertex vinfo
  | .addEdge fromVertex toVertex einfo, g => g.addEdgeCall fromVertex toVertex einfo
  | .removeVertex vertex, g => g.removeVertexCall vertex
  | .removeEdge fromVertex toVertex, g => g.removeEdgeCall fromVertex toVertex

/-- The graph an object holds after a sequence of calls, each of which returns or throws;
there is none when a call runs into undefined behaviour. -/
def runCalls : List (Op VertexInfo EdgeInfo) → Digraph VertexInfo EdgeInfo →
    Option (Digraph VertexInfo EdgeInfo)
  | [], g => some g
  | op :: ops, g =>
    match (op.call g).result with
    | .error .undefined => none
    | _ => runCalls ops (op.call g).after

/-- No outgoing list holds two records with the same `toVertex`. -/
def Simple (g : Digraph VertexInfo EdgeInfo) : Prop :=
  ∀ ent ∈ g.obj, (ent.2.edges.map (fun e => e.toVertex)).Nodup

instance (g : Digraph VertexInfo EdgeInfo) : Decidable g.Simple :=
  inferInstanceAs (Decidable (∀ ent ∈ g.obj,
    (ent.2.edges.map (fun (e : DigraphEdge EdgeInfo) => e.toVertex)).Nodup))

/-! ## Copying and moving -/

/-- The copy constructor `Digraph(const Digraph& d)`: the loop `obj[ent.first] = ent.second`
from the empty map of the new object. -/
def copy [Inhabited VertexInfo] (d : Digraph VertexInfo EdgeInfo) : Digraph VertexInfo EdgeInfo :=
  ⟨d.obj.foldl (fun (obj : StdMap (DigraphVertex VertexInfo EdgeInfo)) ent =>
    (obj.emplace ent.1 ⟨default, []⟩).assign ent.1 ent.2) []⟩

/-- The move constructor `Digraph(Digraph&& d)`: `std::swap(obj, d.obj)` with the empty map
of the new object.  Returns the new object and `d` after the call. -/
def moveConstruct (d : Digraph VertexInfo EdgeInfo) :
    Digraph VertexInfo EdgeInfo × Digraph VertexInfo EdgeInfo :=
  (⟨d.obj⟩, ⟨[]⟩)

/-- A name for one of two objects. -/
inductive Ref where
  | fst
  | snd
  deriving DecidableEq

/-- Two graph objects side by side. -/
structure Objects (VertexInfo EdgeInfo : Type) where
  fst : Digraph VertexInfo EdgeInfo
  snd : Digraph VertexInfo EdgeInfo

/-- The object a name stands for. -/
def Objects.get (st : Objects VertexInfo EdgeInfo) : Ref → Digraph VertexInfo EdgeInfo
  | .fst => st.fst
  | .snd => st.snd

/-- The objects after the one named is given a new value. -/
def Objects.set (st : Objects VertexInfo EdgeInfo) :
    Ref → Digraph VertexInfo EdgeInfo → Objects VertexInfo EdgeInfo
  | .fst, g => ⟨g, st.snd⟩
  | .snd, g => ⟨st.fst, g⟩

/-- The copy assignment `operator=(const Digraph& d)` on the object named `this`, where `d`
may name the same object: `obj.clear()`, then the loop `obj[ent.first] = ent.second` over
`d.obj`. -/
def copyAssign [Inhabited VertexInfo] (this d : Ref) (st : Objects VertexInfo EdgeInfo) :
    Objects VertexInfo EdgeInfo :=
  let st1 := st.set this ⟨[]⟩
  (st1.get d).obj.foldl (fun (s : Objects VertexInfo EdgeInfo) ent =>
    s.set this ⟨((s.get this).obj.emplace ent.1 ⟨default, []⟩).assign ent.1 ent.2⟩) st1

/-- The move assignment `operator=(Digraph&& d)` on the object named `this`:
`std::swap(obj, d.obj)`. -/
def moveAssign (this d : Ref) (st : Objects VertexInfo EdgeInfo) :
    Objects VertexInfo EdgeInfo :=
  (st.set this (st.get d)).set d (st.get this)

/-- The calls `ops` made on the object named `r`. -/
def callsOn (r : Ref) (ops : List (Op VertexInfo EdgeInfo)) (st : Objects VertexInfo EdgeInfo) :
    Option (Objects VertexInfo EdgeInfo) :=
  (runCalls ops (st.get r)).map (fun g => st.set r g)

/-- The invariants of the data model: `obj` is a `std::map`, every edge record lies in the
list of its own `fromVertex` and ends in a vertex, and no list holds two records with the
same `toVertex`. -/
def Valid (g : Digraph VertexInfo EdgeInfo) : Prop :=
  g.obj.Ordered ∧ g.OwnEdges ∧ g.Closed ∧ g.Simple

instance (g : Digraph VertexInfo EdgeInfo) : Decidable g.Valid :=
  inferInstanceAs (Decidable (g.obj.Ordered ∧ g.OwnEdges ∧ g.Closed ∧ g.Simple))

end Digraph

namespace Digraph

variable {VertexInfo EdgeInfo : Type} {W : Type} [LinearOrderedCommRing W]

/-! ## The main loop of the shortest-path engine with a record of what it does -/

/-- What one iteration of the main loop of `findShortestPaths` does with the entry `ver` it
pops: with `kv.at(ver.v)` unset it sets `kv.at(ver.v) = 1` and runs the inner loop, which
calls `pq.push` a number of times; otherwise the body of the `if` is skipped. -/
inductive SPEvent where
  | finalized (v : Int) (pushed : Nat)
  | discarded (v : Int)
  deriving DecidableEq

/-- The vertices that a record of iterations marks with `kv.at(ver.v) = 1`. -/
def finalizedOf : List SPEvent → List Int
  | [] => []
  | .finalized v _ :: rest => v :: finalizedOf rest
  | .discarded _ :: rest => finalizedOf rest

/-- The number of calls of `pq.push` in a record of iterations. -/
def pushedOf : List SPEvent → Nat
  | [] => 0
  | .finalized _ k :: rest => k + pushedOf rest
  | .discarded _ :: rest => pushedOf rest

/-- The inner loop `relax` of `findShortestPaths` together with a counter that is stepped
where the source calls `pq.push(V{tot, e.second})`. -/
def relaxLog (P : PriorityQueue W) (g : Digraph VertexInfo EdgeInfo)
    (edgeWeightFunc : EdgeInfo → W) (ver_v : Int) :
    List (Int × Int) → SPState P.Q W → Nat → Except Exn (SPState P.Q W × Nat)
  | [], st, pushed => .ok (st, pushed)
  | e :: rest, st, pushed =>
    match g.edgeInfo e.1 e.2 with
    | .error x => .error x
    | .ok einf =>
      let (d, dv) := st.dv.index ver_v 0
      let tot := d + edgeWeightFunc einf
      match dv.at_ e.2 with
      | .error x => .error x
      | .ok tidis =>
        if tidis > tot then
          match st.pv.at_ e.2 with
          | .error x => .error x
          | .ok _ =>
            relaxLog P g edgeWeightFunc ver_v rest
              ⟨st.kv, st.pv.assign e.2 ver_v, dv.assign e.2 tot, P.push st.pq ⟨tot, e.2⟩⟩
              (pushed + 1)
        else relaxLog P g edgeWeightFunc ver_v rest ⟨st.kv, st.pv, dv, st.pq⟩ pushed

/-- The main loop `spLoop` of `findShortestPaths` together with the record of its
iterations, the latest first; the first argument bounds the number of iterations. -/
def spLoopLog (P : PriorityQueue W) (g : Digraph VertexInfo EdgeInfo)
    (edgeWeightFunc : EdgeInfo → W) :
    Nat → SPState P.Q W → List SPEvent → Except Exn (SPState P.Q W × List SPEvent)
  | 0, _, _ => .error .fuel
  | n + 1, st, log =>
    match P.pop st.pq with
    | none => .ok (st, log)
    | some (ver, pq) =>
      match st.kv.at_ ver.v with
      | .error x => .error x
      | .ok b =>
        if !b then
          match g.edgesOf ver.v with
          | .error x => .error x
          | .ok eg =>
            match relaxLog P g edgeWeightFunc ver.v eg
                ⟨st.kv.assign ver.v true, st.pv, st.dv, pq⟩ 0 with
            | .error x => .error x
            | .ok (st', k) => spLoopLog P g edgeWeightFunc n st' (.finalized ver.v k :: log)
        else spLoopLog P g edgeWeightFunc n ⟨st.kv, st.pv, st.dv, pq⟩ (.discarded ver.v :: log)

/-- The local variables of `findShortestPaths` when the main loop is entered: the maps of
the initialisation loop and the queue after `pq.push(V{0, startVertex})`. -/
def spInit (P : PriorityQueue W) (g : Digraph VertexInfo EdgeInfo) (startVertex : Int) :
    SPState P.Q W :=
  let (kv, pv, dv) :=
    initMaps startVertex g.obj (([], [], []) : StdMap Bool × StdMap Int × StdMap W)
  ⟨kv, pv, dv, P.push P.empty ⟨0, startVertex⟩⟩

/-- The invariant that ties the state of the main loop of `findShortestPaths` to the record
of its iterations: no vertex is marked twice, the marked vertices are those with `kv` set,
every skipped entry belongs to a vertex marked before, every entry pushed so far (the first
one and those of the inner loop) is in the queue or was popped by one of the iterations, and
the pushes made together with the edges of the unmarked vertices do not exceed
`edgeCount()`. -/
structure LogInv (P : PriorityQueue W) (g : Digraph VertexInfo EdgeInfo) (st : SPState P.Q W)
    (log : List SPEvent) : Prop where
  nodup : (finalizedOf log).Nodup
  marked : ∀ v, st.kv.find v = some true ↔ v ∈ finalizedOf log
  stale : ∀ post v pre, log = post ++ .discarded v :: pre → v ∈ finalizedOf pre
  balance : (P.items st.pq).length + log.length = 1 + pushedOf log
  budget : pushedOf log + pot g st.kv ≤ g.edgeCount

end Digraph

namespace Digraph

variable {VertexInfo EdgeInfo : Type} {W : Type} [LinearOrderedCommRing W]

/-! ## Shortest paths with the addition of the machine -/

/-- The inner loop of `findShortestPaths` with the addition of the machine: `add` stands for
the `+` of `double` in `double tot = dv[ver.v] + edgeWeightFunc(einf)`, which rounds, and `W`
for the values of `double` other than NaN, whose comparison `tidis > tot` is exact.  With
`add` the exact sum this is `relax`. -/
def relaxWith (P : PriorityQueue W) (g : Digraph VertexInfo EdgeInfo) (add : W → W → W)
    (edgeWeightFunc : EdgeInfo → W) (ver_v : Int) :
    List (Int × Int) → SPState P.Q W → Except Exn (SPState P.Q W)
  | [], st => .ok st
  | e :: rest, st =>
    match g.edgeInfo e.1 e.2 with
    | .error x => .error x
    | .ok einf =>
      let (d, dv) := st.dv.index ver_v 0
      let tot := add d (edgeWeightFunc einf)
      match dv.at_ e.2 with
      | .error x => .error x
      | .ok tidis =>
        if tidis > tot then
          match st.pv.at_ e.2 with
          | .error x => .error x
          | .ok _ =>
            relaxWith P g add edgeWeightFunc ver_v rest
              ⟨st.kv, st.pv.assign e.2 ver_v, dv.assign e.2 tot, P.push st.pq ⟨tot, e.2⟩⟩
        else relaxWith P g add edgeWeightFunc ver_v rest ⟨st.kv, st.pv, dv, st.pq⟩

/-- The main loop of `findShortestPaths` with the addition of the machine; the first
argument bounds the number of iterations. -/
def spLoopWith (P : PriorityQueue W) (g : Digraph VertexInfo EdgeInfo) (add : W → W → W)
    (edgeWeightFunc : EdgeInfo → W) : Nat → SPState P.Q W → Except Exn (SPState P.Q W)
  | 0, _ => .error .fuel
  | n + 1, st =>
    match P.pop st.pq with
    | none => .ok st
    | some (ver, pq) =>
      match st.kv.at_ ver.v with
      | .error x => .error x
      | .ok b =>
        if !b then
          match g.edgesOf ver.v with
          | .error x => .error x
          | .ok eg =>
            match relaxWith P g add edgeWeightFunc ver.v eg
                ⟨st.kv.assign ver.v true, st.pv, st.dv, pq⟩ with
            | .error x => .error x
            | .ok st' => spLoopWith P g add edgeWeightFunc n st'
        else spLoopWith P g add edgeWeightFunc n ⟨st.kv, st.pv, st.dv, pq⟩

/-- The member `findShortestPaths(startVertex, edgeWeightFunc)` with the addition of the
machine: the only arithmetic of the function is the sum `dv[ver.v] + edgeWeightFunc(einf)`,
formed by `add`; the constants `INF` and `0` and the comparisons are exact. -/
def findShortestPathsWith (P : PriorityQueue W) (g : Digraph VertexInfo EdgeInfo)
    (add : W → W → W) (startVertex : Int) (edgeWeightFunc : EdgeInfo → W) :
    Except Exn (StdMap Int) :=
  let (kv, pv, dv) := initMaps startVertex g.obj (([], [], []) : StdMap Bool × StdMap Int × StdMap W)
  match spLoopWith P g add edgeWeightFunc (g.edgeCount + 2)
      ⟨kv, pv, dv, P.push P.empty ⟨0, startVertex⟩⟩ with
  | .error x => .error x
  | .ok st => .ok st.pv

end Digraph

/-! ## The addition of `double` -/

/-- The weight function that reads a natural-number label as its own weight. -/
def natWeight (e : Nat) : Int := e

/-- The graph of the scenario of the specification: vertices 1, 2, 3 and the edges
1 → 2 (5), 2 → 3 (2), 1 → 3 (100), added in this order. -/
def roadGraph : Digraph Unit Nat :=
  ⟨[(1, ⟨(), [⟨1, 2, 5⟩, ⟨1, 3, 100⟩]⟩), (2, ⟨(), [⟨2, 3, 2⟩]⟩), (3, ⟨(), []⟩)]⟩

/-- The graph `roadGraph` with the isolated vertex 4 added. -/
def roadGraph4 : Digraph Unit Nat :=
  ⟨[(1, ⟨(), [⟨1, 2, 5⟩, ⟨1, 3, 100⟩]⟩), (2, ⟨(), [⟨2, 3, 2⟩]⟩), (3, ⟨(), []⟩),
    (4, ⟨(), []⟩)]⟩

/-- Two vertices joined by one edge whose weight is the value of `INF`. -/
def farGraph : Digraph Unit Nat :=
  ⟨[(1, ⟨(), [⟨1, 2, 1061109567⟩]⟩), (2, ⟨(), []⟩)]⟩

/-- A single vertex without edges. -/
def oneVertex : Digraph Unit Nat := ⟨[(7, ⟨(), []⟩)]⟩

/-- A cycle through the vertices 1, 2, 3. -/
def cycleGraph : Digraph Unit Nat :=
  ⟨[(1, ⟨(), [⟨1, 2, 1⟩]⟩), (2, ⟨(), [⟨2, 3, 1⟩]⟩), (3, ⟨(), [⟨3, 1, 1⟩]⟩)]⟩

/-- The calls made on the empty graph in the witnesses of the invariants: two vertices, an
edge, a refused duplicate, a loop, the removal of a vertex without incoming edge and a
refused removal. -/
def sampleCalls : List (Digraph.Op Unit Nat) :=
  [.addVertex 1 (), .addVertex 2 (), .addEdge 1 2 5, .addEdge 1 2 6, .addEdge 2 2 1,
    .removeVertex 1, .removeVertex 9]

/-- Vertices 1, 2, 3 with the edges 1 → 2 and 3 → 2: the vertex 2 has two incoming edges. -/
def danglingGraph : Digraph Unit Nat :=
  ⟨[(1, ⟨(), [⟨1, 2, 5⟩]⟩), (2, ⟨(), []⟩), (3, ⟨(), [⟨3, 2, 6⟩]⟩)]⟩

/-- The calls that make `danglingGraph` from the empty graph. -/
def danglingCalls : List (Digraph.Op Unit Nat) :=
  [.addVertex 1 (), .addVertex 2 (), .addVertex 3 (), .addEdge 1 2 5, .addEdge 3 2 6]

/-! # Proofs -/

/-! ## Lemmas on `StdMap` -/

namespace StdMap

variable {X : Type}

theorem find_insertSorted_self (m : StdMap X) (k : Int) (x : X) (h : m.find k = none) :
    (m.insertSorted k x).find k = some x := by
  induction m with
  | nil => simp [insertSorted, find]
  | cons a rest ih =>
    obtain ⟨k', x'⟩ := a
    simp only [find] at h
    split at h
    · exact absurd h (by simp)
    · rename_i hne
      simp only [insertSorted]
      split
      · simp [find]
      · simp [find, hne, ih h]

theorem find_insertSorted_ne (m : StdMap X) (k k' : Int) (x : X) (h : k' ≠ k) :
    (m.insertSorted k x).find k' = m.find k' := by
  induction m with
  | nil => simp [insertSorted, find, Ne.symm h]
  | cons a rest ih =>
    obtain ⟨k₁, x₁⟩ := a
    simp only [insertSorted]
    split
    · simp [find, Ne.symm h]
    · simp [find, ih]

theorem find_emplace_self (m : StdMap X) (k : Int) (x : X) :
    (m.emplace k x).find k = some ((m.find k).getD x) := by
  unfold emplace count
  cases h : m.find k with
  | none => simp [find_insertSorted_self m k x h]
  | some y => simp [h]

theorem find_emplace_ne (m : StdMap X) (k k' : Int) (x : X) (h : k' ≠ k) :
    (m.emplace k x).find k' = m.find k' := by
  unfold emplace
  split
  · rfl
  · exact find_insertSorted_ne m k k' x h

theorem emplace_of_find (m : StdMap X) (k : Int) (x y : X) (h : m.find k = some y) :
    m.emplace k x = m := by
  simp [emplace, count, h]

theorem find_assign_self (m : StdMap X) (k : Int) (x : X) :
    (m.assign k x).find k = (m.find k).map (fun _ => x) := by
  induction m with
  | nil => simp [assign, find]
  | cons a rest ih =>
    obtain ⟨k₁, x₁⟩ := a
    simp only [assign]
    split
    · rename_i h; simp [find, h]
    · rename_i h; simp [find, h, ih]

theorem find_assign_ne (m : StdMap X) (k k' : Int) (x : X) (h : k' ≠ k) :
    (m.assign k x).find k' = m.find k' := by
  induction m with
  | nil => simp [assign, find]
  | cons a rest ih =>
    obtain ⟨k₁, x₁⟩ := a
    simp only [assign]
    split
    · rename_i h1; subst h1; simp [find, Ne.symm h]
    · rename_i h1
      simp only [find]
      split
      · rfl
      · exact ih

theorem find_assign (m : StdMap X) (k k' : Int) (x : X) :
    (m.assign k x).find k' = if k' = k then (m.find k).map (fun _ => x) else m.find k' := by
  split
  · rename_i h; subst h; exact find_assign_self m _ x
  · rename_i h; exact find_assign_ne m k k' x h

theorem isSome_find_assign (m : StdMap X) (k k' : Int) (x : X) :
    ((m.assign k x).find k').isSome = (m.find k').isSome := by
  rw [find_assign]
  split
  · rename_i h; subst h; cases m.find k' <;> rfl
  · rfl

theorem keys_assign (m : StdMap X) (k : Int) (x : X) : (m.assign k x).keys = m.keys := by
  induction m with
  | nil => rfl
  | cons a rest ih =>
    obtain ⟨k₁, x₁⟩ := a
    simp only [assign]
    split
    · simp [keys]
    · simp only [keys, List.map_cons] at ih ⊢
      rw [ih]

theorem length_assign (m : StdMap X) (k : Int) (x : X) : (m.assign k x).length = m.length := by
  have := congrArg List.length (keys_assign m k x)
  simpa [keys] using this

theorem index_of_find (m : StdMap X) (k : Int) (d y : X) (h : m.find k = some y) :
    m.index k d = (y, m) := by
  simp [index, emplace_of_find m k d y h, h]

theorem find_isSome_iff_mem_keys (m : StdMap X) (k : Int) :
    (m.find k).isSome = true ↔ k ∈ m.keys := by
  induction m with
  | nil => simp [find, keys]
  | cons a rest ih =>
    obtain ⟨k₁, x₁⟩ := a
    simp only [find, keys, List.map_cons, List.mem_cons]
    split
    · rename_i h; simp [h]
    · rename_i h
      simp only [keys] at ih
      rw [ih]
      constructor
      · intro h1; exact Or.inr h1
      · rintro (h1 | h1)
        · exact absurd h1.symm h
        · exact h1

theorem count_iff_mem_keys (m : StdMap X) (k : Int) : m.count k = true ↔ k ∈ m.keys :=
  find_isSome_iff_mem_keys m k

theorem find_mem (m : StdMap X) (k : Int) (x : X) (h : m.find k = some x) : (k, x) ∈ m := by
  induction m with
  | nil => simp [find] at h
  | cons a rest ih =>
    obtain ⟨k₁, x₁⟩ := a
    simp only [find] at h
    split at h
    · rename_i h1
      simp only [Option.some.injEq] at h
      subst h1 h
      exact List.mem_cons_self _ _
    · exact List.mem_cons_of_mem _ (ih h)

theorem count_emplace (m : StdMap X) (k k' : Int) (x : X) :
    (m.emplace k x).count k' = (decide (k' = k) || m.count k') := by
  unfold count
  by_cases h : k' = k
  · subst h; simp [find_emplace_self]
  · simp [find_emplace_ne m k k' x h, h]

theorem count_assign (m : StdMap X) (k k' : Int) (x : X) :
    (m.assign k x).count k' = m.count k' := by
  unfold count; exact isSome_find_assign m k k' x

theorem at_eq_ok (m : StdMap X) (k : Int) (x : X) (h : m.find k = some x) : m.at_ k = .ok x := by
  simp [at_, h]

theorem at_eq_error (m : StdMap X) (k : Int) (h : m.find k = none) :
    m.at_ k = .error .out_of_range := by
  simp [at_, h]

theorem find_assign_some {X : Type} (m : StdMap X) (k k' : Int) (x x0 : X)
    (h : m.find k = some x0) :
    (m.assign k x).find k' = if k' = k then some x else m.find k' := by
  rw [StdMap.find_assign, h]; rfl

theorem exists_find_of_count {X : Type} (m : StdMap X) (k : Int)
    (h : (m.find k).isSome = true) : ∃ x, m.find k = some x :=
  Option.isSome_iff_exists.1 h

theorem mem_keys_insertSorted (m : StdMap X) (k k' : Int) (x : X) :
    k' ∈ (m.insertSorted k x).keys ↔ k' = k ∨ k' ∈ m.keys := by
  induction m with
  | nil => simp [insertSorted, keys]
  | cons a rest ih =>
    obtain ⟨k₁, x₁⟩ := a
    simp only [insertSorted]
    split
    · simp [keys]
    · simp only [keys, List.map_cons, List.mem_cons] at ih ⊢
      rw [ih]
      tauto

theorem ordered_insertSorted (m : StdMap X) (k : Int) (x : X) (h : m.Ordered)
    (hk : k ∉ m.keys) : (m.insertSorted k x).Ordered := by
  induction m with
  | nil => simp [insertSorted, Ordered, keys]
  | cons a rest ih =>
    obtain ⟨k₁, x₁⟩ := a
    have h' : (k₁ :: keys rest).Pairwise (· < ·) := h
    obtain ⟨h1, h2⟩ := List.pairwise_cons.1 h'
    have hk1 : k ≠ k₁ := fun e => hk (by simp [keys, e])
    have hk2 : k ∉ keys rest := fun e => hk (by
      simp only [keys, List.map_cons, List.mem_cons]; exact Or.inr e)
    simp only [insertSorted]
    split
    · rename_i hlt
      show (k :: k₁ :: keys rest).Pairwise (· < ·)
      refine List.pairwise_cons.2 ⟨?_, h'⟩
      intro z hz
      rcases List.mem_cons.1 hz with rfl | hz
      · exact hlt
      · exact lt_trans hlt (h1 z hz)
    · rename_i hlt
      show (k₁ :: keys (insertSorted rest k x)).Pairwise (· < ·)
      refine List.pairwise_cons.2 ⟨?_, ih h2 hk2⟩
      intro z hz
      rcases (mem_keys_insertSorted rest k z x).1 hz with rfl | hz
      · exact lt_of_le_of_ne (not_lt.1 hlt) (Ne.symm hk1)
      · exact h1 z hz

theorem ordered_emplace (m : StdMap X) (k : Int) (x : X) (h : m.Ordered) :
    (m.emplace k x).Ordered := by
  unfold emplace
  split
  · exact h
  · rename_i hc
    exact ordered_insertSorted m k x h (fun e => hc ((count_iff_mem_keys m k).2 e))

theorem find_of_mem_ordered (m : StdMap X) (h : m.Ordered) (k : Int) (x : X)
    (hm : (k, x) ∈ m) : m.find k = some x := by
  induction m with
  | nil => cases hm
  | cons a rest ih =>
    obtain ⟨k₁, x₁⟩ := a
    have h' : (k₁ :: keys rest).Pairwise (· < ·) := h
    obtain ⟨h1, h2⟩ := List.pairwise_cons.1 h'
    rcases List.mem_cons.1 hm with e | e
    · cases e; simp [find]
    · have hne : k₁ ≠ k := by
        intro e'
        have : k ∈ keys rest := List.mem_map.2 ⟨(k, x), e, rfl⟩
        have := h1 k this
        omega
      simp only [find, if_neg hne]
      exact ih h2 e

/-! ### Erasing and copying -/

theorem find_erase_ne (m : StdMap X) (k k' : Int) (h : k' ≠ k) :
    (m.erase k).find k' = m.find k' := by
  induction m with
  | nil => rfl
  | cons a rest ih =>
    obtain ⟨k₁, x₁⟩ := a
    simp only [erase]
    split
    · rename_i h1; subst h1; simp [find, Ne.symm h]
    · simp only [find]
      split
      · rfl
      · exact ih

theorem erase_sublist (m : StdMap X) (k : Int) : List.Sublist (m.erase k) m := by
  induction m with
  | nil => exact List.Sublist.refl _
  | cons a rest ih =>
    obtain ⟨k₁, x₁⟩ := a
    simp only [erase]
    split
    · exact List.sublist_cons_self _ _
    · exact ih.cons₂ _

theorem mem_of_mem_erase (m : StdMap X) (k : Int) (a : Int × X) (h : a ∈ m.erase k) : a ∈ m :=
  (erase_sublist m k).subset h

theorem ordered_erase (m : StdMap X) (k : Int) (h : m.Ordered) : (m.erase k).Ordered := by
  unfold Ordered keys at *
  exact h.sublist ((erase_sublist m k).map _)

theorem find_erase_self (m : StdMap X) (k : Int) (h : m.Ordered) : (m.erase k).find k = none := by
  induction m with
  | nil => rfl
  | cons a rest ih =>
    obtain ⟨k₁, x₁⟩ := a
    have h' : (k₁ :: keys rest).Pairwise (· < ·) := h
    obtain ⟨h1, h2⟩ := List.pairwise_cons.1 h'
    simp only [erase]
    split
    · rename_i hk
      subst hk
      cases hf : find rest k₁ with
      | none => rfl
      | some x =>
        have := h1 k₁ ((find_isSome_iff_mem_keys rest k₁).1 (by rw [hf]; rfl))
        omega
    · rename_i hk
      simp only [find, if_neg hk]
      exact ih h2

theorem mem_insertSorted (m : StdMap X) (k : Int) (x : X) (a : Int × X) :
    a ∈ m.insertSorted k x ↔ a = (k, x) ∨ a ∈ m := by
  induction m with
  | nil => simp [insertSorted]
  | cons b rest ih =>
    obtain ⟨k₁, x₁⟩ := b
    simp only [insertSorted]
    split
    · simp
    · simp only [List.mem_cons, ih]
      tauto

theorem mem_emplace (m : StdMap X) (k : Int) (x : X) (a : Int × X) (h : a ∈ m.emplace k x) :
    a = (k, x) ∨ a ∈ m := by
  unfold emplace at h
  split at h
  · exact Or.inr h
  · exact (mem_insertSorted m k x a).1 h

theorem mem_assign (m : StdMap X) (k : Int) (x : X) (a : Int × X) (h : a ∈ m.assign k x) :
    a = (k, x) ∨ a ∈ m := by
  induction m with
  | nil => simp [assign] at h
  | cons b rest ih =>
    obtain ⟨k₁, x₁⟩ := b
    simp only [assign] at h
    split at h
    · rename_i hk
      rcases List.mem_cons.1 h with e | e
      · left; rw [e, hk]
      · exact Or.inr (List.mem_cons_of_mem _ e)
    · rcases List.mem_cons.1 h with e | e
      · right; rw [e]; exact List.mem_cons_self _ _
      · rcases ih e with e' | e'
        · exact Or.inl e'
        · exact Or.inr (List.mem_cons_of_mem _ e')

theorem ordered_assign (m : StdMap X) (k : Int) (x : X) (h : m.Ordered) :
    (m.assign k x).Ordered := by
  unfold Ordered
  rw [keys_assign]
  exact h

theorem insertSorted_of_lt (m : StdMap X) (k : Int) (x : X) (h : ∀ k' ∈ m.keys, k' < k) :
    m.insertSorted k x = m ++ [(k, x)] := by
  induction m with
  | nil => rfl
  | cons b rest ih =>
    obtain ⟨k₁, x₁⟩ := b
    have h1 : k₁ < k := h k₁ (by simp [keys])
    have h2 : ∀ k' ∈ keys rest, k' < k := fun k' hk' => h k' (by
      simp only [keys, List.map_cons, List.mem_cons]; exact Or.inr hk')
    simp only [insertSorted, if_neg (not_lt.2 (le_of_lt h1)), ih h2, List.cons_append]

theorem assign_append_last (m : StdMap X) (k : Int) (x y : X) (h : k ∉ m.keys) :
    (m ++ [(k, y)]).assign k x = m ++ [(k, x)] := by
  induction m with
  | nil => simp [assign]
  | cons b rest ih =>
    obtain ⟨k₁, x₁⟩ := b
    have h1 : k₁ ≠ k := fun e => h (by simp [keys, e])
    have h2 : k ∉ keys rest := fun e => h (by
      simp only [keys, List.map_cons, List.mem_cons]; exact Or.inr e)
    show assign ((k₁, x₁) :: (rest ++ [(k, y)])) k x = (k₁, x₁) :: (rest ++ [(k, x)])
    simp only [assign, if_neg h1, ih h2]

/-- The statement `m[k] = x` on a map all of whose keys are below `k` puts the entry at the
end. -/
theorem subscript_assign_of_lt (m : StdMap X) (k : Int) (x d : X) (h : ∀ k' ∈ m.keys, k' < k) :
    (m.emplace k d).assign k x = m ++ [(k, x)] := by
  have hk : k ∉ m.keys := fun e => lt_irrefl k (h k e)
  have hc : m.count k = false := by
    cases hcc : m.count k with
    | false => rfl
    | true => exact absurd ((count_iff_mem_keys m k).1 hcc) hk
  simp only [emplace, hc, Bool.false_eq_true, if_false, insertSorted_of_lt m k d h]
  exact assign_append_last m k x d hk

theorem copy_loop (l : StdMap X) (d : Int → X) :
    ∀ (acc : StdMap X), (acc ++ l).Ordered →
      l.foldl (fun (obj : StdMap X) ent => (obj.emplace ent.1 (d ent.1)).assign ent.1 ent.2) acc
        = acc ++ l := by
  induction l with
  | nil => intro acc _; simp
  | cons a rest ih =>
    intro acc h
    obtain ⟨k, x⟩ := a
    have hlt : ∀ k' ∈ keys acc, k' < k := by
      intro k' hk'
      have h' : ((keys acc) ++ (k :: keys rest)).Pairwise (· < ·) := by
        have := h; unfold Ordered keys at this; simpa [keys] using this
      exact (List.pairwise_append.1 h').2.2 k' hk' k (List.mem_cons_self _ _)
    rw [List.foldl_cons, subscript_assign_of_lt acc k x (d k) hlt]
    have : acc ++ [(k, x)] ++ rest = acc ++ (k, x) :: rest := by simp
    rw [ih (acc ++ [(k, x)]) (by rw [this]; exact h), this]

end StdMap

/-! ## The walk `coord` -/

theorem coord_self (m : StdMap Int) (n : Nat) (x : Int) (num : List Int) :
    coord m (n + 1) x x num = .ok (x :: num) := by
  simp [coord]

theorem coord_step (m : StdMap Int) (n : Nat) (x y p : Int) (num : List Int) (hxy : x ≠ y)
    (hp : m.find y = some p) : coord m (n + 1) x y num = coord m n x p (y :: num) := by
  simp [coord, hxy, StdMap.index_of_find m y 0 p hp]

namespace Digraph

variable {VertexInfo EdgeInfo : Type} {W : Type} [LinearOrderedCommRing W]

/-! ## Lemmas on edges -/

theorem edge_iff (g : Digraph VertexInfo EdgeInfo) (u v : Int) :
    g.Edge u v ↔ ∃ vr, g.obj.find u = some vr ∧ ∃ e ∈ vr.edges, e.toVertex = v := by
  unfold Edge hasEdge
  cases h : g.obj.find u with
  | none => simp
  | some vr => simp

theorem edge_count_left (g : Digraph VertexInfo EdgeInfo) (u v : Int) (h : g.Edge u v) :
    g.obj.count u = true := by
  obtain ⟨vr, h1, _⟩ := (edge_iff g u v).1 h
  simp [StdMap.count, h1]

theorem edge_count_right (g : Digraph VertexInfo EdgeInfo) (hc : g.Closed) (u v : Int)
    (h : g.Edge u v) : g.obj.count v = true := by
  obtain ⟨vr, h1, e, he, hv⟩ := (edge_iff g u v).1 h
  have := hc (u, vr) (StdMap.find_mem _ _ _ h1) e he
  rw [← hv]; exact this

theorem edgesOf_of_find (g : Digraph VertexInfo EdgeInfo) (u : Int)
    (vr : DigraphVertex VertexInfo EdgeInfo) (h : g.obj.find u = some vr) :
    g.edgesOf u = .ok (vr.edges.map (fun ent => (ent.fromVertex, ent.toVertex))) := by
  simp [edgesOf, h]

theorem edgesOf_own (g : Digraph VertexInfo EdgeInfo) (ho : g.OwnEdges) (u : Int)
    (vr : DigraphVertex VertexInfo EdgeInfo) (h : g.obj.find u = some vr) :
    g.edgesOf u = .ok (vr.edges.map (fun ent => (u, ent.toVertex))) := by
  rw [edgesOf_of_find g u vr h]
  congr 1
  apply List.map_congr_left
  intro e he
  rw [ho (u, vr) (StdMap.find_mem _ _ _ h) e he]

theorem edgeInfo_ok (g : Digraph VertexInfo EdgeInfo) (ho : g.OwnEdges) (hc : g.Closed)
    (u v : Int) (h : g.Edge u v) : ∃ einf, g.edgeInfo u v = .ok einf := by
  obtain ⟨vr, h1, e, he, hv⟩ := (edge_iff g u v).1 h
  have hcu := edge_count_left g u v h
  have hcv := edge_count_right g hc u v h
  have hmem : (u, v) ∈ vr.edges.map (fun ent => (u, ent.toVertex)) :=
    List.mem_map.2 ⟨e, he, by rw [hv]⟩
  have hfind : ∃ e', vr.edges.find? (fun ent => ent.toVertex == v) = some e' := by
    cases hf : vr.edges.find? (fun ent => ent.toVertex == v) with
    | some e' => exact ⟨e', rfl⟩
    | none =>
      have := List.find?_eq_none.1 hf e he
      simp [hv] at this
  obtain ⟨e', he'⟩ := hfind
  refine ⟨e'.einfo, ?_⟩
  unfold edgeInfo
  rw [edgesOf_own g ho u vr h1]
  simp [hcu, hcv, hmem, h1, he']

theorem edgeW_of_ok {W : Type} [LinearOrderedCommRing W] (g : Digraph VertexInfo EdgeInfo)
    (w : EdgeInfo → W) (u v : Int) (einf : EdgeInfo) (h : g.edgeInfo u v = .ok einf) :
    g.edgeW w u v = w einf := by
  simp [edgeW, h]

theorem edgeW_nonneg {W : Type} [LinearOrderedCommRing W] (g : Digraph VertexInfo EdgeInfo)
    (w : EdgeInfo → W) (hw : ∀ e, 0 ≤ w e) (u v : Int) : 0 ≤ g.edgeW w u v := by
  unfold edgeW
  split
  · exact hw _
  · exact le_rfl

/-! ## The inner loop of `findShortestPaths` -/

theorem relaxEdge_eq (P : PriorityQueue W) (u y : Int) (c : W) (st : SPState P.Q W)
    (du dy : W) (hu : st.dv.find u = some du) (hy : st.dv.find y = some dy) :
    relaxEdge P u y c st =
      if dy > du + c then
        ⟨st.kv, st.pv.assign y u, st.dv.assign y (du + c), P.push st.pq ⟨du + c, y⟩⟩
      else st := by
  simp [relaxEdge, hu, hy]

theorem relax_cons (P : PriorityQueue W) (g : Digraph VertexInfo EdgeInfo) (w : EdgeInfo → W)
    (u y : Int) (rest : List (Int × Int)) (st : SPState P.Q W) (einf : EdgeInfo) (du dy : W)
    (p0 : Int) (he : g.edgeInfo u y = .ok einf) (hu : st.dv.find u = some du)
    (hy : st.dv.find y = some dy) (hp : st.pv.find y = some p0) :
    relax P g w u ((u, y) :: rest) st = relax P g w u rest (relaxEdge P u y (w einf) st) := by
  rw [relaxEdge_eq P u y (w einf) st du dy hu hy]
  simp only [relax, he, StdMap.index_of_find _ _ _ _ hu, StdMap.at_eq_ok _ _ _ hy,
    StdMap.at_eq_ok _ _ _ hp]
  split <;> rfl

theorem relaxEdge_kv (P : PriorityQueue W) (u y : Int) (c : W) (st : SPState P.Q W) :
    (relaxEdge P u y c st).kv = st.kv := by
  unfold relaxEdge
  split
  · split <;> rfl
  · rfl

theorem relaxEdge_items_length (P : PriorityQueue W) (u y : Int) (c : W) (st : SPState P.Q W) :
    (P.items (relaxEdge P u y c st).pq).length ≤ (P.items st.pq).length + 1 := by
  unfold relaxEdge
  split
  · split
    · simp [(P.items_push st.pq _).length_eq]
    · omega
  · omega

theorem FinOrder.congr {pv pv' : Int → Option Int} {s : Int} {fl : List Int}
    (h : FinOrder pv s fl) (hpv : ∀ k ∈ fl, pv' k = pv k) : FinOrder pv' s fl := by
  induction h with
  | nil => exact .nil
  | start => exact .start
  | cons hfl hk hp hmem ih =>
    refine .cons (ih ?_) hk ?_ hmem
    · intro k hk'; exact hpv k (List.mem_cons_of_mem _ hk')
    · rw [hpv _ (List.mem_cons_self _ _)]; exact hp

theorem mem_items_push (P : PriorityQueue W) (q : P.Q) (x z : V W) :
    z ∈ P.items (P.push q x) ↔ z = x ∨ z ∈ P.items q := by
  rw [(P.items_push q x).mem_iff, List.mem_cons]

theorem relaxEdge_inv0 (P : PriorityQueue W) (g : Digraph VertexInfo EdgeInfo) (s u y : Int)
    (c : W) (st : SPState P.Q W) (h0 : Inv0 P g s st) (hfu : st.kv.find u = some true)
    (hedge : g.Edge u y) (hcy : g.obj.count y = true) :
    Inv0 P g s (relaxEdge P u y c st) := by
  unfold relaxEdge
  split
  · rename_i du dy hu hy
    split
    · have hru : g.Reach s u := h0.fin_reach u hfu
      have hry : g.Reach s y := Relation.ReflTransGen.tail hru hedge
      refine ⟨h0.kv_keys, ?_, ?_, ?_, ?_, h0.fin_reach, ?_, ?_⟩
      · intro k; simp only [StdMap.isSome_find_assign]; exact h0.pv_keys k
      · intro k; simp only [StdMap.isSome_find_assign]; exact h0.dv_keys k
      · intro x hx
        rcases (mem_items_push P _ _ _).1 hx with rfl | hx
        · exact hcy
        · exact h0.pq_keys x hx
      · intro k p hk hne
        simp only [StdMap.find_assign] at hk
        split at hk
        · rename_i hky
          subst hky
          cases hf : st.pv.find k with
          | none => simp [hf] at hk
          | some p' =>
            simp [hf] at hk
            subst hk
            exact ⟨hfu, hedge⟩
        · exact h0.pv_edge k p hk hne
      · intro x hx
        rcases (mem_items_push P _ _ _).1 hx with rfl | hx
        · exact hry
        · exact h0.pq_reach x hx
      · show (st.pv.assign y u).Ordered
        unfold StdMap.Ordered
        rw [StdMap.keys_assign]
        exact h0.pv_ord
    · exact h0
  · exact h0

theorem relaxEdge_inv1 (P : PriorityQueue W) (g : Digraph VertexInfo EdgeInfo)
    (w : EdgeInfo → W) (s u y : Int) (pend : List Int) (st : SPState P.Q W)
    (hw : ∀ e, 0 ≤ w e) (h0 : Inv0 P g s st) (h1 : Inv1 P g w s st u (y :: pend))
    (hfu : st.kv.find u = some true) (hedge : g.Edge u y) (hcy : g.obj.count y = true) :
    Inv1 P g w s (relaxEdge P u y (g.edgeW w u y) st) u pend := by
  have hcu : g.obj.count u = true := edge_count_left g u y hedge
  obtain ⟨du, hu⟩ := StdMap.exists_find_of_count st.dv u (by rw [h0.dv_keys]; exact hcu)
  obtain ⟨dy, hy⟩ := StdMap.exists_find_of_count st.dv y (by rw [h0.dv_keys]; exact hcy)
  obtain ⟨p0, hp0⟩ := StdMap.exists_find_of_count st.pv y (by rw [h0.pv_keys]; exact hcy)
  obtain ⟨b, hb⟩ := StdMap.exists_find_of_count st.kv y (by rw [h0.kv_keys]; exact hcy)
  have hc0 : 0 ≤ g.edgeW w u y := edgeW_nonneg g w hw u y
  have hcons : y :: pend ≠ [] := List.cons_ne_nil _ _
  rw [relaxEdge_eq P u y _ st du dy hu hy]
  by_cases hlt : dy > du + g.edgeW w u y
  · rw [if_pos hlt]
    have hkvy : st.kv.find y = some false := by
      cases b with
      | false => exact hb
      | true =>
        have := h1.cur_max hcons y dy du hb hy hu
        exact absurd (lt_of_lt_of_le hlt this) (not_lt.2 (le_add_of_nonneg_right hc0))
    have hyu : y ≠ u := by
      intro h; rw [h, hfu] at hkvy; cases hkvy
    have hys : y ≠ s := by
      intro h
      rw [h, h1.dv_s] at hy
      cases hy
      have h2 : 0 ≤ du := h1.dv_nonneg u du hu
      exact absurd hlt (not_lt.2 (add_nonneg h2 hc0))
    have hfin_ne : ∀ k, st.kv.find k = some true → k ≠ y := by
      intro k hk h; rw [h, hkvy] at hk; cases hk
    refine ⟨?_, ?_, ?_, ?_, ?_, ?_, ?_, ?_, ?_, ?_, ?_, ?_, ?_⟩
    · show (st.dv.assign y _).find s = some 0
      rw [StdMap.find_assign_some _ _ _ _ _ hy, if_neg (Ne.symm hys)]
      exact h1.dv_s
    · show (st.pv.assign y _).find s = some s
      rw [StdMap.find_assign_some _ _ _ _ _ hp0, if_neg (Ne.symm hys)]
      exact h1.pv_s
    · intro k d hk
      change (st.dv.assign y _).find k = some d at hk
      rw [StdMap.find_assign_some _ _ _ _ _ hy] at hk
      by_cases hky : k = y
      · rw [if_pos hky] at hk
        cases hk
        exact add_nonneg (h1.dv_nonneg u du hu) hc0
      · rw [if_neg hky] at hk
        exact h1.dv_nonneg k d hk
    · intro k d hk
      change (st.dv.assign y _).find k = some d at hk
      rw [StdMap.find_assign_some _ _ _ _ _ hy] at hk
      by_cases hky : k = y
      · rw [if_pos hky] at hk
        cases hk
        exact le_of_lt (lt_of_lt_of_le hlt (h1.dv_le_inf y dy hy))
      · rw [if_neg hky] at hk
        exact h1.dv_le_inf k d hk
    · left
      rcases h1.started with h | ⟨h, _⟩
      · exact h
      · exact absurd hfu (h u)
    · intro y' d hkv hdv
      change st.kv.find y' = some false at hkv
      change (st.dv.assign y _).find y' = some d at hdv
      rw [StdMap.find_assign_some _ _ _ _ _ hy] at hdv
      by_cases hky : y' = y
      · rw [if_pos hky] at hdv
        cases hdv
        right
        exact ⟨⟨du + g.edgeW w u y, y⟩, (mem_items_push P _ _ _).2 (Or.inl rfl), hky.symm, rfl⟩
      · rw [if_neg hky] at hdv
        rcases h1.pq_entry y' d hkv hdv with h | ⟨x, hx, hxv, hxw⟩
        · exact Or.inl h
        · exact Or.inr ⟨x, (mem_items_push P _ _ _).2 (Or.inr hx), hxv, hxw⟩
    · intro x hx d hd
      change (st.dv.assign y _).find x.v = some d at hd
      rw [StdMap.find_assign_some _ _ _ _ _ hy] at hd
      rcases (mem_items_push P _ _ _).1 hx with rfl | hx
      · rw [if_pos rfl] at hd
        cases hd
        exact le_rfl
      · by_cases hky : x.v = y
        · rw [if_pos hky] at hd
          cases hd
          have := h1.pq_ge x hx dy (by rw [hky]; exact hy)
          exact le_of_lt (lt_of_lt_of_le hlt this)
        · rw [if_neg hky] at hd
          exact h1.pq_ge x hx d hd
    · intro k y' dk dy' hk hy' hdk hdy'
      change st.kv.find k = some true at hk
      change st.kv.find y' = some false at hy'
      change (st.dv.assign y _).find k = some dk at hdk
      change (st.dv.assign y _).find y' = some dy' at hdy'
      rw [StdMap.find_assign_some _ _ _ _ _ hy, if_neg (hfin_ne k hk)] at hdk
      rw [StdMap.find_assign_some _ _ _ _ _ hy] at hdy'
      by_cases hky : y' = y
      · rw [if_pos hky] at hdy'
        cases hdy'
        exact le_trans (h1.cur_max hcons k dk du hk hdk hu) (le_add_of_nonneg_right hc0)
      · rw [if_neg hky] at hdy'
        exact h1.fin_le k y' dk dy' hk hy' hdk hdy'
    · intro _ k dk du' hk hdk hdu'
      change st.kv.find k = some true at hk
      change (st.dv.assign y _).find k = some dk at hdk
      change (st.dv.assign y _).find u = some du' at hdu'
      rw [StdMap.find_assign_some _ _ _ _ _ hy, if_neg (hfin_ne k hk)] at hdk
      rw [StdMap.find_assign_some _ _ _ _ _ hy, if_neg (hfin_ne u hfu)] at hdu'
      exact h1.cur_max hcons k dk du' hk hdk hdu'
    · intro k p hk hne
      change (st.pv.assign y _).find k = some p at hk
      rw [StdMap.find_assign_some _ _ _ _ _ hp0] at hk
      by_cases hky : k = y
      · rw [if_pos hky] at hk
        cases hk
        subst hky
        refine ⟨du + g.edgeW w u k, du, ?_, ?_, rfl, lt_of_lt_of_le hlt (h1.dv_le_inf k dy hy)⟩
        · show (st.dv.assign k _).find k = _
          rw [StdMap.find_assign_some _ _ _ _ _ hy, if_pos rfl]
        · show (st.dv.assign k _).find u = _
          rw [StdMap.find_assign_some _ _ _ _ _ hy, if_neg (Ne.symm hyu)]
          exact hu
      · rw [if_neg hky] at hk
        obtain ⟨dk, dp, h2, h3, h4, h5⟩ := h1.pv_dist k p hk hne
        have hfp := (h0.pv_edge k p hk hne).1
        refine ⟨dk, dp, ?_, ?_, h4, h5⟩
        · show (st.dv.assign y _).find k = _
          rw [StdMap.find_assign_some _ _ _ _ _ hy, if_neg hky]
          exact h2
        · show (st.dv.assign y _).find p = _
          rw [StdMap.find_assign_some _ _ _ _ _ hy, if_neg (hfin_ne p hfp)]
          exact h3
    · intro x y' dx dy' hx hxy hdx hdy'
      change st.kv.find x = some true at hx
      change (st.dv.assign y _).find x = some dx at hdx
      change (st.dv.assign y _).find y' = some dy' at hdy'
      rw [StdMap.find_assign_some _ _ _ _ _ hy, if_neg (hfin_ne x hx)] at hdx
      rw [StdMap.find_assign_some _ _ _ _ _ hy] at hdy'
      by_cases hky : y' = y
      · rw [if_pos hky] at hdy'
        cases hdy'
        subst hky
        right
        by_cases hxu : x = u
        · subst hxu
          rw [hu] at hdx
          cases hdx
          exact le_rfl
        · rcases h1.edge_relaxed x y' dx dy hx hxy hdx hy with ⟨h, _⟩ | h
          · exact absurd h hxu
          · exact le_trans (le_of_lt hlt) h
      · rw [if_neg hky] at hdy'
        rcases h1.edge_relaxed x y' dx dy' hx hxy hdx hdy' with ⟨h, hmem⟩ | h
        · left
          refine ⟨h, ?_⟩
          rcases List.mem_cons.1 hmem with h' | h'
          · exact absurd h' hky
          · exact h'
        · exact Or.inr h
    · obtain ⟨fl, hfo, hnd, hiff⟩ := h1.order
      refine ⟨fl, hfo.congr ?_, hnd, hiff⟩
      intro k hk
      show (st.pv.assign y _).find k = _
      rw [StdMap.find_assign_some _ _ _ _ _ hp0, if_neg (hfin_ne k ((hiff k).2 hk))]
    · intro x hx
      show x.v = s ∨ ∃ p, (st.pv.assign y _).find x.v = some p ∧ p ≠ x.v
      have hnew : ∃ p, (st.pv.assign y u).find y = some p ∧ p ≠ y :=
        ⟨u, by rw [StdMap.find_assign_some _ _ _ _ _ hp0, if_pos rfl], Ne.symm hyu⟩
      rcases (mem_items_push P _ _ _).1 hx with rfl | hx
      · exact Or.inr hnew
      · by_cases hky : x.v = y
        · rw [hky]; exact Or.inr hnew
        · rcases h1.pq_pred x hx with h | ⟨p, hp, hne⟩
          · exact Or.inl h
          · refine Or.inr ⟨p, ?_, hne⟩
            rw [StdMap.find_assign_some _ _ _ _ _ hp0, if_neg hky]
            exact hp
  · rw [if_neg hlt]
    refine ⟨h1.dv_s, h1.pv_s, h1.dv_nonneg, h1.dv_le_inf, h1.started, h1.pq_entry, h1.pq_ge,
      h1.fin_le, ?_, h1.pv_dist, ?_, h1.order, h1.pq_pred⟩
    · intro _; exact h1.cur_max hcons
    · intro x y' dx dy' hx hxy hdx hdy'
      rcases h1.edge_relaxed x y' dx dy' hx hxy hdx hdy' with ⟨h, hmem⟩ | h
      · rcases List.mem_cons.1 hmem with h' | h'
        · right
          subst h h'
          rw [hu] at hdx; rw [hy] at hdy'
          cases hdx; cases hdy'
          exact not_lt.1 hlt
        · exact Or.inl ⟨h, h'⟩
      · exact Or.inr h

theorem Inv1.change_u {P : PriorityQueue W} {g : Digraph VertexInfo EdgeInfo}
    {w : EdgeInfo → W} {s : Int} {st : SPState P.Q W} {u : Int}
    (h1 : Inv1 P g w s st u []) (u' : Int) : Inv1 P g w s st u' [] := by
  refine ⟨h1.dv_s, h1.pv_s, h1.dv_nonneg, h1.dv_le_inf, h1.started, h1.pq_entry, h1.pq_ge,
    h1.fin_le, ?_, h1.pv_dist, ?_, h1.order, h1.pq_pred⟩
  · intro h; exact absurd rfl h
  · intro x y dx dy hx hxy hdx hdy
    rcases h1.edge_relaxed x y dx dy hx hxy hdx hdy with ⟨_, h⟩ | h
    · cases h
    · exact Or.inr h

theorem relax_spec (P : PriorityQueue W) (g : Digraph VertexInfo EdgeInfo) (w : EdgeInfo → W)
    (s u : Int) (ho : g.OwnEdges) (hc : g.Closed) :
    ∀ (pend : List Int) (st : SPState P.Q W), Inv0 P g s st →
      ((∀ e, 0 ≤ w e) → Inv1 P g w s st u pend) → st.kv.find u = some true →
      (∀ y ∈ pend, g.Edge u y) →
      ∃ st', relax P g w u (pend.map (fun y => (u, y))) st = .ok st' ∧ Inv0 P g s st' ∧
        ((∀ e, 0 ≤ w e) → Inv1 P g w s st' u []) ∧ st'.kv = st.kv ∧
        (P.items st'.pq).length ≤ (P.items st.pq).length + pend.length := by
  intro pend
  induction pend with
  | nil =>
    intro st h0 h1 _ _
    exact ⟨st, rfl, h0, h1, rfl, le_rfl⟩
  | cons y pend ih =>
    intro st h0 h1 hfu hpend
    have hedge : g.Edge u y := hpend y (List.mem_cons_self _ _)
    have hcu : g.obj.count u = true := edge_count_left g u y hedge
    have hcy : g.obj.count y = true := edge_count_right g hc u y hedge
    obtain ⟨du, hu⟩ := StdMap.exists_find_of_count st.dv u (by rw [h0.dv_keys]; exact hcu)
    obtain ⟨dy, hy⟩ := StdMap.exists_find_of_count st.dv y (by rw [h0.dv_keys]; exact hcy)
    obtain ⟨p0, hp0⟩ := StdMap.exists_find_of_count st.pv y (by rw [h0.pv_keys]; exact hcy)
    obtain ⟨einf, he⟩ := edgeInfo_ok g ho hc u y hedge
    have hW : g.edgeW w u y = w einf := edgeW_of_ok g w u y einf he
    have h0' := relaxEdge_inv0 P g s u y (w einf) st h0 hfu hedge hcy
    have h1' : (∀ e, 0 ≤ w e) → Inv1 P g w s (relaxEdge P u y (w einf) st) u pend := by
      intro hw
      have := relaxEdge_inv1 P g w s u y pend st hw h0 (h1 hw) hfu hedge hcy
      rw [hW] at this
      exact this
    have hkv := relaxEdge_kv P u y (w einf) st
    obtain ⟨st', hr, h0'', h1'', hkv', hlen⟩ := ih (relaxEdge P u y (w einf) st) h0' h1'
      (by rw [hkv]; exact hfu) (fun z hz => hpend z (List.mem_cons_of_mem _ hz))
    refine ⟨st', ?_, h0'', h1'', by rw [hkv', hkv], ?_⟩
    · rw [List.map_cons, relax_cons P g w u y _ st einf du dy p0 he hu hy hp0]
      exact hr
    · have := relaxEdge_items_length P u y (w einf) st
      simp only [List.length_cons]
      omega

/-! ## One iteration of the main loop -/

theorem mem_items_of_pop (P : PriorityQueue W) (q q' : P.Q) (ver : V W)
    (hpop : P.pop q = some (ver, q')) (x : V W) :
    x ∈ P.items q ↔ x = ver ∨ x ∈ P.items q' := by
  rw [(P.pop_some q ver q' hpop).1.mem_iff, List.mem_cons]

theorem discard_inv (P : PriorityQueue W) (g : Digraph VertexInfo EdgeInfo) (w : EdgeInfo → W)
    (s u : Int) (st : SPState P.Q W) (ver : V W) (pq' : P.Q)
    (hpop : P.pop st.pq = some (ver, pq')) (hkv : st.kv.find ver.v = some true)
    (h0 : Inv0 P g s st) (h1 : (∀ e, 0 ≤ w e) → Inv1 P g w s st u []) :
    Inv0 P g s ⟨st.kv, st.pv, st.dv, pq'⟩ ∧
      ((∀ e, 0 ≤ w e) → Inv1 P g w s ⟨st.kv, st.pv, st.dv, pq'⟩ u []) := by
  have hsub : ∀ x, x ∈ P.items pq' → x ∈ P.items st.pq :=
    fun x hx => (mem_items_of_pop P _ _ _ hpop x).2 (Or.inr hx)
  refine ⟨⟨h0.kv_keys, h0.pv_keys, h0.dv_keys, fun x hx => h0.pq_keys x (hsub x hx),
    h0.pv_edge, h0.fin_reach, fun x hx => h0.pq_reach x (hsub x hx), h0.pv_ord⟩, ?_⟩
  intro hw
  have h1 := h1 hw
  refine ⟨h1.dv_s, h1.pv_s, h1.dv_nonneg, h1.dv_le_inf, ?_, ?_,
    fun x hx => h1.pq_ge x (hsub x hx), h1.fin_le, h1.cur_max, h1.pv_dist, h1.edge_relaxed,
    h1.order, fun x hx => h1.pq_pred x (hsub x hx)⟩
  · rcases h1.started with h | ⟨h, h'⟩
    · exact Or.inl h
    · exact Or.inr ⟨h, fun x hx => h' x (hsub x hx)⟩
  · intro y d hy hd
    rcases h1.pq_entry y d hy hd with h | ⟨x, hx, hxv, hxw⟩
    · exact Or.inl h
    · right
      rcases (mem_items_of_pop P _ _ _ hpop x).1 hx with h | h
      · exfalso
        change st.kv.find y = some false at hy
        rw [← hxv, h, hkv] at hy
        cases hy
      · exact ⟨x, h, hxv, hxw⟩

theorem finalize_inv (P : PriorityQueue W) (g : Digraph VertexInfo EdgeInfo) (w : EdgeInfo → W)
    (s u0 : Int) (st : SPState P.Q W) (ver : V W) (pq' : P.Q) (pend : List Int)
    (hpop : P.pop st.pq = some (ver, pq')) (hkv : st.kv.find ver.v = some false)
    (hpend : ∀ y, g.Edge ver.v y → y ∈ pend)
    (h0 : Inv0 P g s st) (h1 : (∀ e, 0 ≤ w e) → Inv1 P g w s st u0 []) :
    Inv0 P g s ⟨st.kv.assign ver.v true, st.pv, st.dv, pq'⟩ ∧
      ((∀ e, 0 ≤ w e) →
        Inv1 P g w s ⟨st.kv.assign ver.v true, st.pv, st.dv, pq'⟩ ver.v pend) := by
  have hsub : ∀ x, x ∈ P.items pq' → x ∈ P.items st.pq :=
    fun x hx => (mem_items_of_pop P _ _ _ hpop x).2 (Or.inr hx)
  have hver : ver ∈ P.items st.pq := (mem_items_of_pop P _ _ _ hpop ver).2 (Or.inl rfl)
  have hfind : ∀ k, (st.kv.assign ver.v true).find k =
      if k = ver.v then some true else st.kv.find k :=
    fun k => StdMap.find_assign_some _ _ _ _ _ hkv
  have hfin : ∀ k, (st.kv.assign ver.v true).find k = some true →
      k = ver.v ∨ (k ≠ ver.v ∧ st.kv.find k = some true) := by
    intro k hk
    rw [hfind] at hk
    by_cases h : k = ver.v
    · exact Or.inl h
    · rw [if_neg h] at hk; exact Or.inr ⟨h, hk⟩
  have hunfin : ∀ k, (st.kv.assign ver.v true).find k = some false →
      k ≠ ver.v ∧ st.kv.find k = some false := by
    intro k hk
    rw [hfind] at hk
    by_cases h : k = ver.v
    · rw [if_pos h] at hk; cases hk
    · rw [if_neg h] at hk; exact ⟨h, hk⟩
  have hmono : ∀ k, st.kv.find k = some true → (st.kv.assign ver.v true).find k = some true := by
    intro k hk
    rw [hfind]
    split
    · rfl
    · exact hk
  refine ⟨⟨?_, h0.pv_keys, h0.dv_keys, fun x hx => h0.pq_keys x (hsub x hx), ?_, ?_,
    fun x hx => h0.pq_reach x (hsub x hx), h0.pv_ord⟩, ?_⟩
  · intro k
    show ((st.kv.assign ver.v true).find k).isSome = _
    rw [StdMap.isSome_find_assign]; exact h0.kv_keys k
  · intro k p hk hne
    obtain ⟨h, h'⟩ := h0.pv_edge k p hk hne
    exact ⟨hmono p h, h'⟩
  · intro k hk
    rcases hfin k hk with h | ⟨_, h⟩
    · rw [h]; exact h0.pq_reach ver hver
    · exact h0.fin_reach k h
  intro hw
  have h1 := h1 hw
  obtain ⟨du, hdu⟩ := StdMap.exists_find_of_count st.dv ver.v
    (by rw [h0.dv_keys]; exact h0.pq_keys ver hver)
  have hmin : ∀ k dk, st.kv.find k = some false → st.dv.find k = some dk → du ≤ dk := by
    intro k dk hk hdk
    rcases h1.pq_entry k dk hk hdk with h | ⟨x, hx, _, hxw⟩
    · rw [h]; exact h1.dv_le_inf _ _ hdu
    · rw [← hxw]
      exact le_trans (h1.pq_ge ver hver du hdu) ((P.pop_some _ _ _ hpop).2 x hx)
  refine ⟨h1.dv_s, h1.pv_s, h1.dv_nonneg, h1.dv_le_inf, ?_, ?_,
    fun x hx => h1.pq_ge x (hsub x hx), ?_, ?_, h1.pv_dist, ?_, ?_,
    fun x hx => h1.pq_pred x (hsub x hx)⟩
  · left
    rcases h1.started with h | ⟨_, h⟩
    · exact hmono s h
    · show (st.kv.assign ver.v true).find s = some true
      rw [hfind, if_pos (h ver hver).symm]
  · intro y d hy hd
    obtain ⟨hne, hy'⟩ := hunfin y hy
    rcases h1.pq_entry y d hy' hd with h | ⟨x, hx, hxv, hxw⟩
    · exact Or.inl h
    · right
      rcases (mem_items_of_pop P _ _ _ hpop x).1 hx with h | h
      · exact absurd (by rw [← hxv, h]) hne
      · exact ⟨x, h, hxv, hxw⟩
  · intro k y dk dy hk hy hdk hdy
    obtain ⟨_, hy'⟩ := hunfin y hy
    rcases hfin k hk with h | ⟨_, h⟩
    · subst h
      change st.dv.find ver.v = some dk at hdk
      rw [hdu] at hdk; cases hdk
      exact hmin y dy hy' hdy
    · exact h1.fin_le k y dk dy h hy' hdk hdy
  · intro _ k dk du' hk hdk hdu'
    change st.dv.find ver.v = some du' at hdu'
    rcases hfin k hk with h | ⟨_, h⟩
    · subst h
      change st.dv.find ver.v = some dk at hdk
      rw [hdk] at hdu'; cases hdu'
      exact le_rfl
    · exact h1.fin_le k ver.v dk du' h hkv hdk hdu'
  · intro x y dx dy hx hxy hdx hdy
    rcases hfin x hx with h | ⟨_, h⟩
    · exact Or.inl ⟨h, hpend y (by rw [← h]; exact hxy)⟩
    · rcases h1.edge_relaxed x y dx dy h hxy hdx hdy with ⟨_, h'⟩ | h'
      · cases h'
      · exact Or.inr h'
  · obtain ⟨fl, hfo, hnd, hiff⟩ := h1.order
    have hnotin : ver.v ∉ fl := by
      intro h
      have := (hiff ver.v).2 h
      rw [hkv] at this; cases this
    refine ⟨ver.v :: fl, ?_, List.nodup_cons.2 ⟨hnotin, hnd⟩, ?_⟩
    · rcases h1.started with h | ⟨h, h'⟩
      · have hs : ver.v ≠ s := by
          intro h2; rw [h2, h] at hkv; cases hkv
        rcases h1.pq_pred ver hver with h2 | ⟨p, hp, hne⟩
        · exact absurd h2 hs
        · exact FinOrder.cons hfo hnotin hp ((hiff p).1 (h0.pv_edge _ _ hp hne).1)
      · have hnil : fl = [] := by
          cases fl with
          | nil => rfl
          | cons a l => exact absurd ((hiff a).2 (List.mem_cons_self _ _)) (h a)
        rw [hnil, h' ver hver]
        exact FinOrder.start
    · intro k
      constructor
      · intro hk
        rcases hfin k hk with h | ⟨_, h⟩
        · rw [h]; exact List.mem_cons_self _ _
        · exact List.mem_cons_of_mem _ ((hiff k).1 h)
      · intro hk
        rcases List.mem_cons.1 hk with h | h
        · show (st.kv.assign ver.v true).find k = some true
          rw [hfind, if_pos h]
        · exact hmono k ((hiff k).2 h)

/-! ## The main loop -/

theorem pot_assign_le (g : Digraph VertexInfo EdgeInfo) (kv : StdMap Bool) (u : Int)
    (vr : DigraphVertex VertexInfo EdgeInfo) (hfind : g.obj.find u = some vr)
    (hkv : kv.find u = some false) :
    pot g (kv.assign u true) + vr.edges.length ≤ pot g kv := by
  obtain ⟨l⟩ := g
  simp only [pot] at *
  have hf : ∀ k, (kv.assign u true).find k = if k = u then some true else kv.find k :=
    fun k => StdMap.find_assign_some _ _ _ _ _ hkv
  have hmono : ∀ l : StdMap (DigraphVertex VertexInfo EdgeInfo),
      (l.map (fun ent => if (kv.assign u true).find ent.1 = some true then 0
        else ent.2.edges.length)).sum ≤
      (l.map (fun ent => if kv.find ent.1 = some true then 0 else ent.2.edges.length)).sum := by
    intro l
    induction l with
    | nil => simp
    | cons a rest ih =>
      simp only [List.map_cons, List.sum_cons]
      have : (if (kv.assign u true).find a.1 = some true then 0 else a.2.edges.length) ≤
          (if kv.find a.1 = some true then 0 else a.2.edges.length) := by
        rw [hf]
        by_cases h : a.1 = u
        · simp [h]
        · simp [h]
      omega
  induction l with
  | nil => simp [StdMap.find] at hfind
  | cons a rest ih =>
    obtain ⟨k, r⟩ := a
    simp only [List.map_cons, List.sum_cons]
    simp only [StdMap.find] at hfind
    by_cases h : k = u
    · rw [if_pos h] at hfind
      have hr : vr.edges.length = r.edges.length := by cases hfind; rfl
      rw [hr]
      have h1 : (if (kv.assign u true).find k = some true then 0 else r.edges.length) = 0 := by
        rw [hf]; simp [h]
      have h2 : (if kv.find k = some true then 0 else r.edges.length) = r.edges.length := by
        rw [h, hkv]; simp
      have := hmono rest
      simp only [h1, h2]
      omega
    · rw [if_neg h] at hfind
      have h1 : (if (kv.assign u true).find k = some true then 0 else r.edges.length) =
          (if kv.find k = some true then 0 else r.edges.length) := by
        rw [hf]; simp [h]
      have := ih hfind
      simp only [h1]
      omega

theorem spLoop_spec (P : PriorityQueue W) (g : Digraph VertexInfo EdgeInfo) (w : EdgeInfo → W)
    (s : Int) (ho : g.OwnEdges) (hc : g.Closed) :
    ∀ (n : Nat) (st : SPState P.Q W), Inv0 P g s st →
      ((∀ e, 0 ≤ w e) → Inv1 P g w s st s []) →
      (P.items st.pq).length + pot g st.kv < n →
      ∃ st', spLoop P g w n st = .ok st' ∧ Inv0 P g s st' ∧
        ((∀ e, 0 ≤ w e) → Inv1 P g w s st' s []) ∧ P.items st'.pq = [] := by
  intro n
  induction n with
  | zero => intro st _ _ h; omega
  | succ n ih =>
    intro st h0 h1 hpot
    cases hpop : P.pop st.pq with
    | none =>
      refine ⟨st, ?_, h0, h1, (P.pop_none _).1 hpop⟩
      simp [spLoop, hpop]
    | some r =>
      obtain ⟨ver, pq'⟩ := r
      have hver : ver ∈ P.items st.pq := (mem_items_of_pop P _ _ _ hpop ver).2 (Or.inl rfl)
      have hlen : (P.items st.pq).length = (P.items pq').length + 1 := by
        rw [(P.pop_some _ _ _ hpop).1.length_eq]; rfl
      have hcv := h0.pq_keys ver hver
      obtain ⟨b, hb⟩ := StdMap.exists_find_of_count st.kv ver.v (by rw [h0.kv_keys]; exact hcv)
      cases b with
      | true =>
        obtain ⟨h0', h1'⟩ := discard_inv P g w s s st ver pq' hpop hb h0 h1
        obtain ⟨st', hrun, h0'', h1'', hemp⟩ := ih ⟨st.kv, st.pv, st.dv, pq'⟩ h0' h1'
          (by show (P.items pq').length + pot g st.kv < n; omega)
        refine ⟨st', ?_, h0'', h1'', hemp⟩
        simp only [spLoop, hpop, StdMap.at_eq_ok _ _ _ hb]
        exact hrun
      | false =>
        obtain ⟨vr, hvr⟩ := StdMap.exists_find_of_count g.obj ver.v hcv
        have heg := edgesOf_own g ho ver.v vr hvr
        have hmap : vr.edges.map (fun ent => (ver.v, ent.toVertex)) =
            (vr.edges.map (fun ent => ent.toVertex)).map (fun y => (ver.v, y)) := by
          rw [List.map_map]; rfl
        have hpend1 : ∀ y, g.Edge ver.v y → y ∈ vr.edges.map (fun ent => ent.toVertex) := by
          intro y hy
          obtain ⟨vr', h1', e, he, hv⟩ := (edge_iff g ver.v y).1 hy
          rw [hvr] at h1'; cases h1'
          exact List.mem_map.2 ⟨e, he, hv⟩
        have hpend2 : ∀ y ∈ vr.edges.map (fun ent => ent.toVertex), g.Edge ver.v y := by
          intro y hy
          obtain ⟨e, he, hv⟩ := List.mem_map.1 hy
          exact (edge_iff g ver.v y).2 ⟨vr, hvr, e, he, hv⟩
        obtain ⟨h0', h1'⟩ := finalize_inv P g w s s st ver pq' _ hpop hb hpend1 h0 h1
        have hfu : (st.kv.assign ver.v true).find ver.v = some true := by
          rw [StdMap.find_assign_some _ _ _ _ _ hb, if_pos rfl]
        obtain ⟨st1, hrel, h0'', h1'', hkv1, hlen1⟩ := relax_spec P g w s ver.v ho hc _
          ⟨st.kv.assign ver.v true, st.pv, st.dv, pq'⟩ h0' h1' hfu hpend2
        have hp := pot_assign_le g st.kv ver.v vr hvr hb
        obtain ⟨st', hrun, h0''', h1''', hemp⟩ := ih st1 h0''
          (fun hw => (h1'' hw).change_u s)
          (by
            rw [hkv1]
            simp only [List.length_map] at hlen1
            show (P.items st1.pq).length + pot g (st.kv.assign ver.v true) < n
            have : (P.items st1.pq).length ≤ (P.items pq').length + vr.edges.length := hlen1
            omega)
        refine ⟨st', ?_, h0''', h1''', hemp⟩
        simp only [spLoop, hpop, StdMap.at_eq_ok _ _ _ hb, heg, hmap]
        simp only [Bool.not_false, if_true, hrel]
        exact hrun

/-! ## The initial state -/

theorem initMaps_find (s : Int) (l : List (Int × DigraphVertex VertexInfo EdgeInfo)) :
    ∀ (kv : StdMap Bool) (pv : StdMap Int) (dv : StdMap W) (k : Int),
      (initMaps s l (kv, pv, dv)).1.find k =
        (if (kv.find k).isSome then kv.find k else (StdMap.find l k).map (fun _ => false)) ∧
      (initMaps s l (kv, pv, dv)).2.1.find k =
        (if (pv.find k).isSome then pv.find k else (StdMap.find l k).map (fun _ => k)) ∧
      (initMaps s l (kv, pv, dv)).2.2.find k =
        (if (dv.find k).isSome then dv.find k
          else (StdMap.find l k).map (fun _ => if s ≠ k then (INF : W) else 0)) := by
  induction l with
  | nil =>
    intro kv pv dv k
    simp only [initMaps, StdMap.find, Option.map_none']
    refine ⟨?_, ?_, ?_⟩
    · cases kv.find k <;> simp
    · cases pv.find k <;> simp
    · cases dv.find k <;> simp
  | cons a rest ih =>
    intro kv pv dv k
    obtain ⟨k₁, r⟩ := a
    simp only [initMaps]
    obtain ⟨h1, h2, h3⟩ := ih (kv.emplace k₁ false) (pv.emplace k₁ k₁)
      (if s ≠ k₁ then dv.emplace k₁ (INF : W) else dv.emplace k₁ 0) k
    rw [h1, h2, h3]
    by_cases hk : k = k₁
    · subst hk
      refine ⟨?_, ?_, ?_⟩
      · rw [StdMap.find_emplace_self]
        cases kv.find k <;> simp [StdMap.find]
      · rw [StdMap.find_emplace_self]
        cases pv.find k <;> simp [StdMap.find]
      · by_cases hs : s = k
        · simp only [hs, ne_eq, not_true_eq_false, if_false, StdMap.find_emplace_self]
          cases dv.find k <;> simp [StdMap.find]
        · simp only [ne_eq, hs, not_false_eq_true, if_true, StdMap.find_emplace_self]
          cases dv.find k <;> simp [StdMap.find]
    · have hk' : k₁ ≠ k := Ne.symm hk
      refine ⟨?_, ?_, ?_⟩
      · rw [StdMap.find_emplace_ne _ _ _ _ hk]
        simp [StdMap.find, hk']
      · rw [StdMap.find_emplace_ne _ _ _ _ hk]
        simp [StdMap.find, hk']
      · have : (if s ≠ k₁ then dv.emplace k₁ (INF : W) else dv.emplace k₁ 0).find k
            = dv.find k := by
          split <;> exact StdMap.find_emplace_ne _ _ _ _ hk
        rw [this]
        simp [StdMap.find, hk']

theorem initMaps_ordered (s : Int) (l : List (Int × DigraphVertex VertexInfo EdgeInfo)) :
    ∀ (kv : StdMap Bool) (pv : StdMap Int) (dv : StdMap W), pv.Ordered →
      (initMaps s l (kv, pv, dv)).2.1.Ordered := by
  induction l with
  | nil => intro kv pv dv h; exact h
  | cons a rest ih =>
    intro kv pv dv h
    simp only [initMaps]
    exact ih _ _ _ (StdMap.ordered_emplace pv a.1 a.1 h)

theorem pot_init (g : Digraph VertexInfo EdgeInfo) (kv : StdMap Bool)
    (h : ∀ k, kv.find k ≠ some true) : pot g kv = g.edgeCount := by
  unfold pot edgeCount
  have hgen : ∀ (l : List (Int × DigraphVertex VertexInfo EdgeInfo)) (c : Nat),
      l.foldl (fun count ent => count + ent.2.edges.length) c =
        c + (l.map (fun ent => if kv.find ent.1 = some true then 0
          else ent.2.edges.length)).sum := by
    intro l
    induction l with
    | nil => intro c; simp
    | cons a rest ih =>
      intro c
      simp only [List.foldl_cons, List.map_cons, List.sum_cons, ih, if_neg (h a.1)]
      omega
  rw [hgen g.obj 0]; simp

theorem INF_pos : (0 : W) < (INF : W) := by
  have : (0 : Nat) < INF := by decide
  exact_mod_cast this

theorem init_inv (P : PriorityQueue W) (g : Digraph VertexInfo EdgeInfo) (w : EdgeInfo → W)
    (s : Int) (hs : g.obj.count s = true) (kv : StdMap Bool) (pv : StdMap Int) (dv : StdMap W)
    (hinit : initMaps s g.obj (([], [], []) : StdMap Bool × StdMap Int × StdMap W)
      = (kv, pv, dv)) :
    Inv0 P g s ⟨kv, pv, dv, P.push P.empty ⟨0, s⟩⟩ ∧
    Inv1 P g w s ⟨kv, pv, dv, P.push P.empty ⟨0, s⟩⟩ s [] ∧
    (P.items (P.push P.empty ⟨0, s⟩)).length + pot g kv < g.edgeCount + 2 := by
  have hfind := initMaps_find (W := W) s g.obj [] [] []
  rw [hinit] at hfind
  have hkv : ∀ k, kv.find k = (g.obj.find k).map (fun _ => false) := by
    intro k; have := (hfind k).1; simpa [StdMap.find] using this
  have hpv : ∀ k, pv.find k = (g.obj.find k).map (fun _ => k) := by
    intro k; have := (hfind k).2.1; simpa [StdMap.find] using this
  have hdv : ∀ k, dv.find k = (g.obj.find k).map (fun _ => if s ≠ k then (INF : W) else 0) := by
    intro k; have := (hfind k).2.2; simpa [StdMap.find] using this
  have hord : pv.Ordered := by
    have := initMaps_ordered (W := W) s g.obj [] [] [] (by simp [StdMap.Ordered, StdMap.keys])
    rw [hinit] at this; exact this
  have hnofin : ∀ k, kv.find k ≠ some true := by
    intro k; rw [hkv]; cases g.obj.find k <;> simp
  have hitems : ∀ x, x ∈ P.items (P.push P.empty ⟨0, s⟩) → x = ⟨0, s⟩ := by
    intro x hx
    rcases (mem_items_push P _ _ _).1 hx with h | h
    · exact h
    · rw [P.items_empty] at h; cases h
  have hmem : (⟨0, s⟩ : V W) ∈ P.items (P.push P.empty ⟨0, s⟩) :=
    (mem_items_push P _ _ _).2 (Or.inl rfl)
  obtain ⟨vs, hvs⟩ := StdMap.exists_find_of_count g.obj s hs
  refine ⟨⟨?_, ?_, ?_, ?_, ?_, ?_, ?_, hord⟩, ⟨?_, ?_, ?_, ?_, ?_, ?_, ?_, ?_, ?_, ?_, ?_, ?_, ?_⟩, ?_⟩
  · intro k; show (kv.find k).isSome = _; rw [hkv]; simp [StdMap.count]
  · intro k; show (pv.find k).isSome = _; rw [hpv]; simp [StdMap.count]
  · intro k; show (dv.find k).isSome = _; rw [hdv]; simp [StdMap.count]
  · intro x hx; rw [hitems x hx]; exact hs
  · intro k p hk hne
    change pv.find k = some p at hk
    rw [hpv] at hk
    cases hg : g.obj.find k with
    | none => simp [hg] at hk
    | some a => simp [hg] at hk; exact absurd hk.symm hne
  · intro k hk; exact absurd hk (hnofin k)
  · intro x hx; rw [hitems x hx]; exact Relation.ReflTransGen.refl
  · show dv.find s = some 0
    rw [hdv, hvs]; simp
  · show pv.find s = some s
    rw [hpv, hvs]; simp
  · intro k d hk
    change dv.find k = some d at hk
    rw [hdv] at hk
    cases hg : g.obj.find k with
    | none => simp [hg] at hk
    | some a =>
      simp only [hg, Option.map_some', Option.some.injEq] at hk
      rw [← hk]
      split
      · exact le_of_lt INF_pos
      · exact le_rfl
  · intro k d hk
    change dv.find k = some d at hk
    rw [hdv] at hk
    cases hg : g.obj.find k with
    | none => simp [hg] at hk
    | some a =>
      simp only [hg, Option.map_some', Option.some.injEq] at hk
      rw [← hk]
      split
      · exact le_rfl
      · exact le_of_lt INF_pos
  · exact Or.inr ⟨hnofin, fun x hx => by rw [hitems x hx]⟩
  · intro y d _ hd
    change dv.find y = some d at hd
    rw [hdv] at hd
    cases hg : g.obj.find y with
    | none => simp [hg] at hd
    | some a =>
      simp only [hg, Option.map_some', Option.some.injEq] at hd
      by_cases hsy : s = y
      · right
        rw [if_neg (by simpa using hsy)] at hd
        exact ⟨⟨0, s⟩, hmem, hsy, hd⟩
      · left
        rw [if_pos hsy] at hd
        exact hd.symm
  · intro x hx d hd
    rw [hitems x hx] at hd ⊢
    change dv.find s = some d at hd
    rw [hdv, hvs] at hd
    simp at hd
    rw [← hd]
  · intro k _ _ _ hk; exact absurd hk (hnofin k)
  · intro h; exact absurd rfl h
  · intro k p hk hne
    change pv.find k = some p at hk
    rw [hpv] at hk
    cases hg : g.obj.find k with
    | none => simp [hg] at hk
    | some a => simp [hg] at hk; exact absurd hk.symm hne
  · intro x _ _ _ hx; exact absurd hx (hnofin x)
  · exact ⟨[], FinOrder.nil, List.nodup_nil, fun k => ⟨fun h => absurd h (hnofin k), fun h => by cases h⟩⟩
  · intro x hx; exact Or.inl (by rw [hitems x hx])
  · show (P.items (P.push P.empty ⟨0, s⟩)).length + pot g kv < g.edgeCount + 2
    rw [pot_init g kv hnofin, (P.items_push _ _).length_eq, P.items_empty]
    simp only [List.length_cons, List.length_nil]
    omega

theorem findShortestPaths_spec (P : PriorityQueue W) (g : Digraph VertexInfo EdgeInfo)
    (w : EdgeInfo → W) (s : Int) (ho : g.OwnEdges) (hc : g.Closed)
    (hs : g.obj.count s = true) :
    ∃ st : SPState P.Q W, findShortestPaths P g s w = .ok st.pv ∧ Inv0 P g s st ∧
      ((∀ e, 0 ≤ w e) → Inv1 P g w s st s []) ∧ P.items st.pq = [] := by
  rcases hinit : initMaps s g.obj (([], [], []) : StdMap Bool × StdMap Int × StdMap W)
    with ⟨kv, pv, dv⟩
  obtain ⟨h0, h1, hpot⟩ := init_inv P g w s hs kv pv dv hinit
  obtain ⟨st', hrun, h0', h1', hemp⟩ := spLoop_spec P g w s ho hc (g.edgeCount + 2)
    ⟨kv, pv, dv, P.push P.empty ⟨0, s⟩⟩ h0 (fun _ => h1) hpot
  refine ⟨st', ?_, h0', h1', hemp⟩
  simp only [findShortestPaths, hinit, hrun]

/-! ## Paths -/

theorem pathWeight_nonneg (g : Digraph VertexInfo EdgeInfo) (w : EdgeInfo → W)
    (hw : ∀ e, 0 ≤ w e) : ∀ q : List Int, 0 ≤ g.pathWeight w q
  | [] => le_rfl
  | [_] => le_rfl
  | x :: y :: rest => by
    simp only [pathWeight]
    exact add_nonneg (edgeW_nonneg g w hw x y) (pathWeight_nonneg g w hw (y :: rest))

theorem pathWeight_concat (g : Digraph VertexInfo EdgeInfo) (w : EdgeInfo → W) (k : Int) :
    ∀ (q : List Int) (x : Int), q.getLast? = some x →
      g.pathWeight w (q ++ [k]) = g.pathWeight w q + g.edgeW w x k
  | [], x, h => by simp at h
  | [a], x, h => by
    simp only [List.getLast?_singleton, Option.some.injEq] at h
    subst h
    simp [pathWeight]
  | a :: b :: rest, x, h => by
    rw [List.getLast?_cons_cons] at h
    have ih := pathWeight_concat g w k (b :: rest) x h
    show g.edgeW w a b + g.pathWeight w ((b :: rest) ++ [k]) =
      g.edgeW w a b + g.pathWeight w (b :: rest) + g.edgeW w x k
    rw [ih, add_assoc]

theorem isPath_concat (g : Digraph VertexInfo EdgeInfo) (s p k : Int) (q : List Int)
    (hq : g.IsPath s p q) (he : g.Edge p k) : g.IsPath s k (q ++ [k]) := by
  obtain ⟨h1, h2, h3⟩ := hq
  refine ⟨?_, List.getLast?_concat q, ?_⟩
  · cases q with
    | nil => simp at h1
    | cons a l => simpa using h1
  · refine List.Chain'.append h3 (List.chain'_singleton k) ?_
    intro x hx y hy
    rw [h2] at hx
    simp only [List.head?_cons, Option.mem_def, Option.some.injEq] at hx hy
    subst hx hy
    exact he

theorem FinOrder.start_mem {pv : Int → Option Int} {s : Int} {fl : List Int}
    (h : FinOrder pv s fl) (hne : fl ≠ []) : s ∈ fl := by
  induction h with
  | nil => exact absurd rfl hne
  | start => exact List.mem_cons_self _ _
  | cons _ _ _ hmem ih =>
    exact List.mem_cons_of_mem _ (ih (List.ne_nil_of_mem hmem))

theorem FinOrder.path (m : StdMap Int) (g : Digraph VertexInfo EdgeInfo) (w : EdgeInfo → W)
    (s : Int) (dist : Int → W) (fl : List Int) (hfo : FinOrder m.find s fl)
    (hedge : ∀ k p, m.find k = some p → p ≠ k → g.Edge p k)
    (hdist : ∀ k p, m.find k = some p → p ≠ k → dist k = dist p + g.edgeW w p k)
    (hs : dist s = 0) :
    ∀ v ∈ fl, ∃ path : List Int,
      (∀ n num, path.length ≤ n → coord m n s v num = .ok (path ++ num)) ∧
      g.IsPath s v path ∧ path.Chain' (fun a b => m.find b = some a) ∧ path.Nodup ∧
      (∀ x ∈ path, x ∈ fl) ∧ g.pathWeight w path = dist v := by
  induction hfo with
  | nil => intro v hv; cases hv
  | start =>
    intro v hv
    have hvs : v = s := by simpa using hv
    subst hvs
    refine ⟨[v], ?_, ⟨rfl, rfl, List.chain'_singleton v⟩, List.chain'_singleton v,
      List.nodup_singleton v, fun x hx => hx, ?_⟩
    · intro n num hn
      cases n with
      | zero => simp at hn
      | succ n => exact coord_self m n v num
    · simp [pathWeight, hs]
  | @cons k p fl hfl hk hp hmem ih =>
    intro v hv
    have hnext : ∀ v ∈ fl, ∃ path : List Int,
        (∀ n num, path.length ≤ n → coord m n s v num = .ok (path ++ num)) ∧
        g.IsPath s v path ∧ path.Chain' (fun a b => m.find b = some a) ∧ path.Nodup ∧
        (∀ x ∈ path, x ∈ k :: fl) ∧ g.pathWeight w path = dist v := by
      intro v hv
      obtain ⟨path, h1, h2, h3, h4, h5, h6⟩ := ih v hv
      exact ⟨path, h1, h2, h3, h4, fun x hx => List.mem_cons_of_mem _ (h5 x hx), h6⟩
    rcases List.mem_cons.1 hv with hvk | hvf
    · subst hvk
      obtain ⟨path, h1, h2, h3, h4, h5, h6⟩ := ih p hmem
      have hpk : p ≠ v := fun e => hk (e ▸ hmem)
      have hsk : s ≠ v := fun e => hk (e ▸ hfl.start_mem (List.ne_nil_of_mem hmem))
      have he : g.Edge p v := hedge v p hp hpk
      refine ⟨path ++ [v], ?_, isPath_concat g s p v path h2 he, ?_, ?_, ?_, ?_⟩
      · intro n num hn
        cases n with
        | zero => simp at hn
        | succ n =>
          rw [coord_step m n s v p num hsk hp, h1 n (v :: num) (by simpa using hn)]
          simp
      · refine List.Chain'.append h3 (List.chain'_singleton v) ?_
        intro x hx y hy
        rw [h2.2.1] at hx
        simp only [List.head?_cons, Option.mem_def, Option.some.injEq] at hx hy
        subst hx hy
        exact hp
      · rw [List.nodup_append]
        refine ⟨h4, List.nodup_singleton v, ?_⟩
        intro x hx hx'
        have : x = v := by simpa using hx'
        exact hk (this ▸ h5 x hx)
      · intro x hx
        rcases List.mem_append.1 hx with h | h
        · exact List.mem_cons_of_mem _ (h5 x h)
        · have : x = v := by simpa using h
          rw [this]; exact List.mem_cons_self _ _
      · rw [pathWeight_concat g w v path p h2.2.1, h6, hdist v p hp hpk]
    · exact hnext v hvf

/-! ## The state after the main loop -/

theorem lower_bound (P : PriorityQueue W) (g : Digraph VertexInfo EdgeInfo) (w : EdgeInfo → W)
    (s : Int) (st : SPState P.Q W) (hc : g.Closed) (hw : ∀ e, 0 ≤ w e)
    (h0 : Inv0 P g s st) (h1 : Inv1 P g w s st s []) :
    ∀ (q : List Int) (x v : Int) (dx : W), g.IsPath x v q → st.kv.find x = some true →
      st.dv.find x = some dx →
      ∃ y dy, st.dv.find y = some dy ∧ dy ≤ dx + g.pathWeight w q ∧
        (y = v ∨ st.kv.find y = some false)
  | [], x, v, dx, hq, _, _ => by
    have := hq.1; simp at this
  | [a], x, v, dx, hq, _, hdx => by
    obtain ⟨hh, hl, _⟩ := hq
    simp only [List.head?_cons, Option.some.injEq] at hh
    simp only [List.getLast?_singleton, Option.some.injEq] at hl
    subst hh hl
    exact ⟨a, dx, hdx, by simp [pathWeight], Or.inl rfl⟩
  | a :: b :: rest, x, v, dx, hq, hfx, hdx => by
    obtain ⟨hh, hl, hch⟩ := hq
    simp only [List.head?_cons, Option.some.injEq] at hh
    subst hh
    rw [List.getLast?_cons_cons] at hl
    obtain ⟨hab, hch'⟩ := List.chain'_cons.1 hch
    have hcb : g.obj.count b = true := edge_count_right g hc a b hab
    obtain ⟨db, hdb⟩ := StdMap.exists_find_of_count st.dv b (by rw [h0.dv_keys]; exact hcb)
    obtain ⟨bb, hbb⟩ := StdMap.exists_find_of_count st.kv b (by rw [h0.kv_keys]; exact hcb)
    have hrel : db ≤ dx + g.edgeW w a b := by
      rcases h1.edge_relaxed a b dx db hfx hab hdx hdb with ⟨_, h⟩ | h
      · cases h
      · exact h
    have hrest := pathWeight_nonneg g w hw (b :: rest)
    cases bb with
    | false =>
      refine ⟨b, db, hdb, ?_, Or.inr hbb⟩
      simp only [pathWeight]
      calc db ≤ dx + g.edgeW w a b := hrel
        _ ≤ dx + g.edgeW w a b + g.pathWeight w (b :: rest) := le_add_of_nonneg_right hrest
        _ = dx + (g.edgeW w a b + g.pathWeight w (b :: rest)) := add_assoc _ _ _
    | true =>
      obtain ⟨y, dy, hy, hle, hor⟩ := lower_bound P g w s st hc hw h0 h1 (b :: rest) b v db
        ⟨rfl, hl, hch'⟩ hbb hdb
      refine ⟨y, dy, hy, ?_, hor⟩
      simp only [pathWeight]
      calc dy ≤ db + g.pathWeight w (b :: rest) := hle
        _ ≤ dx + g.edgeW w a b + g.pathWeight w (b :: rest) := add_le_add_right hrel _
        _ = dx + (g.edgeW w a b + g.pathWeight w (b :: rest)) := add_assoc _ _ _

theorem final_unfin (P : PriorityQueue W) (g : Digraph VertexInfo EdgeInfo) (w : EdgeInfo → W)
    (s : Int) (st : SPState P.Q W) (h1 : Inv1 P g w s st s []) (hemp : P.items st.pq = [])
    (y : Int) (d : W) (hy : st.kv.find y = some false) (hd : st.dv.find y = some d) :
    d = (INF : W) := by
  rcases h1.pq_entry y d hy hd with h | ⟨x, hx, _⟩
  · exact h
  · rw [hemp] at hx; cases hx

theorem final_fin_of_lt (P : PriorityQueue W) (g : Digraph VertexInfo EdgeInfo)
    (w : EdgeInfo → W) (s : Int) (st : SPState P.Q W) (h0 : Inv0 P g s st)
    (h1 : Inv1 P g w s st s []) (hemp : P.items st.pq = [])
    (y : Int) (d : W) (hd : st.dv.find y = some d) (hlt : d < (INF : W)) :
    st.kv.find y = some true := by
  have hcy : g.obj.count y = true := by rw [← h0.dv_keys, hd]; rfl
  obtain ⟨b, hb⟩ := StdMap.exists_find_of_count st.kv y (by rw [h0.kv_keys]; exact hcy)
  cases b with
  | true => exact hb
  | false =>
    have := final_unfin P g w s st h1 hemp y d hb hd
    rw [this] at hlt
    exact absurd hlt (lt_irrefl _)

theorem length_le_vertexCount (P : PriorityQueue W) (g : Digraph VertexInfo EdgeInfo)
    (s : Int) (st : SPState P.Q W) (h0 : Inv0 P g s st) (path : List Int)
    (hnd : path.Nodup) (hfin : ∀ x ∈ path, st.kv.find x = some true) :
    path.length ≤ g.vertexCount := by
  have hsub : path ⊆ g.vertices := by
    intro x hx
    have h := hfin x hx
    have hcx : g.obj.count x = true := by rw [← h0.kv_keys, h]; rfl
    exact (StdMap.count_iff_mem_keys g.obj x).1 hcx
  have := (List.subperm_of_subset hnd hsub).length_le
  simpa [vertices, vertexCount] using this

theorem mem_vertices_iff_count (g : Digraph VertexInfo EdgeInfo) (k : Int) :
    k ∈ g.vertices ↔ g.obj.count k = true :=
  (StdMap.count_iff_mem_keys g.obj k).symm

theorem final_path (P : PriorityQueue W) (g : Digraph VertexInfo EdgeInfo) (w : EdgeInfo → W)
    (s : Int) (st : SPState P.Q W) (h0 : Inv0 P g s st) (h1 : Inv1 P g w s st s [])
    (v : Int) (hv : st.kv.find v = some true) :
    ∃ path, coord st.pv g.vertexCount s v [] = .ok path ∧ g.IsPath s v path ∧
      path.Chain' (fun a b => st.pv.find b = some a) ∧ path.Nodup ∧
      path.length ≤ g.vertexCount ∧ ∃ d, st.dv.find v = some d ∧ g.pathWeight w path = d := by
  obtain ⟨fl, hfo, _, hiff⟩ := h1.order
  have hdist : ∀ k p, st.pv.find k = some p → p ≠ k →
      (st.dv.find k).getD 0 = (st.dv.find p).getD 0 + g.edgeW w p k := by
    intro k p hk hne
    obtain ⟨dk, dp, h2, h3, h4, _⟩ := h1.pv_dist k p hk hne
    rw [h2, h3]; exact h4
  obtain ⟨path, hc1, hc2, hc3, hc4, hc5, hc6⟩ := FinOrder.path st.pv g w s
    (fun k => (st.dv.find k).getD 0) fl hfo (fun k p hk hne => (h0.pv_edge k p hk hne).2)
    hdist (by simp [h1.dv_s]) v ((hiff v).1 hv)
  have hlen := length_le_vertexCount P g s st h0 path hc4 (fun x hx => (hiff x).2 (hc5 x hx))
  have hcv : g.obj.count v = true := by rw [← h0.kv_keys, hv]; rfl
  obtain ⟨d, hd⟩ := StdMap.exists_find_of_count st.dv v (by rw [h0.dv_keys]; exact hcv)
  refine ⟨path, ?_, hc2, hc3, hc4, hlen, d, hd, ?_⟩
  · have := hc1 g.vertexCount [] hlen
    simpa using this
  · rw [hc6, hd]; rfl

/-! ## Depth-first search -/

theorem unmarked_mono (g : Digraph VertexInfo EdgeInfo) (vis vis' : StdMap Bool)
    (h : ∀ k, vis.find k = some true → vis'.find k = some true) :
    unmarked g vis' ≤ unmarked g vis := by
  obtain ⟨l⟩ := g
  simp only [unmarked]
  induction l with
  | nil => simp
  | cons a rest ih =>
    simp only [List.map_cons, List.sum_cons]
    have : (if vis'.find a.1 = some true then 0 else 1) ≤
        (if vis.find a.1 = some true then 0 else 1) := by
      by_cases h1 : vis.find a.1 = some true
      · simp [h1, h a.1 h1]
      · simp only [h1, if_false]; split <;> omega
    omega

theorem unmarked_assign (g : Digraph VertexInfo EdgeInfo) (vis : StdMap Bool) (v : Int)
    (hv : g.obj.count v = true) (hvis : vis.find v = some false) :
    unmarked g (vis.assign v true) + 1 ≤ unmarked g vis := by
  have hf : ∀ k, (vis.assign v true).find k = if k = v then some true else vis.find k :=
    fun k => StdMap.find_assign_some _ _ _ _ _ hvis
  have hmono : ∀ k, vis.find k = some true → (vis.assign v true).find k = some true := by
    intro k hk; rw [hf]; split
    · rfl
    · exact hk
  have hmem : v ∈ g.obj.keys := (StdMap.count_iff_mem_keys g.obj v).1 hv
  have key : ∀ l : StdMap (DigraphVertex VertexInfo EdgeInfo), v ∈ StdMap.keys l →
      (l.map (fun ent => if (vis.assign v true).find ent.1 = some true then 0 else 1)).sum + 1 ≤
      (l.map (fun ent => if vis.find ent.1 = some true then 0 else 1)).sum := by
    intro l
    induction l with
    | nil => intro h; simp [StdMap.keys] at h
    | cons a rest ih =>
      intro hmem
      simp only [List.map_cons, List.sum_cons]
      by_cases h : a.1 = v
      · have h1 : (if (vis.assign v true).find a.1 = some true then 0 else 1) = 0 := by
          rw [hf]; simp [h]
        have h2 : (if vis.find a.1 = some true then 0 else 1) = 1 := by
          rw [h, hvis]; simp
        have := unmarked_mono ⟨rest⟩ vis (vis.assign v true) hmono
        simp only [unmarked] at this
        rw [h1, h2]; omega
      · have h1 : (if (vis.assign v true).find a.1 = some true then 0 else 1) =
            (if vis.find a.1 = some true then 0 else 1) := by
          rw [hf]; simp [h]
        have hmem' : v ∈ StdMap.keys rest := by
          simp only [StdMap.keys, List.map_cons, List.mem_cons] at hmem
          rcases hmem with e | e
          · exact absurd e.symm h
          · exact e
        have := ih hmem'
        rw [h1]; omega
  exact key g.obj hmem

theorem DfsPost.refl (g : Digraph VertexInfo EdgeInfo) (r : Int) (vis : StdMap Bool)
    (visit : List Int) : DfsPost g r vis visit vis visit :=
  ⟨fun _ => rfl, fun _ h => h, fun _ h h' => absurd h h', fun _ _ h h' => absurd h h',
    ⟨[], by simp, List.nodup_nil, fun x => by simp⟩⟩

theorem DfsPost.trans {g : Digraph VertexInfo EdgeInfo} {r : Int} {a b c : StdMap Bool}
    {va vb vc : List Int} (h1 : DfsPost g r a va b vb) (h2 : DfsPost g r b vb c vc) :
    DfsPost g r a va c vc := by
  refine ⟨fun k => (h2.keys k).trans (h1.keys k), fun k h => h2.mono k (h1.mono k h), ?_, ?_, ?_⟩
  · intro x hx hxa
    by_cases hb : b.find x = some true
    · exact h1.reach x hb hxa
    · exact h2.reach x hx hb
  · intro x y hx hxa hxy
    by_cases hb : b.find x = some true
    · exact h2.mono y (h1.closed x y hb hxa hxy)
    · exact h2.closed x y hx hb hxy
  · obtain ⟨n1, e1, nd1, m1⟩ := h1.visit
    obtain ⟨n2, e2, nd2, m2⟩ := h2.visit
    refine ⟨n1 ++ n2, by rw [e2, e1, List.append_assoc], ?_, ?_⟩
    · rw [List.nodup_append]
      refine ⟨nd1, nd2, ?_⟩
      intro x hx1 hx2
      exact ((m2 x).1 hx2).2 ((m1 x).1 hx1).1
    · intro x
      rw [List.mem_append, m1, m2]
      constructor
      · rintro (⟨h, h'⟩ | ⟨h, h'⟩)
        · exact ⟨h2.mono x h, h'⟩
        · exact ⟨h, fun e => h' (h1.mono x e)⟩
      · rintro ⟨h, h'⟩
        by_cases hb : b.find x = some true
        · exact Or.inl ⟨hb, h'⟩
        · exact Or.inr ⟨h, hb⟩

theorem DfsPost.reroot {g : Digraph VertexInfo EdgeInfo} {r r' : Int} {a b : StdMap Bool}
    {va vb : List Int} (h : DfsPost g r a va b vb) (hr : g.Reach r' r) :
    DfsPost g r' a va b vb :=
  ⟨h.keys, h.mono, fun x hx hxa => Relation.ReflTransGen.trans hr (h.reach x hx hxa),
    h.closed, h.visit⟩

theorem connect_spec (g : Digraph VertexInfo EdgeInfo) (hc : g.Closed) :
    ∀ (d : Nat) (v : Int) (vis : StdMap Bool) (visit : List Int),
      (∀ k, (vis.find k).isSome = g.obj.count k) → vis.find v = some false →
      unmarked g vis ≤ d →
      ∃ vis' visit', g.connect (d + 1) v (vis, visit) = .ok (vis', visit') ∧
        DfsPost g v vis visit vis' visit' ∧ vis'.find v = some true := by
  intro d
  induction d with
  | zero =>
    intro v vis visit hkeys hv hd
    have hcv : g.obj.count v = true := by rw [← hkeys, hv]; rfl
    have := unmarked_assign g vis v hcv hv
    omega
  | succ d ih =>
    intro v vis visit hkeys hv hd
    have hcv : g.obj.count v = true := by rw [← hkeys, hv]; rfl
    obtain ⟨vr, hvr⟩ := StdMap.exists_find_of_count g.obj v hcv
    have hU := unmarked_assign g vis v hcv hv
    have hf1 : ∀ k, (vis.assign v true).find k = if k = v then some true else vis.find k :=
      fun k => StdMap.find_assign_some _ _ _ _ _ hv
    have hkeys1 : ∀ k, ((vis.assign v true).find k).isSome = g.obj.count k := by
      intro k; rw [StdMap.isSome_find_assign]; exact hkeys k
    -- the loop over the outgoing edges
    have hfold : ∀ (es : List (DigraphEdge EdgeInfo)), (∀ e ∈ es, e ∈ vr.edges) →
        ∀ (vi : StdMap Bool) (visiti : List Int),
          (∀ k, (vi.find k).isSome = g.obj.count k) → unmarked g vi ≤ d →
          ∃ vis' visit',
            es.foldlM (fun (st : StdMap Bool × List Int) ent =>
              let (b, visited) := st.1.index ent.toVertex false
              if !b then g.connect (d + 1) ent.toVertex (visited, st.2)
              else .ok (visited, st.2)) (vi, visiti) = .ok (vis', visit') ∧
            DfsPost g v vi visiti vis' visit' ∧
            ∀ e ∈ es, vis'.find e.toVertex = some true := by
      intro es
      induction es with
      | nil =>
        intro _ vi visiti _ _
        exact ⟨vi, visiti, rfl, DfsPost.refl g v vi visiti, fun e he => by cases he⟩
      | cons e es ihes =>
        intro hsub vi visiti hki hUi
        have he : e ∈ vr.edges := hsub e (List.mem_cons_self _ _)
        have hedge : g.Edge v e.toVertex := (edge_iff g v _).2 ⟨vr, hvr, e, he, rfl⟩
        have hce : g.obj.count e.toVertex = true := edge_count_right g hc v _ hedge
        obtain ⟨b, hb⟩ := StdMap.exists_find_of_count vi e.toVertex (by rw [hki]; exact hce)
        have hsub' : ∀ e' ∈ es, e' ∈ vr.edges := fun e' h => hsub e' (List.mem_cons_of_mem _ h)
        cases b with
        | true =>
          obtain ⟨vis', visit', hrun, hpost, htargets⟩ := ihes hsub' vi visiti hki hUi
          refine ⟨vis', visit', ?_, hpost, ?_⟩
          · rw [List.foldlM_cons]
            simp only [StdMap.index_of_find _ _ _ _ hb]
            exact hrun
          · intro e' he'
            rcases List.mem_cons.1 he' with h | h
            · rw [h]; exact hpost.mono _ hb
            · exact htargets e' h
        | false =>
          obtain ⟨vj, visitj, hrunj, hpostj, hmarkj⟩ := ih e.toVertex vi visiti hki hb hUi
          have hkj : ∀ k, (vj.find k).isSome = g.obj.count k :=
            fun k => (hpostj.keys k).trans (hki k)
          have hUj : unmarked g vj ≤ d :=
            le_trans (unmarked_mono g vi vj hpostj.mono) hUi
          obtain ⟨vis', visit', hrun, hpost, htargets⟩ := ihes hsub' vj visitj hkj hUj
          refine ⟨vis', visit', ?_,
            (hpostj.reroot (Relation.ReflTransGen.single hedge)).trans hpost, ?_⟩
          · rw [List.foldlM_cons]
            simp only [StdMap.index_of_find _ _ _ _ hb]
            simp only [Bool.not_false, if_true, hrunj]
            exact hrun
          · intro e' he'
            rcases List.mem_cons.1 he' with h | h
            · rw [h]; exact hpost.mono _ hmarkj
            · exact htargets e' h
    obtain ⟨vis', visit', hrun, hpost, htargets⟩ := hfold vr.edges (fun e h => h)
      (vis.assign v true) (visit ++ [v]) hkeys1 (by omega)
    have hmark1 : (vis.assign v true).find v = some true := by rw [hf1, if_pos rfl]
    refine ⟨vis', visit', ?_, ⟨?_, ?_, ?_, ?_, ?_⟩, hpost.mono v hmark1⟩
    · simp only [connect, StdMap.emplace_of_find _ _ _ _ hv, StdMap.at_eq_ok _ _ _ hvr]
      exact hrun
    · intro k; rw [hpost.keys, StdMap.isSome_find_assign]
    · intro k hk
      apply hpost.mono
      rw [hf1]; split
      · rfl
      · exact hk
    · intro x hx hxa
      by_cases hxv : x = v
      · rw [hxv]; exact Relation.ReflTransGen.refl
      · apply hpost.reach x hx
        rw [hf1, if_neg hxv]; exact hxa
    · intro x y hx hxa hxy
      by_cases hxv : x = v
      · rw [hxv] at hxy
        obtain ⟨vr', h1', e, he, hve⟩ := (edge_iff g v y).1 hxy
        rw [hvr] at h1'; cases h1'
        rw [← hve]; exact htargets e he
      · apply hpost.closed x y hx _ hxy
        rw [hf1, if_neg hxv]; exact hxa
    · obtain ⟨new, e1, nd, m⟩ := hpost.visit
      refine ⟨v :: new, by rw [e1]; simp, ?_, ?_⟩
      · refine List.nodup_cons.2 ⟨?_, nd⟩
        intro h
        exact ((m v).1 h).2 hmark1
      · intro x
        rw [List.mem_cons, m, hf1]
        by_cases hxv : x = v
        · subst hxv
          simp only [if_pos, true_or, true_iff]
          exact ⟨hpost.mono x hmark1, by rw [hv]; simp⟩
        · simp [hxv]

theorem visited_init_find (l : List (Int × DigraphVertex VertexInfo EdgeInfo)) :
    ∀ (m : StdMap Bool), (∀ k b, m.find k = some b → b = false) → ∀ k,
      StdMap.find (l.foldl (fun (m : StdMap Bool) inner =>
          (m.emplace inner.1 false).assign inner.1 false) m) k =
        if (m.find k).isSome then some false else (StdMap.find l k).map (fun _ => false) := by
  induction l with
  | nil =>
    intro m hm k
    simp only [List.foldl_nil, StdMap.find, Option.map_none']
    cases h : m.find k with
    | none => simp
    | some b => simp [hm k b h]
  | cons a rest ih =>
    intro m hm k
    have hfind : ∀ k', ((m.emplace a.1 false).assign a.1 false).find k' =
        if k' = a.1 then some false else m.find k' := by
      intro k'
      rw [StdMap.find_assign]
      split
      · rw [StdMap.find_emplace_self]; rfl
      · rename_i h; exact StdMap.find_emplace_ne _ _ _ _ h
    have hm' : ∀ k' b, ((m.emplace a.1 false).assign a.1 false).find k' = some b → b = false := by
      intro k' b h
      rw [hfind] at h
      split at h
      · cases h; rfl
      · exact hm k' b h
    rw [List.foldl_cons, ih _ hm' k, hfind]
    obtain ⟨k₁, r⟩ := a
    by_cases hk : k = k₁
    · subst hk
      simp only [if_true, Option.isSome_some, StdMap.find]
      cases m.find k <;> simp
    · simp only [if_neg hk, StdMap.find, if_neg (Ne.symm hk)]

theorem unmarked_init (g : Digraph VertexInfo EdgeInfo) (vis : StdMap Bool)
    (h : ∀ k, vis.find k ≠ some true) : unmarked g vis = g.obj.length := by
  obtain ⟨l⟩ := g
  simp only [unmarked]
  induction l with
  | nil => rfl
  | cons a rest ih =>
    simp only [List.map_cons, List.sum_cons, List.length_cons, if_neg (h a.1), ih]
    omega

theorem ordered_nodup {X : Type} (m : StdMap X) (h : m.Ordered) : m.keys.Nodup := by
  unfold StdMap.Ordered at h
  exact h.imp (fun hab => ne_of_lt hab)

theorem search_from (g : Digraph VertexInfo EdgeInfo) (hord : g.obj.Ordered) (hc : g.Closed)
    (v : Int) (hv : v ∈ g.vertices) :
    ∃ vis' visit',
      g.connect (g.obj.length + 1) v (g.visitedInit, []) = .ok (vis', visit') ∧
      (visit'.length = g.obj.length ↔ ∀ k ∈ g.vertices, g.Reach v k) := by
  have hcv : g.obj.count v = true := (StdMap.count_iff_mem_keys g.obj v).2 hv
  have hfind0 : ∀ k, g.visitedInit.find k = (g.obj.find k).map (fun _ => false) := by
    intro k
    have := visited_init_find g.obj [] (by intro k b h; simp [StdMap.find] at h) k
    simpa [StdMap.find] using this
  have hkeys0 : ∀ k, (g.visitedInit.find k).isSome = g.obj.count k := by
    intro k; rw [hfind0]; simp [StdMap.count]
  have hnone : ∀ k, g.visitedInit.find k ≠ some true := by
    intro k; rw [hfind0]; cases g.obj.find k <;> simp
  have hv0 : g.visitedInit.find v = some false := by
    obtain ⟨vr, hvr⟩ := StdMap.exists_find_of_count g.obj v hcv
    rw [hfind0, hvr]; rfl
  obtain ⟨vis', visit', hrun, hpost, hmark⟩ := connect_spec g hc g.obj.length v _ []
    hkeys0 hv0 (le_of_eq (unmarked_init g _ hnone))
  refine ⟨vis', visit', hrun, ?_⟩
  obtain ⟨new, e1, nd, m⟩ := hpost.visit
  simp only [List.nil_append] at e1
  subst e1
  have hmarked : ∀ x, vis'.find x = some true ↔ g.Reach v x := by
    intro x
    constructor
    · intro hx; exact hpost.reach x hx (hnone x)
    · intro hr
      induction hr with
      | refl => exact hmark
      | tail _ hxy ih => exact hpost.closed _ _ ih (hnone _) hxy
  have hmem : ∀ x, x ∈ visit' ↔ g.Reach v x := by
    intro x; rw [m, hmarked]
    exact ⟨fun h => h.1, fun h => ⟨h, hnone x⟩⟩
  have hsub : visit' ⊆ g.vertices := by
    intro x hx
    have h1 := ((m x).1 hx).1
    have : g.obj.count x = true := by rw [← hkeys0, hpost.keys x |>.symm, h1]; rfl
    exact (StdMap.count_iff_mem_keys g.obj x).1 this
  have hnd : g.vertices.Nodup := ordered_nodup g.obj hord
  have hlen : g.vertices.length = g.obj.length := by simp [vertices]
  constructor
  · intro h k hk
    have hperm := (List.subperm_of_subset nd hsub).perm_of_length_le (by rw [hlen, h])
    exact (hmem k).1 (hperm.mem_iff.2 hk)
  · intro h
    have h1 := (List.subperm_of_subset nd hsub).length_le
    have h2 := (List.subperm_of_subset hnd (fun k hk => (hmem k).2 (h k hk))).length_le
    omega

theorem isStronglyConnectedLoop_spec (g : Digraph VertexInfo EdgeInfo) (hord : g.obj.Ordered)
    (hc : g.Closed) :
    ∀ rest : List (Int × DigraphVertex VertexInfo EdgeInfo), (∀ ent ∈ rest, ent ∈ g.obj) →
      ∃ b, g.isStronglyConnectedLoop rest = .ok b ∧
        (b = true ↔ ∀ ent ∈ rest, ∀ k ∈ g.vertices, g.Reach ent.1 k) := by
  intro rest
  induction rest with
  | nil => intro _; exact ⟨true, rfl, by simp⟩
  | cons outer rest ih =>
    intro hsub
    have hv : outer.1 ∈ g.vertices :=
      List.mem_map.2 ⟨outer, hsub outer (List.mem_cons_self _ _), rfl⟩
    obtain ⟨vis', visit', hrun, hiff⟩ := search_from g hord hc outer.1 hv
    obtain ⟨b, hb, hbiff⟩ := ih (fun ent h => hsub ent (List.mem_cons_of_mem _ h))
    by_cases hlen : visit'.length = g.obj.length
    · refine ⟨b, ?_, ?_⟩
      · simp only [isStronglyConnectedLoop, hrun, hlen, bne_self_eq_false, Bool.false_eq_true,
          if_false]
        exact hb
      · rw [hbiff]
        constructor
        · intro h ent hent
          rcases List.mem_cons.1 hent with e | e
          · rw [e]; exact hiff.1 hlen
          · exact h ent e
        · intro h ent hent
          exact h ent (List.mem_cons_of_mem _ hent)
    · refine ⟨false, ?_, ?_⟩
      · simp only [isStronglyConnectedLoop, hrun]
        rw [if_pos (by simpa using hlen)]
      · constructor
        · intro h; cases h
        · intro h
          exact absurd (hiff.2 (h outer (List.mem_cons_self _ _))) hlen

/-! ## Mutation -/

theorem edgeCount_eq_sum (g : Digraph VertexInfo EdgeInfo) :
    g.edgeCount = (g.obj.map (fun ent => ent.2.edges.length)).sum := by
  unfold edgeCount
  have hgen : ∀ (l : List (Int × DigraphVertex VertexInfo EdgeInfo)) (c : Nat),
      l.foldl (fun count ent => count + ent.2.edges.length) c =
        c + (l.map (fun ent => ent.2.edges.length)).sum := by
    intro l
    induction l with
    | nil => intro c; simp
    | cons a rest ih =>
      intro c
      simp only [List.foldl_cons, List.map_cons, List.sum_cons, ih]
      omega
  rw [hgen g.obj 0]; simp

theorem sum_assign_append (l : StdMap (DigraphVertex VertexInfo EdgeInfo)) (k : Int)
    (vr : DigraphVertex VertexInfo EdgeInfo) (e : DigraphEdge EdgeInfo)
    (h : l.find k = some vr) :
    ((l.assign k ⟨vr.vinfo, vr.edges ++ [e]⟩).map (fun ent => ent.2.edges.length)).sum =
      (l.map (fun ent => ent.2.edges.length)).sum + 1 := by
  induction l with
  | nil => simp [StdMap.find] at h
  | cons a rest ih =>
    obtain ⟨k₁, r⟩ := a
    simp only [StdMap.find] at h
    simp only [StdMap.assign]
    by_cases hk : k₁ = k
    · rw [if_pos hk] at h
      cases h
      simp only [if_pos hk, List.map_cons, List.sum_cons, List.length_append,
        List.length_singleton]
      omega
    · rw [if_neg hk] at h
      simp only [if_neg hk, List.map_cons, List.sum_cons, ih h]
      omega

theorem reach_mem_vertices (g : Digraph VertexInfo EdgeInfo) (hc : g.Closed) (s v : Int)
    (hs : s ∈ g.vertices) (h : g.Reach s v) : v ∈ g.vertices := by
  induction h with
  | refl => exact hs
  | tail _ hxy _ => exact (mem_vertices_iff_count g _).2 (edge_count_right g hc _ _ hxy)

theorem natWeight_nonneg (e : Nat) : 0 ≤ natWeight e := Int.ofNat_nonneg e

theorem roadGraph_short (v : Int) (h : roadGraph.Reach 1 v) :
    ∃ p, roadGraph.IsPath 1 v p ∧ roadGraph.pathWeight natWeight p < (INF : Int) := by
  have hv := reach_mem_vertices roadGraph (by decide) 1 v (by decide) h
  have hv' : v = 1 ∨ v = 2 ∨ v = 3 := by simpa [vertices, roadGraph] using hv
  rcases hv' with rfl | rfl | rfl
  · exact ⟨[1], ⟨rfl, rfl, List.chain'_singleton _⟩, by decide⟩
  · exact ⟨[1, 2], ⟨rfl, rfl, List.Chain'.cons (by decide) (List.chain'_singleton _)⟩, by decide⟩
  · exact ⟨[1, 2, 3], ⟨rfl, rfl, List.Chain'.cons (by decide)
      (List.Chain'.cons (by decide) (List.chain'_singleton _))⟩, by decide⟩

theorem roadGraph4_unreachable : ¬ roadGraph4.Reach 1 4 := by
  intro h
  rcases Relation.ReflTransGen.cases_tail h with h | ⟨b, _, hb⟩
  · exact absurd h (by decide)
  · have hb' := (mem_vertices_iff_count roadGraph4 b).2 (edge_count_left roadGraph4 b 4 hb)
    have hv : b = 1 ∨ b = 2 ∨ b = 3 ∨ b = 4 := by simpa [vertices, roadGraph4] using hb'
    rcases hv with rfl | rfl | rfl | rfl <;> exact absurd hb (by decide)

/-! ## The claims -/

/-- With exact sums: on a graph whose edge records lie in the lists of their own `fromVertex`
and end in vertices, from a start vertex of the graph and with non-negative weights, if every
vertex reachable from `s` has a path from `s` of total weight below `INF`, then
`findShortestPaths` returns a map such that, for every reachable `v`, the walk of `coord`
back along the map is a path from `s` to `v` whose total weight is least among all paths from
`s` to `v`. -/
theorem findShortestPaths_optimal (P : PriorityQueue W) (g : Digraph VertexInfo EdgeInfo)
    (w : EdgeInfo → W) (s : Int) (ho : g.OwnEdges) (hc : g.Closed) (hs : s ∈ g.vertices)
    (hw : ∀ e, 0 ≤ w e)
    (hINF : ∀ v, g.Reach s v → ∃ p, g.IsPath s v p ∧ g.pathWeight w p < (INF : W)) :
    ∃ m, findShortestPaths P g s w = .ok m ∧
      ∀ v, g.Reach s v →
        ∃ path, coord m g.vertexCount s v [] = .ok path ∧ g.IsPath s v path ∧
          ∀ q, g.IsPath s v q → g.pathWeight w path ≤ g.pathWeight w q := by
  have hs' := (mem_vertices_iff_count g s).1 hs
  obtain ⟨st, hrun, h0, h1, hemp⟩ := findShortestPaths_spec P g w s ho hc hs'
  have h1 := h1 hw
  refine ⟨st.pv, hrun, ?_⟩
  intro v hv
  have hfs : st.kv.find s = some true :=
    final_fin_of_lt P g w s st h0 h1 hemp s 0 h1.dv_s INF_pos
  have hlow : ∀ q, g.IsPath s v q → ∃ y dy, st.dv.find y = some dy ∧
      dy ≤ g.pathWeight w q ∧ (y = v ∨ st.kv.find y = some false) := by
    intro q hq
    obtain ⟨y, dy, h2, h3, h4⟩ := lower_bound P g w s st hc hw h0 h1 q s v 0 hq hfs h1.dv_s
    exact ⟨y, dy, h2, by simpa using h3, h4⟩
  obtain ⟨p, hp, hplt⟩ := hINF v hv
  have hfv : st.kv.find v = some true := by
    obtain ⟨y, dy, h2, h3, h4⟩ := hlow p hp
    have hlt : dy < (INF : W) := lt_of_le_of_lt h3 hplt
    have hfy := final_fin_of_lt P g w s st h0 h1 hemp y dy h2 hlt
    rcases h4 with h | h
    · rw [← h]; exact hfy
    · rw [hfy] at h; cases h
  obtain ⟨path, hc1, hc2, _, _, _, d, hd, hwt⟩ := final_path P g w s st h0 h1 v hfv
  refine ⟨path, hc1, hc2, ?_⟩
  intro q hq
  obtain ⟨y, dy, h2, h3, h4⟩ := hlow q hq
  rw [hwt]
  rcases h4 with h | h
  · subst h
    rw [hd] at h2; cases h2
    exact h3
  · exact le_trans (h1.fin_le v y d dy hfv h hd h2) h3

/-- The scenario of the specification with exact sums: the hypotheses hold for `roadGraph`,
start vertex 1 and the weights 5, 2, 100, and the map returned is `{1:1, 2:1, 3:2}`. -/
theorem findShortestPaths_optimal_witness :
    roadGraph.OwnEdges ∧ roadGraph.Closed ∧ (1 : Int) ∈ roadGraph.vertices ∧
    (∀ e, 0 ≤ natWeight e) ∧
    (∀ v, roadGraph.Reach 1 v →
      ∃ p, roadGraph.IsPath 1 v p ∧ roadGraph.pathWeight natWeight p < (INF : Int)) ∧
    findShortestPaths (listQueue Int) roadGraph 1 natWeight = .ok [(1, 1), (2, 1), (3, 2)] ∧
    coord [(1, 1), (2, 1), (3, 2)] roadGraph.vertexCount 1 3 [] = .ok [1, 2, 3] ∧
    ∃ m, findShortestPaths (listQueue Int) roadGraph 1 natWeight = .ok m ∧
      ∀ v, roadGraph.Reach 1 v →
        ∃ path, coord m roadGraph.vertexCount 1 v [] = .ok path ∧ roadGraph.IsPath 1 v path ∧
          ∀ q, roadGraph.IsPath 1 v q →
            roadGraph.pathWeight natWeight path ≤ roadGraph.pathWeight natWeight q :=
  ⟨by decide, by decide, by decide, natWeight_nonneg, roadGraph_short, rfl, rfl,
    findShortestPaths_optimal (listQueue Int) roadGraph natWeight 1 (by decide) (by decide)
      (by decide) natWeight_nonneg roadGraph_short⟩

/-- C2: on a graph whose edge records lie in the lists of their own `fromVertex` and end in
vertices, from a start vertex of the graph and with non-negative weights, every vertex `v`
that the returned map sends to another vertex is joined to `s` by the walk of `coord` back
along the map: the walk ends within `vertexCount()` iterations, takes at most
`vertexCount() - 1` steps, every step goes from the predecessor `m[x]` to `x` along an edge
stored in the graph, and no vertex repeats. -/
theorem findShortestPaths_chain (P : PriorityQueue W) (g : Digraph VertexInfo EdgeInfo)
    (w : EdgeInfo → W) (s : Int) (ho : g.OwnEdges) (hc : g.Closed) (hs : s ∈ g.vertices)
    (hw : ∀ e, 0 ≤ w e) :
    ∃ m, findShortestPaths P g s w = .ok m ∧
      ∀ v p, m.find v = some p → p ≠ v →
        ∃ path, coord m g.vertexCount s v [] = .ok path ∧
          path.length - 1 ≤ g.vertexCount - 1 ∧ g.IsPath s v path ∧
          path.Chain' (fun a b => m.find b = some a) ∧ path.Nodup := by
  have hs' := (mem_vertices_iff_count g s).1 hs
  obtain ⟨st, hrun, h0, h1, hemp⟩ := findShortestPaths_spec P g w s ho hc hs'
  have h1 := h1 hw
  refine ⟨st.pv, hrun, ?_⟩
  intro v p hp hne
  obtain ⟨dk, _, h2, _, _, h5⟩ := h1.pv_dist v p hp hne
  have hfv := final_fin_of_lt P g w s st h0 h1 hemp v dk h2 h5
  obtain ⟨path, hc1, hc2, hc3, hc4, hc5, _⟩ := final_path P g w s st h0 h1 v hfv
  exact ⟨path, hc1, Nat.sub_le_sub_right hc5 1, hc2, hc3, hc4⟩

/-- Witness of C2 on `roadGraph` from the start vertex 1. -/
theorem findShortestPaths_chain_witness :
    roadGraph.OwnEdges ∧ roadGraph.Closed ∧ (1 : Int) ∈ roadGraph.vertices ∧
    (∀ e, 0 ≤ natWeight e) ∧
    ∃ m, findShortestPaths (listQueue Int) roadGraph 1 natWeight = .ok m ∧
      ∀ v p, m.find v = some p → p ≠ v →
        ∃ path, coord m roadGraph.vertexCount 1 v [] = .ok path ∧
          path.length - 1 ≤ roadGraph.vertexCount - 1 ∧ roadGraph.IsPath 1 v path ∧
          path.Chain' (fun a b => m.find b = some a) ∧ path.Nodup :=
  ⟨by decide, by decide, by decide, natWeight_nonneg,
    findShortestPaths_chain (listQueue Int) roadGraph natWeight 1 (by decide) (by decide)
      (by decide) natWeight_nonneg⟩

/-- The failing input of C3: in `farGraph` the vertex 2 is reachable from 1 along an edge of
non-negative weight `INF`, and `findShortestPaths` maps 2 to itself. -/
theorem findShortestPaths_far_vertex :
    farGraph.OwnEdges ∧ farGraph.Closed ∧ (1 : Int) ∈ farGraph.vertices ∧
    (∀ e, 0 ≤ natWeight e) ∧ farGraph.Reach 1 2 ∧
    findShortestPaths (listQueue Int) farGraph 1 natWeight = .ok [(1, 1), (2, 2)] :=
  ⟨by decide, by decide, by decide, natWeight_nonneg,
    Relation.ReflTransGen.single (by decide), rfl⟩

/-- C4: on a graph whose edge records lie in the lists of their own `fromVertex` and end in
vertices, from a start vertex of the graph and for any weight function, `findShortestPaths`
returns a map that sends every vertex not reachable from `s` to itself. -/
theorem findShortestPaths_unreachable (P : PriorityQueue W) (g : Digraph VertexInfo EdgeInfo)
    (w : EdgeInfo → W) (s : Int) (ho : g.OwnEdges) (hc : g.Closed) (hs : s ∈ g.vertices) :
    ∃ m, findShortestPaths P g s w = .ok m ∧
      ∀ v ∈ g.vertices, ¬ g.Reach s v → m.find v = some v := by
  have hs' := (mem_vertices_iff_count g s).1 hs
  obtain ⟨st, hrun, h0, _, _⟩ := findShortestPaths_spec P g w s ho hc hs'
  refine ⟨st.pv, hrun, ?_⟩
  intro v hv hnr
  obtain ⟨p, hp⟩ := StdMap.exists_find_of_count st.pv v
    (by rw [h0.pv_keys]; exact (mem_vertices_iff_count g v).1 hv)
  by_cases hpv : p = v
  · rw [hp, hpv]
  · obtain ⟨hf, he⟩ := h0.pv_edge v p hp hpv
    exact absurd (Relation.ReflTransGen.tail (h0.fin_reach p hf) he) hnr

/-- Witness of C4: with the isolated vertex 4 added to the scenario graph, vertex 4 is not
reachable from 1 and the map returned sends 4 to 4. -/
theorem findShortestPaths_unreachable_witness :
    roadGraph4.OwnEdges ∧ roadGraph4.Closed ∧ (1 : Int) ∈ roadGraph4.vertices ∧
    (4 : Int) ∈ roadGraph4.vertices ∧ ¬ roadGraph4.Reach 1 4 ∧
    findShortestPaths (listQueue Int) roadGraph4 1 natWeight
      = .ok [(1, 1), (2, 1), (3, 2), (4, 4)] ∧
    ∃ m, findShortestPaths (listQueue Int) roadGraph4 1 natWeight = .ok m ∧
      ∀ v ∈ roadGraph4.vertices, ¬ roadGraph4.Reach 1 v → m.find v = some v :=
  ⟨by decide, by decide, by decide, by decide, roadGraph4_unreachable, rfl,
    findShortestPaths_unreachable (listQueue Int) roadGraph4 natWeight 1 (by decide)
      (by decide) (by decide)⟩

/-- C5: on a graph whose edge records lie in the lists of their own `fromVertex` and end in
vertices, from a start vertex of the graph and with non-negative weights, the map returned
by `findShortestPaths` sends `s` to `s`. -/
theorem findShortestPaths_start (P : PriorityQueue W) (g : Digraph VertexInfo EdgeInfo)
    (w : EdgeInfo → W) (s : Int) (ho : g.OwnEdges) (hc : g.Closed) (hs : s ∈ g.vertices)
    (hw : ∀ e, 0 ≤ w e) :
    ∃ m, findShortestPaths P g s w = .ok m ∧ m.find s = some s := by
  have hs' := (mem_vertices_iff_count g s).1 hs
  obtain ⟨st, hrun, _, h1, _⟩ := findShortestPaths_spec P g w s ho hc hs'
  exact ⟨st.pv, hrun, (h1 hw).pv_s⟩

/-- Witness of C5 on `roadGraph` from the start vertex 1. -/
theorem findShortestPaths_start_witness :
    roadGraph.OwnEdges ∧ roadGraph.Closed ∧ (1 : Int) ∈ roadGraph.vertices ∧
    (∀ e, 0 ≤ natWeight e) ∧
    ∃ m, findShortestPaths (listQueue Int) roadGraph 1 natWeight = .ok m ∧
      m.find 1 = some 1 :=
  ⟨by decide, by decide, by decide, natWeight_nonneg,
    findShortestPaths_start (listQueue Int) roadGraph natWeight 1 (by decide) (by decide)
      (by decide) natWeight_nonneg⟩

/-- C6: on a graph whose edge records lie in the lists of their own `fromVertex` and end in
vertices, from a start vertex of the graph and for any weight function, `findShortestPaths`
returns a map with ascending keys whose keys are exactly the vertex numbers of `vertices()`
and whose values are all vertex numbers of the graph. -/
theorem findShortestPaths_keys (P : PriorityQueue W) (g : Digraph VertexInfo EdgeInfo)
    (w : EdgeInfo → W) (s : Int) (ho : g.OwnEdges) (hc : g.Closed) (hs : s ∈ g.vertices) :
    ∃ m, findShortestPaths P g s w = .ok m ∧ m.Ordered ∧
      (∀ k, k ∈ m.keys ↔ k ∈ g.vertices) ∧ ∀ kp ∈ m, kp.2 ∈ g.vertices := by
  have hs' := (mem_vertices_iff_count g s).1 hs
  obtain ⟨st, hrun, h0, _, _⟩ := findShortestPaths_spec P g w s ho hc hs'
  have hkeys : ∀ k, k ∈ st.pv.keys ↔ k ∈ g.vertices := by
    intro k
    rw [← StdMap.find_isSome_iff_mem_keys, h0.pv_keys, mem_vertices_iff_count]
  refine ⟨st.pv, hrun, h0.pv_ord, hkeys, ?_⟩
  rintro ⟨k, p⟩ hkp
  have hfind := StdMap.find_of_mem_ordered st.pv h0.pv_ord k p hkp
  by_cases hpk : p = k
  · show p ∈ g.vertices
    rw [hpk, ← hkeys]
    exact List.mem_map.2 ⟨(k, p), hkp, rfl⟩
  · have hf := (h0.pv_edge k p hfind hpk).1
    show p ∈ g.vertices
    rw [mem_vertices_iff_count, ← h0.kv_keys, hf]; rfl

/-- Witness of C6 on `roadGraph` from the start vertex 2. -/
theorem findShortestPaths_keys_witness :
    roadGraph.OwnEdges ∧ roadGraph.Closed ∧ (2 : Int) ∈ roadGraph.vertices ∧
    findShortestPaths (listQueue Int) roadGraph 2 natWeight = .ok [(1, 1), (2, 2), (3, 2)] ∧
    ∃ m, findShortestPaths (listQueue Int) roadGraph 2 natWeight = .ok m ∧ m.Ordered ∧
      (∀ k, k ∈ m.keys ↔ k ∈ roadGraph.vertices) ∧ ∀ kp ∈ m, kp.2 ∈ roadGraph.vertices :=
  ⟨by decide, by decide, by decide, rfl,
    findShortestPaths_keys (listQueue Int) roadGraph natWeight 2 (by decide) (by decide)
      (by decide)⟩

/-- C7: for every graph, the empty one included, and every start vertex that is not a
vertex of the graph, `findShortestPaths` does not return a map: it leaves with the
`std::out_of_range` exception of `kv.at`. -/
theorem findShortestPaths_absent (P : PriorityQueue W) (g : Digraph VertexInfo EdgeInfo)
    (w : EdgeInfo → W) (s : Int) (hs : s ∉ g.vertices) :
    findShortestPaths P g s w = .error .out_of_range := by
  have hs' : g.obj.find s = none := by
    cases h : g.obj.find s with
    | none => rfl
    | some a =>
      exact absurd ((mem_vertices_iff_count g s).2 (by simp [StdMap.count, h])) hs
  rcases hinit : initMaps s g.obj (([], [], []) : StdMap Bool × StdMap Int × StdMap W)
    with ⟨kv, pv, dv⟩
  have hfind := (initMaps_find (W := W) s g.obj [] [] [] s).1
  rw [hinit] at hfind
  have hkv : kv.find s = none := by simpa [StdMap.find, hs'] using hfind
  have hne : P.items (P.push P.empty ⟨0, s⟩) ≠ [] := by
    intro h
    have := (mem_items_push P P.empty ⟨0, s⟩ ⟨0, s⟩).2 (Or.inl rfl)
    rw [h] at this; cases this
  cases hpop : P.pop (P.push P.empty ⟨0, s⟩) with
  | none => exact absurd ((P.pop_none _).1 hpop) hne
  | some r =>
    obtain ⟨ver, pq'⟩ := r
    have hver : ver = ⟨0, s⟩ := by
      have h1 := (mem_items_of_pop P _ _ _ hpop ver).2 (Or.inl rfl)
      rcases (mem_items_push P _ _ _).1 h1 with h | h
      · exact h
      · rw [P.items_empty] at h; cases h
    subst hver
    simp only [findShortestPaths, hinit, spLoop, hpop, StdMap.at_eq_error _ _ hkv]

/-- Witness of C7: start vertex 7 on `roadGraph`, and start vertex 0 on the empty graph. -/
theorem findShortestPaths_absent_witness :
    (7 : Int) ∉ roadGraph.vertices ∧
    findShortestPaths (listQueue Int) roadGraph 7 natWeight = .error .out_of_range ∧
    findShortestPaths (listQueue Int) (Digraph.empty : Digraph Unit Nat) 0 natWeight
      = .error .out_of_range :=
  ⟨by decide,
    findShortestPaths_absent (listQueue Int) roadGraph natWeight 7 (by decide),
    findShortestPaths_absent (listQueue Int) Digraph.empty natWeight 0 (by decide)⟩

/-- C8: on a graph, given as a `std::map`, whose edges all end in vertices,
`isStronglyConnected()` returns, and it returns true exactly when every vertex of the graph
is reachable from every vertex of the graph by a directed path, possibly of length 0. -/
theorem isStronglyConnected_iff (g : Digraph VertexInfo EdgeInfo) (hord : g.obj.Ordered)
    (hc : g.Closed) :
    ∃ b, g.isStronglyConnected = .ok b ∧
      (b = true ↔ ∀ u ∈ g.vertices, ∀ v ∈ g.vertices, g.Reach u v) := by
  obtain ⟨b, hb, hiff⟩ := isStronglyConnectedLoop_spec g hord hc g.obj (fun _ h => h)
  refine ⟨b, hb, hiff.trans ?_⟩
  constructor
  · intro h u hu v hv
    obtain ⟨ent, hent, he⟩ := List.mem_map.1 hu
    rw [← he]; exact h ent hent v hv
  · intro h ent hent k hk
    exact h ent.1 (List.mem_map.2 ⟨ent, hent, rfl⟩) k hk

/-- Witness of C8: the empty graph and a single vertex are strongly connected, the scenario
graph, whose vertex 1 has no incoming edge, is not, and a cycle is. -/
theorem isStronglyConnected_iff_witness :
    cycleGraph.obj.Ordered ∧ cycleGraph.Closed ∧
    isStronglyConnected (Digraph.empty : Digraph Unit Nat) = .ok true ∧
    isStronglyConnected oneVertex = .ok true ∧
    isStronglyConnected roadGraph = .ok false ∧
    isStronglyConnected cycleGraph = .ok true ∧
    ∃ b, cycleGraph.isStronglyConnected = .ok b ∧
      (b = true ↔ ∀ u ∈ cycleGraph.vertices, ∀ v ∈ cycleGraph.vertices, cycleGraph.Reach u v) :=
  ⟨by decide, by decide, rfl, rfl, rfl, rfl,
    isStronglyConnected_iff cycleGraph (by decide) (by decide)⟩

/-- C9: `addVertex(id, label)` fails exactly when `id` is already a vertex; otherwise the new
graph has the vertices of the old one and `id`, `vertexInfo(id)` is `label`, `edgeCount(id)`
is 0 and the record of every other vertex number is the one of the old graph. -/
theorem addVertex_spec (g : Digraph VertexInfo EdgeInfo) (id : Int) (label : VertexInfo) :
    ((∃ e, g.addVertex id label = .error e) ↔ id ∈ g.vertices) ∧
    (id ∉ g.vertices →
      ∃ g', g.addVertex id label = .ok g' ∧
        (∀ k, k ∈ g'.vertices ↔ k = id ∨ k ∈ g.vertices) ∧
        g'.vertexInfo id = .ok label ∧ g'.edgeCountOf id = .ok 0 ∧
        ∀ k, k ≠ id → g'.obj.find k = g.obj.find k) := by
  by_cases hid : id ∈ g.vertices
  · have hc : g.obj.count id = true := (mem_vertices_iff_count g id).1 hid
    refine ⟨⟨fun _ => hid, fun _ => ⟨.DigraphException, by simp [addVertex, hc]⟩⟩,
      fun h => absurd hid h⟩
  · have hc : g.obj.count id = false := by
      cases h : g.obj.count id with
      | false => rfl
      | true => exact absurd ((mem_vertices_iff_count g id).2 h) hid
    have hnone : g.obj.find id = none := by
      cases h : g.obj.find id with
      | none => rfl
      | some a => simp [StdMap.count, h] at hc
    have hrun : g.addVertex id label = .ok ⟨g.obj.emplace id ⟨label, []⟩⟩ := by
      simp [addVertex, hc]
    have hself : (g.obj.emplace id ⟨label, []⟩).find id = some ⟨label, []⟩ := by
      rw [StdMap.find_emplace_self, hnone]; rfl
    refine ⟨⟨?_, fun h => absurd h hid⟩, fun _ => ⟨_, hrun, ?_, ?_, ?_, ?_⟩⟩
    · rintro ⟨e, he⟩
      rw [hrun] at he; cases he
    · intro k
      rw [mem_vertices_iff_count, mem_vertices_iff_count]
      show (g.obj.emplace id ⟨label, []⟩).count k = true ↔ _
      rw [StdMap.count_emplace]
      simp
    · simp [vertexInfo, hself]
    · simp [edgeCountOf, StdMap.count, StdMap.at_, hself]
    · intro k hk
      exact StdMap.find_emplace_ne _ _ _ _ hk

/-- Witness of C9: vertex 4 is added to `roadGraph`. -/
theorem addVertex_spec_witness :
    (4 : Int) ∉ roadGraph.vertices ∧ roadGraph.addVertex 4 () = .ok roadGraph4 ∧
    ∃ g', roadGraph.addVertex 4 () = .ok g' ∧
      (∀ k, k ∈ g'.vertices ↔ k = 4 ∨ k ∈ roadGraph.vertices) ∧
      g'.vertexInfo 4 = .ok () ∧ g'.edgeCountOf 4 = .ok 0 ∧
      ∀ k, k ≠ 4 → g'.obj.find k = roadGraph.obj.find k :=
  ⟨by decide, rfl, (addVertex_spec roadGraph 4 ()).2 (by decide)⟩

/-- C10: on a graph whose records lie in the lists of their own `fromVertex`,
`addEdge(from, to, label)` fails exactly when `from` is not a vertex, or `to` is not a vertex,
or an edge from `from` to `to` is already stored; otherwise the outgoing list of `from`
becomes the old list followed by the record `(from, to, label)`, `edgeCount()` grows by
exactly 1, the vertices stay the same and every other vertex record is unchanged. -/
theorem addEdge_spec (g : Digraph VertexInfo EdgeInfo) (ho : g.OwnEdges)
    (fromVertex toVertex : Int) (label : EdgeInfo) :
    ((∃ e, g.addEdge fromVertex toVertex label = .error e) ↔
      (fromVertex ∉ g.vertices ∨ toVertex ∉ g.vertices ∨ g.Edge fromVertex toVertex)) ∧
    (¬ (fromVertex ∉ g.vertices ∨ toVertex ∉ g.vertices ∨ g.Edge fromVertex toVertex) →
      ∃ g' vr, g.addEdge fromVertex toVertex label = .ok g' ∧
        g.obj.find fromVertex = some vr ∧
        g'.obj.find fromVertex =
          some ⟨vr.vinfo, vr.edges ++ [⟨fromVertex, toVertex, label⟩]⟩ ∧
        (∀ k, k ≠ fromVertex → g'.obj.find k = g.obj.find k) ∧
        g'.edgeCount = g.edgeCount + 1 ∧ g'.vertices = g.vertices) := by
  by_cases hf : fromVertex ∈ g.vertices
  swap
  · have hnone : g.obj.find fromVertex = none := by
      cases h : g.obj.find fromVertex with
      | none => rfl
      | some a =>
        exact absurd ((mem_vertices_iff_count g _).2 (by simp [StdMap.count, h])) hf
    have hrun : g.addEdge fromVertex toVertex label = .error .DigraphException := by
      simp [addEdge, edgesOf, hnone]
    exact ⟨⟨fun _ => Or.inl hf, fun _ => ⟨_, hrun⟩⟩, fun h => absurd (Or.inl hf) h⟩
  have hcf : g.obj.count fromVertex = true := (mem_vertices_iff_count g _).1 hf
  obtain ⟨vr, hvr⟩ := StdMap.exists_find_of_count g.obj fromVertex hcf
  have heg := edgesOf_own g ho fromVertex vr hvr
  have hmem : (fromVertex, toVertex) ∈ vr.edges.map (fun ent => (fromVertex, ent.toVertex)) ↔
      g.Edge fromVertex toVertex := by
    rw [edge_iff]
    constructor
    · intro h
      obtain ⟨e, he, hp⟩ := List.mem_map.1 h
      exact ⟨vr, hvr, e, he, by simpa using hp⟩
    · rintro ⟨vr', h1, e, he, hp⟩
      rw [hvr] at h1; cases h1
      exact List.mem_map.2 ⟨e, he, by rw [hp]⟩
  by_cases ht : toVertex ∈ g.vertices
  swap
  · have hct : g.obj.count toVertex = false := by
      cases h : g.obj.count toVertex with
      | false => rfl
      | true => exact absurd ((mem_vertices_iff_count g _).2 h) ht
    have hrun : g.addEdge fromVertex toVertex label = .error .DigraphException := by
      simp [addEdge, heg, hcf, hct]
    exact ⟨⟨fun _ => Or.inr (Or.inl ht), fun _ => ⟨_, hrun⟩⟩,
      fun h => absurd (Or.inr (Or.inl ht)) h⟩
  have hct : g.obj.count toVertex = true := (mem_vertices_iff_count g _).1 ht
  by_cases he : g.Edge fromVertex toVertex
  · have hrun : g.addEdge fromVertex toVertex label = .error .DigraphException := by
      simp only [addEdge, heg, hcf, hct, Bool.and_self, if_true, if_pos (hmem.2 he)]
    exact ⟨⟨fun _ => Or.inr (Or.inr he), fun _ => ⟨_, hrun⟩⟩,
      fun h => absurd (Or.inr (Or.inr he)) h⟩
  · have hrun : g.addEdge fromVertex toVertex label =
        .ok ⟨g.obj.assign fromVertex
          ⟨vr.vinfo, vr.edges ++ [⟨fromVertex, toVertex, label⟩]⟩⟩ := by
      simp only [addEdge, heg, hcf, hct, Bool.and_self, if_true,
        if_neg (fun h => he (hmem.1 h)), StdMap.at_eq_ok _ _ _ hvr]
    have hnot : ¬ (fromVertex ∉ g.vertices ∨ toVertex ∉ g.vertices ∨
        g.Edge fromVertex toVertex) := by
      rintro (h | h | h)
      · exact h hf
      · exact h ht
      · exact he h
    refine ⟨⟨?_, fun h => absurd h hnot⟩, fun _ => ⟨_, vr, hrun, hvr, ?_, ?_, ?_, ?_⟩⟩
    · rintro ⟨e, hee⟩
      rw [hrun] at hee; cases hee
    · show (g.obj.assign fromVertex _).find fromVertex = _
      rw [StdMap.find_assign_some _ _ _ _ _ hvr, if_pos rfl]
    · intro k hk
      exact StdMap.find_assign_ne _ _ _ _ hk
    · rw [edgeCount_eq_sum, edgeCount_eq_sum]
      exact sum_assign_append g.obj fromVertex vr _ hvr
    · exact StdMap.keys_assign _ _ _

/-- Witness of C10: the edge from 3 to 1 is added to `roadGraph`. -/
theorem addEdge_spec_witness :
    roadGraph.OwnEdges ∧
    ¬ ((3 : Int) ∉ roadGraph.vertices ∨ (1 : Int) ∉ roadGraph.vertices ∨ roadGraph.Edge 3 1) ∧
    ∃ g' vr, roadGraph.addEdge 3 1 7 = .ok g' ∧
      roadGraph.obj.find 3 = some vr ∧
      g'.obj.find 3 = some ⟨vr.vinfo, vr.edges ++ [⟨3, 1, 7⟩]⟩ ∧
      (∀ k, k ≠ 3 → g'.obj.find k = roadGraph.obj.find k) ∧
      g'.edgeCount = roadGraph.edgeCount + 1 ∧ g'.vertices = roadGraph.vertices :=
  ⟨by decide, by decide, (addEdge_spec roadGraph (by decide) 3 1 7).2 (by decide)⟩

/-! ## The erasing loops -/

theorem eraseLoop_ok (vertex : Int) :
    ∀ (l done l' : List (DigraphEdge EdgeInfo)) (u : Unit),
      eraseLoop vertex done l = (.ok u, l') →
      l' = done ++ l ∧ ∀ e ∈ l, e.toVertex ≠ vertex := by
  intro l
  induction l with
  | nil =>
    intro done l' u h
    simp only [eraseLoop, Prod.mk.injEq] at h
    exact ⟨by rw [← h.2]; simp, fun e he => by cases he⟩
  | cons a rest ih =>
    intro done l' u h
    simp only [eraseLoop] at h
    split at h
    · simp at h
    · rename_i hne
      obtain ⟨h1, h2⟩ := ih _ _ u h
      refine ⟨by rw [h1]; simp, ?_⟩
      intro e he
      rcases List.mem_cons.1 he with e' | e'
      · rw [e']; simpa using hne
      · exact h2 e e'

theorem eraseLoop_error (vertex : Int) :
    ∀ (l done l' : List (DigraphEdge EdgeInfo)) (x : Exn),
      eraseLoop vertex done l = (.error x, l') → x = .undefined := by
  intro l
  induction l with
  | nil => intro done l' x h; simp [eraseLoop] at h
  | cons a rest ih =>
    intro done l' x h
    simp only [eraseLoop] at h
    split at h
    · simp only [Prod.mk.injEq, Except.error.injEq] at h
      exact h.1.symm
    · exact ih _ _ x h

theorem eraseLoop_of_mem (vertex : Int) :
    ∀ (l done : List (DigraphEdge EdgeInfo)), (∃ e ∈ l, e.toVertex = vertex) →
      (eraseLoop vertex done l).1 = .error .undefined := by
  intro l
  induction l with
  | nil => intro done h; obtain ⟨e, he, _⟩ := h; cases he
  | cons a rest ih =>
    intro done h
    simp only [eraseLoop]
    split
    · rfl
    · rename_i hne
      obtain ⟨e, he, hv⟩ := h
      rcases List.mem_cons.1 he with e' | e'
      · rw [e'] at hv; exact absurd (by simpa using hv) hne
      · exact ih _ ⟨e, e', hv⟩

theorem eraseLoop_of_not_mem (vertex : Int) :
    ∀ (l done : List (DigraphEdge EdgeInfo)), (∀ e ∈ l, e.toVertex ≠ vertex) →
      eraseLoop vertex done l = (.ok (), done ++ l) := by
  intro l
  induction l with
  | nil => intro done _; simp [eraseLoop]
  | cons a rest ih =>
    intro done h
    have ha : ¬ (a.toVertex == vertex) = true := by
      simpa using h a (List.mem_cons_self _ _)
    simp only [eraseLoop, if_neg ha]
    rw [ih _ (fun e he => h e (List.mem_cons_of_mem _ he))]
    simp

theorem removeVertexLoop_ok (vertex : Int) :
    ∀ (todo done m : StdMap (DigraphVertex VertexInfo EdgeInfo)) (u : Unit),
      removeVertexLoop vertex done todo = (.ok u, m) →
      m = done ++ todo ∧ ∀ ent ∈ todo, ∀ e ∈ ent.2.edges, e.toVertex ≠ vertex := by
  intro todo
  induction todo with
  | nil =>
    intro done m u h
    simp only [removeVertexLoop, Prod.mk.injEq] at h
    exact ⟨by rw [← h.2]; simp, fun ent he => by cases he⟩
  | cons a rest ih =>
    intro done m u h
    simp only [removeVertexLoop] at h
    split at h
    · rename_i u' l hl
      obtain ⟨h1, h2⟩ := eraseLoop_ok vertex _ _ _ _ hl
      obtain ⟨h3, h4⟩ := ih _ _ u h
      simp only [List.nil_append] at h1
      subst h1
      refine ⟨by rw [h3]; simp, ?_⟩
      intro ent he
      rcases List.mem_cons.1 he with e' | e'
      · rw [e']; exact h2
      · exact h4 ent e'
    · simp at h

theorem removeVertexLoop_error (vertex : Int) :
    ∀ (todo done m : StdMap (DigraphVertex VertexInfo EdgeInfo)) (x : Exn),
      removeVertexLoop vertex done todo = (.error x, m) → x = .undefined := by
  intro todo
  induction todo with
  | nil => intro done m x h; simp [removeVertexLoop] at h
  | cons a rest ih =>
    intro done m x h
    simp only [removeVertexLoop] at h
    split at h
    · exact ih _ _ x h
    · rename_i e l hl
      simp only [Prod.mk.injEq, Except.error.injEq] at h
      rw [← h.1]
      exact eraseLoop_error vertex _ _ _ _ hl

theorem removeVertexLoop_of_not_mem (vertex : Int) :
    ∀ (todo done : StdMap (DigraphVertex VertexInfo EdgeInfo)),
      (∀ ent ∈ todo, ∀ e ∈ ent.2.edges, e.toVertex ≠ vertex) →
      removeVertexLoop vertex done todo = (.ok (), done ++ todo) := by
  intro todo
  induction todo with
  | nil => intro done _; simp [removeVertexLoop]
  | cons a rest ih =>
    intro done h
    simp only [removeVertexLoop,
      eraseLoop_of_not_mem vertex a.2.edges [] (h a (List.mem_cons_self _ _))]
    rw [ih _ (fun ent he => h ent (List.mem_cons_of_mem _ he))]
    simp

/-! ## The mutating calls -/

theorem addVertexCall_toExcept (g : Digraph VertexInfo EdgeInfo) (vertex : Int)
    (vinfo : VertexInfo) : (g.addVertexCall vertex vinfo).toExcept = g.addVertex vertex vinfo := by
  unfold addVertexCall addVertex
  cases h : g.obj.count vertex <;> simp [Call.toExcept]

theorem addEdgeCall_toExcept (g : Digraph VertexInfo EdgeInfo) (fromVertex toVertex : Int)
    (einfo : EdgeInfo) :
    (g.addEdgeCall fromVertex toVertex einfo).toExcept = g.addEdge fromVertex toVertex einfo := by
  unfold addEdgeCall addEdge
  cases g.edgesOf fromVertex with
  | error e => simp [Call.toExcept]
  | ok from_ =>
    simp only
    by_cases h1 : (g.obj.count fromVertex && g.obj.count toVertex) = true
    · simp only [h1, if_true]
      by_cases h2 : (fromVertex, toVertex) ∈ from_
      · simp [h2, Call.toExcept]
      · simp only [h2, if_false]
        cases g.obj.at_ fromVertex <;> simp [Call.toExcept]
    · simp [h1, Call.toExcept]

theorem addVertexCall_cases (g : Digraph VertexInfo EdgeInfo) (vertex : Int)
    (vinfo : VertexInfo) :
    g.addVertexCall vertex vinfo = ⟨.error .DigraphException, g⟩ ∨
    (g.obj.count vertex = false ∧
      g.addVertexCall vertex vinfo = ⟨.ok (), ⟨g.obj.emplace vertex ⟨vinfo, []⟩⟩⟩) := by
  unfold addVertexCall
  cases h : g.obj.count vertex with
  | true => left; simp
  | false => right; simp

theorem addEdgeCall_cases (g : Digraph VertexInfo EdgeInfo) (fromVertex toVertex : Int)
    (einfo : EdgeInfo) :
    g.addEdgeCall fromVertex toVertex einfo = ⟨.error .DigraphException, g⟩ ∨
    ∃ vr, g.obj.find fromVertex = some vr ∧ g.obj.count toVertex = true ∧
      (fromVertex, toVertex) ∉ vr.edges.map (fun ent => (ent.fromVertex, ent.toVertex)) ∧
      g.addEdgeCall fromVertex toVertex einfo =
        ⟨.ok (), ⟨g.obj.assign fromVertex
          ⟨vr.vinfo, vr.edges ++ [⟨fromVertex, toVertex, einfo⟩]⟩⟩⟩ := by
  unfold addEdgeCall
  cases hf : g.obj.find fromVertex with
  | none => left; simp [edgesOf, hf]
  | some vr =>
    have hcf : g.obj.count fromVertex = true := by simp [StdMap.count, hf]
    simp only [edgesOf, hf, hcf, Bool.true_and, StdMap.at_]
    cases hct : g.obj.count toVertex with
    | false => left; simp
    | true =>
      by_cases hm : (fromVertex, toVertex) ∈
          vr.edges.map (fun ent => (ent.fromVertex, ent.toVertex))
      · left; simp only [if_true, if_pos hm]
      · right
        exact ⟨vr, rfl, rfl, hm, by simp only [if_true, if_neg hm]⟩

theorem removeEdgeCall_cases (g : Digraph VertexInfo EdgeInfo) (fromVertex toVertex : Int) :
    g.removeEdgeCall fromVertex toVertex = ⟨.error .DigraphException, g⟩ ∨
    (∃ vr, g.obj.find fromVertex = some vr ∧ g.obj.count toVertex = true ∧
      (fromVertex, toVertex) ∈ vr.edges.map (fun ent => (ent.fromVertex, ent.toVertex)) ∧
      (g.removeEdgeCall fromVertex toVertex).result = .error .undefined) := by
  unfold removeEdgeCall
  cases hf : g.obj.find fromVertex with
  | none => left; simp [edgesOf, hf]
  | some vr =>
    have hcf : g.obj.count fromVertex = true := by simp [StdMap.count, hf]
    simp only [edgesOf, hf, hcf, Bool.true_and, StdMap.at_]
    cases hct : g.obj.count toVertex with
    | false => left; simp
    | true =>
      by_cases hm : (fromVertex, toVertex) ∈
          vr.edges.map (fun ent => (ent.fromVertex, ent.toVertex))
      · right
        refine ⟨vr, rfl, rfl, hm, ?_⟩
        simp only [if_true, if_pos hm]
        apply eraseLoop_of_mem
        obtain ⟨e, he, hp⟩ := List.mem_map.1 hm
        exact ⟨e, he, by simpa using (Prod.mk.inj hp).2⟩
      · left; simp only [if_true, if_neg hm]

theorem removeVertexCall_cases (g : Digraph VertexInfo EdgeInfo) (vertex : Int) :
    (g.obj.count vertex = false ∧
      g.removeVertexCall vertex = ⟨.error .DigraphException, g⟩) ∨
    (g.obj.count vertex = true ∧
      (∀ ent ∈ g.obj.erase vertex, ∀ e ∈ ent.2.edges, e.toVertex ≠ vertex) ∧
      g.removeVertexCall vertex = ⟨.ok (), ⟨g.obj.erase vertex⟩⟩) ∨
    (g.obj.count vertex = true ∧
      (∃ ent ∈ g.obj.erase vertex, ∃ e ∈ ent.2.edges, e.toVertex = vertex) ∧
      (g.removeVertexCall vertex).result = .error .undefined) := by
  unfold removeVertexCall
  cases hc : g.obj.count vertex with
  | false => left; simp
  | true =>
    right
    simp only [if_true]
    by_cases hex : ∃ ent ∈ g.obj.erase vertex, ∃ e ∈ ent.2.edges, e.toVertex = vertex
    · right
      refine ⟨by simp, hex, ?_⟩
      cases hr : removeVertexLoop vertex [] (g.obj.erase vertex) with
      | mk r m =>
        cases r with
        | error x => rw [removeVertexLoop_error vertex _ _ _ _ hr]
        | ok u =>
          obtain ⟨_, h2⟩ := removeVertexLoop_ok vertex _ _ _ _ hr
          obtain ⟨ent, he, e, hee, hv⟩ := hex
          exact absurd hv (h2 ent he e hee)
    · left
      have hall : ∀ ent ∈ g.obj.erase vertex, ∀ e ∈ ent.2.edges, e.toVertex ≠ vertex := by
        intro ent he e hee hv
        exact hex ⟨ent, he, e, hee, hv⟩
      refine ⟨by simp, hall, ?_⟩
      rw [removeVertexLoop_of_not_mem vertex _ [] hall]
      simp

/-! ## The invariants of the data model -/

theorem valid_empty : (Digraph.empty : Digraph VertexInfo EdgeInfo).Valid := by
  refine ⟨?_, ?_, ?_, ?_⟩
  · simp [empty, StdMap.Ordered, StdMap.keys]
  · intro ent h; cases h
  · intro ent h; cases h
  · intro ent h; cases h

theorem valid_addVertex (g : Digraph VertexInfo EdgeInfo) (hv : g.Valid) (vertex : Int)
    (vinfo : VertexInfo) : Valid (⟨g.obj.emplace vertex ⟨vinfo, []⟩⟩ : Digraph _ _) := by
  obtain ⟨h1, h2, h3, h4⟩ := hv
  refine ⟨StdMap.ordered_emplace _ _ _ h1, ?_, ?_, ?_⟩
  · intro ent he e hee
    rcases StdMap.mem_emplace _ _ _ _ he with h | h
    · rw [h] at hee; cases hee
    · exact h2 ent h e hee
  · intro ent he e hee
    show (g.obj.emplace vertex _).count e.toVertex = true
    rw [StdMap.count_emplace]
    rcases StdMap.mem_emplace _ _ _ _ he with h | h
    · rw [h] at hee; cases hee
    · simp [h3 ent h e hee]
  · intro ent he
    rcases StdMap.mem_emplace _ _ _ _ he with h | h
    · rw [h]; exact List.nodup_nil
    · exact h4 ent h

theorem valid_addEdge (g : Digraph VertexInfo EdgeInfo) (hv : g.Valid) (fromVertex toVertex : Int)
    (einfo : EdgeInfo) (vr : DigraphVertex VertexInfo EdgeInfo)
    (hf : g.obj.find fromVertex = some vr) (ht : g.obj.count toVertex = true)
    (hm : (fromVertex, toVertex) ∉ vr.edges.map (fun ent => (ent.fromVertex, ent.toVertex))) :
    Valid (⟨g.obj.assign fromVertex
      ⟨vr.vinfo, vr.edges ++ [⟨fromVertex, toVertex, einfo⟩]⟩⟩ : Digraph _ _) := by
  obtain ⟨h1, h2, h3, h4⟩ := hv
  have hmem := StdMap.find_mem _ _ _ hf
  refine ⟨StdMap.ordered_assign _ _ _ h1, ?_, ?_, ?_⟩
  · intro ent he e hee
    rcases StdMap.mem_assign _ _ _ _ he with h | h
    · rw [h] at hee ⊢
      rcases List.mem_append.1 hee with h' | h'
      · exact h2 _ hmem e h'
      · have : e = ⟨fromVertex, toVertex, einfo⟩ := by simpa using h'
        rw [this]
    · exact h2 ent h e hee
  · intro ent he e hee
    show (g.obj.assign fromVertex _).count e.toVertex = true
    rw [StdMap.count_assign]
    rcases StdMap.mem_assign _ _ _ _ he with h | h
    · rw [h] at hee
      rcases List.mem_append.1 hee with h' | h'
      · exact h3 _ hmem e h'
      · have : e = ⟨fromVertex, toVertex, einfo⟩ := by simpa using h'
        rw [this]; exact ht
    · exact h3 ent h e hee
  · intro ent he
    rcases StdMap.mem_assign _ _ _ _ he with h | h
    · rw [h]
      simp only [List.map_append, List.map_cons, List.map_nil]
      rw [List.nodup_append]
      refine ⟨h4 _ hmem, List.nodup_singleton _, ?_⟩
      intro x hx hx'
      have hxt : x = toVertex := by simpa using hx'
      subst hxt
      obtain ⟨e, hee, hev⟩ := List.mem_map.1 hx
      apply hm
      refine List.mem_map.2 ⟨e, hee, ?_⟩
      rw [h2 _ hmem e hee, hev]
    · exact h4 ent h

theorem valid_erase (g : Digraph VertexInfo EdgeInfo) (hv : g.Valid) (vertex : Int)
    (hall : ∀ ent ∈ g.obj.erase vertex, ∀ e ∈ ent.2.edges, e.toVertex ≠ vertex) :
    Valid (⟨g.obj.erase vertex⟩ : Digraph _ _) := by
  obtain ⟨h1, h2, h3, h4⟩ := hv
  refine ⟨StdMap.ordered_erase _ _ h1, ?_, ?_, ?_⟩
  · intro ent he e hee
    exact h2 ent (StdMap.mem_of_mem_erase _ _ _ he) e hee
  · intro ent he e hee
    have := h3 ent (StdMap.mem_of_mem_erase _ _ _ he) e hee
    show (g.obj.erase vertex).count e.toVertex = true
    unfold StdMap.count at this ⊢
    rw [StdMap.find_erase_ne _ _ _ (hall ent he e hee)]
    exact this
  · intro ent he
    exact h4 ent (StdMap.mem_of_mem_erase _ _ _ he)

theorem call_cases (g : Digraph VertexInfo EdgeInfo) (hv : g.Valid)
    (op : Op VertexInfo EdgeInfo) :
    op.call g = ⟨.error .DigraphException, g⟩ ∨
    ((op.call g).result = .ok () ∧ (op.call g).after.Valid) ∨
    (op.call g).result = .error .undefined := by
  cases op with
  | addVertex vertex vinfo =>
    rcases addVertexCall_cases g vertex vinfo with h | ⟨_, h⟩
    · exact Or.inl h
    · right; left
      show (g.addVertexCall vertex vinfo).result = _ ∧ (g.addVertexCall vertex vinfo).after.Valid
      rw [h]
      exact ⟨rfl, valid_addVertex g hv vertex vinfo⟩
  | addEdge fromVertex toVertex einfo =>
    rcases addEdgeCall_cases g fromVertex toVertex einfo with h | ⟨vr, hf, ht, hm, h⟩
    · exact Or.inl h
    · right; left
      show (g.addEdgeCall fromVertex toVertex einfo).result = _ ∧
        (g.addEdgeCall fromVertex toVertex einfo).after.Valid
      rw [h]
      exact ⟨rfl, valid_addEdge g hv fromVertex toVertex einfo vr hf ht hm⟩
  | removeVertex vertex =>
    rcases removeVertexCall_cases g vertex with ⟨_, h⟩ | ⟨_, hall, h⟩ | ⟨_, _, h⟩
    · exact Or.inl h
    · right; left
      show (g.removeVertexCall vertex).result = _ ∧ (g.removeVertexCall vertex).after.Valid
      rw [h]
      exact ⟨rfl, valid_erase g hv vertex hall⟩
    · exact Or.inr (Or.inr h)
  | removeEdge fromVertex toVertex =>
    rcases removeEdgeCall_cases g fromVertex toVertex with h | ⟨_, _, _, _, h⟩
    · exact Or.inl h
    · exact Or.inr (Or.inr h)

theorem runCalls_valid (ops : List (Op VertexInfo EdgeInfo)) :
    ∀ (g g' : Digraph VertexInfo EdgeInfo), g.Valid → runCalls ops g = some g' → g'.Valid := by
  induction ops with
  | nil =>
    intro g g' hv h
    simp only [runCalls, Option.some.injEq] at h
    rw [← h]; exact hv
  | cons op ops ih =>
    intro g g' hv h
    rcases call_cases g hv op with hc | ⟨hr, hva⟩ | hu
    · simp only [runCalls, hc] at h
      exact ih g g' hv h
    · simp only [runCalls, hr] at h
      exact ih _ g' hva h
    · simp only [runCalls, hu] at h
      cases h

/-! ## Labels of edges -/

theorem mem_pairs_iff (g : Digraph VertexInfo EdgeInfo) (ho : g.OwnEdges) (u v : Int)
    (vr : DigraphVertex VertexInfo EdgeInfo) (hvr : g.obj.find u = some vr) :
    (u, v) ∈ vr.edges.map (fun ent => (ent.fromVertex, ent.toVertex)) ↔
      ∃ e ∈ vr.edges, e.toVertex = v := by
  constructor
  · intro h
    obtain ⟨e, he, hp⟩ := List.mem_map.1 h
    exact ⟨e, he, (Prod.mk.inj hp).2⟩
  · rintro ⟨e, he, hv⟩
    refine List.mem_map.2 ⟨e, he, ?_⟩
    rw [ho (u, vr) (StdMap.find_mem _ _ _ hvr) e he, hv]

theorem edgeInfo_eval (g : Digraph VertexInfo EdgeInfo) (u v : Int)
    (vr : DigraphVertex VertexInfo EdgeInfo) (hvr : g.obj.find u = some vr) :
    g.edgeInfo u v =
      if g.obj.count v = true ∧
          (u, v) ∈ vr.edges.map (fun ent => (ent.fromVertex, ent.toVertex)) then
        match vr.edges.find? (fun ent => ent.toVertex == v) with
        | some ent => .ok ent.einfo
        | none => .error .undefined
      else .error .DigraphException := by
  have hcu : g.obj.count u = true := by simp [StdMap.count, hvr]
  unfold edgeInfo
  simp only [edgesOf, hvr, hcu, Bool.true_and]
  cases hcv : g.obj.count v with
  | false => simp
  | true =>
    by_cases hm : (u, v) ∈ vr.edges.map (fun ent => (ent.fromVertex, ent.toVertex))
    · simp only [if_true, if_pos hm, true_and]
    · simp only [if_true, if_neg hm, true_and]

theorem edgeInfo_absent (g : Digraph VertexInfo EdgeInfo) (u v : Int)
    (h : g.obj.find u = none) : g.edgeInfo u v = .error .DigraphException := by
  simp [edgeInfo, edgesOf, h]

theorem find?_of_mem (l : List (DigraphEdge EdgeInfo)) (v : Int)
    (h : ∃ e ∈ l, e.toVertex = v) :
    ∃ r, l.find? (fun ent => ent.toVertex == v) = some r ∧ r ∈ l ∧ r.toVertex = v := by
  cases hf : l.find? (fun ent => ent.toVertex == v) with
  | some r =>
    refine ⟨r, rfl, List.mem_of_find?_eq_some hf, ?_⟩
    simpa using List.find?_some hf
  | none =>
    obtain ⟨e, he, hv⟩ := h
    have := List.find?_eq_none.1 hf e he
    simp [hv] at this

theorem addEdge_ok (g : Digraph VertexInfo EdgeInfo) (fromVertex toVertex : Int)
    (einfo : EdgeInfo) (vr : DigraphVertex VertexInfo EdgeInfo)
    (hf : g.obj.find fromVertex = some vr) (ht : g.obj.count toVertex = true)
    (hm : (fromVertex, toVertex) ∉ vr.edges.map (fun ent => (ent.fromVertex, ent.toVertex))) :
    g.addEdge fromVertex toVertex einfo =
      .ok ⟨g.obj.assign fromVertex ⟨vr.vinfo, vr.edges ++ [⟨fromVertex, toVertex, einfo⟩]⟩⟩ := by
  have hcf : g.obj.count fromVertex = true := by simp [StdMap.count, hf]
  simp only [addEdge, edgesOf, hf, hcf, ht, Bool.and_self, if_true, if_neg hm,
    StdMap.at_eq_ok _ _ _ hf]

theorem valid_edges_nodup (g : Digraph VertexInfo EdgeInfo) (hv : g.Valid) : g.edges.Nodup := by
  obtain ⟨h1, h2, _, h4⟩ := hv
  unfold edges
  rw [List.nodup_flatMap]
  constructor
  · intro ent he
    have hinj : ∀ x ∈ ent.2.edges, ∀ y ∈ ent.2.edges,
        (x.fromVertex, x.toVertex) = (y.fromVertex, y.toVertex) → x = y := by
      intro x hx y hy hxy
      exact List.inj_on_of_nodup_map (h4 ent he) hx hy (Prod.mk.inj hxy).2
    exact List.Nodup.map_on hinj ((h4 ent he).of_map _)
  · have hk : g.obj.Pairwise (fun a b => a.1 < b.1) := by
      have := h1
      unfold StdMap.Ordered StdMap.keys at this
      exact List.pairwise_map.1 this
    refine hk.imp_of_mem ?_
    intro a b ha hb hab
    show List.Disjoint _ _
    intro p hpa hpb
    obtain ⟨x, hx, hxp⟩ := List.mem_map.1 hpa
    obtain ⟨y, hy, hyp⟩ := List.mem_map.1 hpb
    have e1 := h2 a ha x hx
    have e2 := h2 b hb y hy
    have : x.fromVertex = y.fromVertex := by
      have := hxp.trans hyp.symm
      exact (Prod.mk.inj this).1
    rw [e1, e2] at this
    omega

theorem copy_eq [Inhabited VertexInfo] (g : Digraph VertexInfo EdgeInfo) (hord : g.obj.Ordered) :
    g.copy = g := by
  unfold copy
  have := StdMap.copy_loop g.obj (fun _ => (⟨default, []⟩ : DigraphVertex VertexInfo EdgeInfo))
    [] (by simpa using hord)
  rw [this]
  rfl

/-! ## The claims on labels, removal, copies and moves -/

/-- C11: on a graph whose edge records lie in the lists of their own `fromVertex`, if `from`
and `to` are vertices and no edge from `from` to `to` is stored, then `addEdge(from, to,
label)` returns a graph in which `edgeInfo(from, to)` returns `label` and in which
`edgeInfo` returns, for every pair for which it returned a label before, the same label. -/
theorem addEdge_edgeInfo (g : Digraph VertexInfo EdgeInfo) (ho : g.OwnEdges)
    (fromVertex toVertex : Int) (label : EdgeInfo) (hf : fromVertex ∈ g.vertices)
    (ht : toVertex ∈ g.vertices) (hne : ¬ g.Edge fromVertex toVertex) :
    ∃ g', g.addEdge fromVertex toVertex label = .ok g' ∧
      g'.edgeInfo fromVertex toVertex = .ok label ∧
      ∀ u v l, g.edgeInfo u v = .ok l → g'.edgeInfo u v = .ok l := by
  have hcf := (mem_vertices_iff_count g _).1 hf
  have hct := (mem_vertices_iff_count g _).1 ht
  obtain ⟨vr, hvr⟩ := StdMap.exists_find_of_count g.obj fromVertex hcf
  have hnone : ∀ e ∈ vr.edges, e.toVertex ≠ toVertex := by
    intro e he hv
    exact hne ((edge_iff g _ _).2 ⟨vr, hvr, e, he, hv⟩)
  have hm : (fromVertex, toVertex) ∉
      vr.edges.map (fun ent => (ent.fromVertex, ent.toVertex)) := by
    intro h
    obtain ⟨e, he, hv⟩ := (mem_pairs_iff g ho _ _ vr hvr).1 h
    exact hnone e he hv
  have hfind' : ∀ k, StdMap.find (g.obj.assign fromVertex
      ⟨vr.vinfo, vr.edges ++ [⟨fromVertex, toVertex, label⟩]⟩) k =
      if k = fromVertex then some ⟨vr.vinfo, vr.edges ++ [⟨fromVertex, toVertex, label⟩]⟩
      else g.obj.find k := fun k => StdMap.find_assign_some _ _ _ _ _ hvr
  refine ⟨_, addEdge_ok g fromVertex toVertex label vr hvr hct hm, ?_, ?_⟩
  · rw [edgeInfo_eval _ fromVertex toVertex _ (by rw [hfind', if_pos rfl])]
    have hc : StdMap.count (g.obj.assign fromVertex
        ⟨vr.vinfo, vr.edges ++ [⟨fromVertex, toVertex, label⟩]⟩) toVertex = true := by
      rw [StdMap.count_assign]; exact hct
    have hfnone : vr.edges.find? (fun ent => ent.toVertex == toVertex) = none := by
      apply List.find?_eq_none.2
      intro e he
      simpa using hnone e he
    rw [if_pos ⟨hc, by simp⟩]
    simp [List.find?_append, hfnone]
  · intro u v l hl
    cases hu : g.obj.find u with
    | none => rw [edgeInfo_absent g u v hu] at hl; cases hl
    | some vu =>
      rw [edgeInfo_eval g u v vu hu] at hl
      split at hl
      swap
      · cases hl
      rename_i hcond
      obtain ⟨hcv, hmem⟩ := hcond
      have hcv' : StdMap.count (g.obj.assign fromVertex
          ⟨vr.vinfo, vr.edges ++ [⟨fromVertex, toVertex, label⟩]⟩) v = true := by
        rw [StdMap.count_assign]; exact hcv
      by_cases huf : u = fromVertex
      · subst huf
        rw [hvr] at hu; cases hu
        rw [edgeInfo_eval _ u v _ (by rw [hfind', if_pos rfl])]
        rw [if_pos ⟨hcv', by simp only [List.map_append, List.mem_append]; exact Or.inl hmem⟩]
        cases hfd : vr.edges.find? (fun ent => ent.toVertex == v) with
        | none => rw [hfd] at hl; cases hl
        | some r =>
          rw [hfd] at hl
          rw [List.find?_append, hfd]
          exact hl
      · rw [edgeInfo_eval _ u v vu (by rw [hfind', if_neg huf]; exact hu)]
        rw [if_pos ⟨hcv', hmem⟩]
        exact hl

/-- C12: on a graph whose edge records lie in the lists of their own `fromVertex`,
`edgeInfo(from, to)` throws exactly when `from` is not a vertex, or `to` is not a vertex, or no
edge from `from` to `to` is stored; it never flows off its end; and in every other case it
returns the label of the first record to `to` in the list of `from`, which is the only such
record when no list holds two records to the same vertex. -/
theorem edgeInfo_spec (g : Digraph VertexInfo EdgeInfo) (ho : g.OwnEdges)
    (fromVertex toVertex : Int) :
    ((∃ e, g.edgeInfo fromVertex toVertex = .error e) ↔
      (fromVertex ∉ g.vertices ∨ toVertex ∉ g.vertices ∨ ¬ g.Edge fromVertex toVertex)) ∧
    g.edgeInfo fromVertex toVertex ≠ .error .undefined ∧
    (¬ (fromVertex ∉ g.vertices ∨ toVertex ∉ g.vertices ∨ ¬ g.Edge fromVertex toVertex) →
      ∃ vr r, g.obj.find fromVertex = some vr ∧ r ∈ vr.edges ∧ r.toVertex = toVertex ∧
        vr.edges.find? (fun ent => ent.toVertex == toVertex) = some r ∧
        g.edgeInfo fromVertex toVertex = .ok r.einfo ∧
        (g.Simple → ∀ r' ∈ vr.edges, r'.toVertex = toVertex → r' = r)) := by
  cases hu : g.obj.find fromVertex with
  | none =>
    have hnv : fromVertex ∉ g.vertices := by
      intro h
      have := (mem_vertices_iff_count g _).1 h
      simp [StdMap.count, hu] at this
    rw [edgeInfo_absent g _ _ hu]
    refine ⟨⟨fun _ => Or.inl hnv, fun _ => ⟨_, rfl⟩⟩, by simp, fun h => absurd (Or.inl hnv) h⟩
  | some vr =>
    have hfv : fromVertex ∈ g.vertices :=
      (mem_vertices_iff_count g _).2 (by simp [StdMap.count, hu])
    rw [edgeInfo_eval g _ _ vr hu]
    by_cases hcond : g.obj.count toVertex = true ∧
        (fromVertex, toVertex) ∈ vr.edges.map (fun ent => (ent.fromVertex, ent.toVertex))
    · rw [if_pos hcond]
      obtain ⟨hct, hmem⟩ := hcond
      have hex := (mem_pairs_iff g ho _ _ vr hu).1 hmem
      obtain ⟨r, hr, hrm, hrv⟩ := find?_of_mem vr.edges toVertex hex
      have hedge : g.Edge fromVertex toVertex := (edge_iff g _ _).2 ⟨vr, hu, hex⟩
      have hnot : ¬ (fromVertex ∉ g.vertices ∨ toVertex ∉ g.vertices ∨
          ¬ g.Edge fromVertex toVertex) := by
        rintro (h | h | h)
        · exact h hfv
        · exact h ((mem_vertices_iff_count g _).2 hct)
        · exact h hedge
      rw [hr]
      refine ⟨⟨?_, fun h => absurd h hnot⟩, by simp, fun _ => ⟨vr, r, rfl, hrm, hrv, hr, rfl, ?_⟩⟩
      · rintro ⟨e, he⟩; cases he
      · intro hs r' hr' hrv'
        exact List.inj_on_of_nodup_map (hs (fromVertex, vr) (StdMap.find_mem _ _ _ hu))
          hr' hrm (by rw [hrv', hrv])
    · rw [if_neg hcond]
      have hyes : fromVertex ∉ g.vertices ∨ toVertex ∉ g.vertices ∨
          ¬ g.Edge fromVertex toVertex := by
        by_cases hct : g.obj.count toVertex = true
        · right; right
          intro hedge
          obtain ⟨vr', h1, hex⟩ := (edge_iff g _ _).1 hedge
          rw [hu] at h1; cases h1
          exact hcond ⟨hct, (mem_pairs_iff g ho _ _ vr hu).2 hex⟩
        · right; left
          intro h
          exact hct ((mem_vertices_iff_count g _).1 h)
      exact ⟨⟨fun _ => hyes, fun _ => ⟨_, rfl⟩⟩, by simp, fun h => absurd hyes h⟩

/-- C15: when a call of `addVertex`, `addEdge`, `removeVertex` or `removeEdge` fails, that is
leaves by an exception (the result is an error other than the mark of undefined behaviour),
the exception is a `DigraphException` and the object holds the graph it held before the
call. -/
theorem call_throw_unchanged (g : Digraph VertexInfo EdgeInfo) (op : Op VertexInfo EdgeInfo)
    (e : Exn) (h : (op.call g).result = .error e) (he : e ≠ .undefined) :
    e = .DigraphException ∧ (op.call g).after = g := by
  cases op with
  | addVertex vertex vinfo =>
    rcases addVertexCall_cases g vertex vinfo with hc | ⟨_, hc⟩
    · simp only [Op.call, hc] at h ⊢
      cases h; exact ⟨rfl, trivial⟩
    · simp only [Op.call, hc] at h; cases h
  | addEdge fromVertex toVertex einfo =>
    rcases addEdgeCall_cases g fromVertex toVertex einfo with hc | ⟨_, _, _, _, hc⟩
    · simp only [Op.call, hc] at h ⊢
      cases h; exact ⟨rfl, trivial⟩
    · simp only [Op.call, hc] at h; cases h
  | removeVertex vertex =>
    rcases removeVertexCall_cases g vertex with ⟨_, hc⟩ | ⟨_, _, hc⟩ | ⟨_, _, hc⟩
    · simp only [Op.call, hc] at h ⊢
      cases h; exact ⟨rfl, trivial⟩
    · simp only [Op.call, hc] at h; cases h
    · simp only [Op.call, hc] at h
      cases h; exact absurd rfl he
  | removeEdge fromVertex toVertex =>
    rcases removeEdgeCall_cases g fromVertex toVertex with hc | ⟨_, _, _, _, hc⟩
    · simp only [Op.call, hc] at h ⊢
      cases h; exact ⟨rfl, trivial⟩
    · simp only [Op.call, hc] at h
      cases h; exact absurd rfl he

/-- C16: the copy constructor applied to a graph held in a `std::map` builds a graph with
the same entries in the same order, and whatever calls of the four mutating member functions
are made on the copy leave the original as it was, and the other way round. -/
theorem copy_independent [Inhabited VertexInfo] (g : Digraph VertexInfo EdgeInfo)
    (hord : g.obj.Ordered) :
    g.copy = g ∧
    ∀ (ops : List (Op VertexInfo EdgeInfo)) (st : Objects VertexInfo EdgeInfo),
      (callsOn .snd ops ⟨g, g.copy⟩ = some st → st.fst = g) ∧
      (callsOn .fst ops ⟨g, g.copy⟩ = some st → st.snd = g) := by
  have hcopy := copy_eq g hord
  refine ⟨hcopy, ?_⟩
  intro ops st
  rw [hcopy]
  unfold callsOn
  constructor
  · intro h
    cases hr : runCalls ops (Objects.get ⟨g, g⟩ .snd) with
    | none => rw [hr] at h; cases h
    | some g' =>
      rw [hr] at h
      simp only [Option.map_some', Option.some.injEq] at h
      rw [← h]; rfl
  · intro h
    cases hr : runCalls ops (Objects.get ⟨g, g⟩ .fst) with
    | none => rw [hr] at h; cases h
    | some g' =>
      rw [hr] at h
      simp only [Option.map_some', Option.some.injEq] at h
      rw [← h]; rfl

/-- C18, amended: the move constructor gives the new object the graph of `d` and leaves `d`
empty; the move assignment exchanges the graphs of the two objects, so that the destination
holds the graph `d` held and `d` holds the graph the destination held. -/
theorem move_exchanges (d : Digraph VertexInfo EdgeInfo) (this src : Ref)
    (st : Objects VertexInfo EdgeInfo) :
    (moveConstruct d).1 = d ∧ (moveConstruct d).2.vertexCount = 0 ∧
    (moveConstruct d).2.edgeCount = 0 ∧
    (moveAssign this src st).get this = st.get src ∧
    (moveAssign this src st).get src = st.get this := by
  refine ⟨rfl, rfl, rfl, ?_, ?_⟩ <;> cases this <;> cases src <;> rfl

/-- Where every call returns or throws: every graph that a sequence of calls of `addVertex`,
`addEdge`, `removeVertex` and `removeEdge` without undefined behaviour makes from the empty
graph has all its edge records in the lists of their own `fromVertex` and all their
destinations among its vertices. -/
theorem reachable_integrity (ops : List (Op VertexInfo EdgeInfo))
    (g : Digraph VertexInfo EdgeInfo) (h : runCalls ops Digraph.empty = some g) :
    (∀ ent ∈ g.obj, ∀ e ∈ ent.2.edges, e.fromVertex = ent.1 ∧ e.toVertex ∈ g.vertices) := by
  obtain ⟨_, h2, h3, _⟩ := runCalls_valid ops _ g valid_empty h
  intro ent he e hee
  exact ⟨h2 ent he e hee, (mem_vertices_iff_count g _).2 (h3 ent he e hee)⟩

/-- C20: every graph that a sequence of calls of `addVertex`, `addEdge`, `removeVertex` and
`removeEdge`, each returning or throwing, makes from the empty graph has no list with two
records to the same vertex and no pair twice in `edges()`; on such a graph `addEdge(v, v,
label)` returns when `v` is a vertex without a loop, and a second `addEdge(v, v, label)`
throws. -/
theorem reachable_simple (ops : List (Op VertexInfo EdgeInfo))
    (g : Digraph VertexInfo EdgeInfo) (h : runCalls ops Digraph.empty = some g) :
    g.Simple ∧ g.edges.Nodup ∧
    ∀ (v : Int) (label : EdgeInfo), v ∈ g.vertices → ¬ g.Edge v v →
      ∃ g', g.addEdge v v label = .ok g' ∧ g'.Edge v v ∧ g'.Simple ∧
        g'.addEdge v v label = .error .DigraphException := by
  have hv := runCalls_valid ops _ g valid_empty h
  refine ⟨hv.2.2.2, valid_edges_nodup g hv, ?_⟩
  intro v label hvm hne
  have hcv := (mem_vertices_iff_count g _).1 hvm
  obtain ⟨vr, hvr⟩ := StdMap.exists_find_of_count g.obj v hcv
  have hm : (v, v) ∉ vr.edges.map (fun ent => (ent.fromVertex, ent.toVertex)) := by
    intro hmem
    exact hne ((edge_iff g _ _).2 ⟨vr, hvr, (mem_pairs_iff g hv.2.1 _ _ vr hvr).1 hmem⟩)
  have hv' := valid_addEdge g hv v v label vr hvr hcv hm
  have hfind : StdMap.find (g.obj.assign v ⟨vr.vinfo, vr.edges ++ [⟨v, v, label⟩]⟩) v =
      some ⟨vr.vinfo, vr.edges ++ [⟨v, v, label⟩]⟩ := by
    rw [StdMap.find_assign_some _ _ _ _ _ hvr, if_pos rfl]
  refine ⟨_, addEdge_ok g v v label vr hvr hcv hm, ?_, hv'.2.2.2, ?_⟩
  · exact (edge_iff _ _ _).2 ⟨_, hfind, ⟨v, v, label⟩, by simp, rfl⟩
  · have hc : StdMap.count (g.obj.assign v ⟨vr.vinfo, vr.edges ++ [⟨v, v, label⟩]⟩) v
        = true := by rw [StdMap.count_assign]; exact hcv
    simp only [addEdge, edgesOf, hfind, hc, Bool.and_self, if_true]
    rw [if_pos (by simp)]

/-- No call of `removeEdge` returns: a call that passes the checks finds the record of the
edge, erases it and increments the erased iterator. -/
theorem removeEdge_not_ok (g g' : Digraph VertexInfo EdgeInfo) (fromVertex toVertex : Int) :
    g.removeEdge fromVertex toVertex ≠ .ok g' := by
  unfold removeEdge Call.toExcept
  rcases removeEdgeCall_cases g fromVertex toVertex with hc | ⟨_, _, _, _, hc⟩
  · rw [hc]; simp
  · rw [hc]; simp

theorem objects_get_set (st : Objects VertexInfo EdgeInfo) (r : Ref)
    (g : Digraph VertexInfo EdgeInfo) : (st.set r g).get r = g := by
  cases r <;> rfl

/-- Copy assignment of an object to itself leaves it empty. -/
theorem copyAssign_self [Inhabited VertexInfo] (r : Ref) (st : Objects VertexInfo EdgeInfo) :
    copyAssign r r st = st.set r ⟨[]⟩ := by
  unfold copyAssign
  simp only [objects_get_set]
  rfl

theorem copyAssign_loop_fst [Inhabited VertexInfo]
    (l : StdMap (DigraphVertex VertexInfo EdgeInfo)) :
    ∀ (acc : StdMap (DigraphVertex VertexInfo EdgeInfo)) (d : Digraph VertexInfo EdgeInfo),
      l.foldl (fun (s : Objects VertexInfo EdgeInfo) ent =>
        s.set .fst ⟨((s.get .fst).obj.emplace ent.1 ⟨default, []⟩).assign ent.1 ent.2⟩)
        ⟨⟨acc⟩, d⟩ =
      ⟨⟨l.foldl (fun (obj : StdMap (DigraphVertex VertexInfo EdgeInfo)) ent =>
        (obj.emplace ent.1 ⟨default, []⟩).assign ent.1 ent.2) acc⟩, d⟩ := by
  induction l with
  | nil => intro acc d; rfl
  | cons ent rest ih =>
    intro acc d
    simp only [List.foldl_cons]
    exact ih _ d

/-- Copy assignment between two different objects gives the destination the entries of the
source and leaves the source as it was. -/
theorem copyAssign_fst_snd [Inhabited VertexInfo] (st : Objects VertexInfo EdgeInfo)
    (hord : st.snd.obj.Ordered) : copyAssign .fst .snd st = ⟨st.snd, st.snd⟩ := by
  have h1 := copyAssign_loop_fst st.snd.obj [] st.snd
  have h2 := copy_eq st.snd hord
  unfold copy at h2
  rw [h2] at h1
  exact h1

/-- The failing input of C13: `roadGraph` satisfies the invariants of the data model and 2 is
one of its vertices, the end of the edge from 1 to 2; `removeVertex(2)` erases that record
from the list of 1 and then increments the erased iterator, whose behaviour is undefined. -/
theorem removeVertex_incoming_edge :
    roadGraph.Valid ∧ (2 : Int) ∈ roadGraph.vertices ∧ roadGraph.Edge 1 2 ∧
    roadGraph.removeVertex 2 = .error .undefined :=
  ⟨by decide, by decide, by decide, rfl⟩

/-- The failing input of C14: `roadGraph` satisfies the invariants of the data model, 1 and 2
are vertices and the edge from 1 to 2 is stored; `removeEdge(1, 2)` erases the record and
then increments the erased iterator, whose behaviour is undefined. -/
theorem removeEdge_stored_edge :
    roadGraph.Valid ∧ (1 : Int) ∈ roadGraph.vertices ∧ (2 : Int) ∈ roadGraph.vertices ∧
    roadGraph.Edge 1 2 ∧ roadGraph.removeEdge 1 2 = .error .undefined :=
  ⟨by decide, by decide, by decide, by decide, rfl⟩

/-- The failing input of C17: the copy assignment of an object holding `roadGraph` to itself
leaves the object without vertices, while the copy assignment from another object, holding
`oneVertex`, gives it the entries of that object. -/
theorem copyAssign_self_assignment :
    roadGraph.vertexCount = 3 ∧
    ((copyAssign .fst .fst ⟨roadGraph, oneVertex⟩).get .fst).vertexCount = 0 ∧
    copyAssign .fst .snd ⟨roadGraph, oneVertex⟩ = ⟨oneVertex, oneVertex⟩ :=
  ⟨by decide, by decide, rfl⟩

/-- Counterexample of C18: after the move assignment of an object holding `roadGraph` into an
object holding `oneVertex`, the source is not empty: it holds the vertex of `oneVertex`. -/
theorem moveAssign_source_not_empty :
    (moveAssign .fst .snd ⟨oneVertex, roadGraph⟩).get .fst = roadGraph ∧
    ¬ (((moveAssign .fst .snd ⟨oneVertex, roadGraph⟩).get .snd).vertexCount = 0 ∧
      ((moveAssign .fst .snd ⟨oneVertex, roadGraph⟩).get .snd).edgeCount = 0) :=
  ⟨rfl, by decide⟩

/-- Witness of C11: the edge from 3 to 1 with label 7 is added to `roadGraph`. -/
theorem addEdge_edgeInfo_witness :
    roadGraph.OwnEdges ∧ (3 : Int) ∈ roadGraph.vertices ∧ (1 : Int) ∈ roadGraph.vertices ∧
    ¬ roadGraph.Edge 3 1 ∧
    ∃ g', roadGraph.addEdge 3 1 7 = .ok g' ∧ g'.edgeInfo 3 1 = .ok 7 ∧
      ∀ u v l, roadGraph.edgeInfo u v = .ok l → g'.edgeInfo u v = .ok l :=
  ⟨by decide, by decide, by decide, by decide,
    addEdge_edgeInfo roadGraph (by decide) 3 1 7 (by decide) (by decide) (by decide)⟩

/-- Witness of C12: in `roadGraph` the call `edgeInfo(1, 3)` returns 100 and the call
`edgeInfo(3, 1)` throws. -/
theorem edgeInfo_spec_witness :
    roadGraph.OwnEdges ∧ roadGraph.edgeInfo 1 3 = .ok 100 ∧
    (∃ e, roadGraph.edgeInfo 3 1 = .error e) :=
  ⟨by decide, rfl,
    (edgeInfo_spec roadGraph (by decide) 3 1).1.2 (Or.inr (Or.inr (by decide)))⟩

/-- Witness of C15: on `roadGraph` the call `removeEdge(2, 1)` throws, as no edge from 2 to 1
is stored, and the graph is `roadGraph` afterwards. -/
theorem call_throw_unchanged_witness :
    ((Op.removeEdge 2 1 : Op Unit Nat).call roadGraph).result = .error .DigraphException ∧
    Exn.DigraphException ≠ Exn.undefined ∧
    ((Op.removeEdge 2 1 : Op Unit Nat).call roadGraph).after = roadGraph :=
  ⟨rfl, by decide,
    (call_throw_unchanged roadGraph (.removeEdge 2 1) .DigraphException rfl (by decide)).2⟩

/-- Witness of C16: the copy of `roadGraph`. -/
theorem copy_independent_witness :
    roadGraph.obj.Ordered ∧ roadGraph.copy = roadGraph ∧
    ∀ (ops : List (Op Unit Nat)) (st : Objects Unit Nat),
      (callsOn .snd ops ⟨roadGraph, roadGraph.copy⟩ = some st → st.fst = roadGraph) ∧
      (callsOn .fst ops ⟨roadGraph, roadGraph.copy⟩ = some st → st.snd = roadGraph) :=
  ⟨by decide, copy_independent roadGraph (by decide)⟩

/-- The graph made by `sampleCalls`, in which the vertex 1 and its edge to 2 are removed and
the loop on 2 remains, has its records in the lists of their own `fromVertex` and ending in
vertices. -/
theorem reachable_integrity_witness :
    runCalls sampleCalls Digraph.empty = some ⟨[(2, ⟨(), [⟨2, 2, 1⟩]⟩)]⟩ ∧
    ∀ ent ∈ ([(2, ⟨(), [⟨2, 2, 1⟩]⟩)] : StdMap (DigraphVertex Unit Nat)),
      ∀ e ∈ ent.2.edges, e.fromVertex = ent.1 ∧
        e.toVertex ∈ (⟨[(2, ⟨(), [⟨2, 2, 1⟩]⟩)]⟩ : Digraph Unit Nat).vertices :=
  ⟨rfl, reachable_integrity sampleCalls ⟨[(2, ⟨(), [⟨2, 2, 1⟩]⟩)]⟩ rfl⟩

/-- Witness of C20: the graph made by the first four calls of `sampleCalls`, the last of
which is a refused second edge from 1 to 2; it holds the pair (1, 2) once. -/
theorem reachable_simple_witness :
    runCalls (sampleCalls.take 4) Digraph.empty =
      some ⟨[(1, ⟨(), [⟨1, 2, 5⟩]⟩), (2, ⟨(), []⟩)]⟩ ∧
    (⟨[(1, ⟨(), [⟨1, 2, 5⟩]⟩), (2, ⟨(), []⟩)]⟩ : Digraph Unit Nat).edges = [(1, 2)] ∧
    (⟨[(1, ⟨(), [⟨1, 2, 5⟩]⟩), (2, ⟨(), []⟩)]⟩ : Digraph Unit Nat).edges.Nodup :=
  ⟨rfl, rfl,
    (reachable_simple (sampleCalls.take 4) ⟨[(1, ⟨(), [⟨1, 2, 5⟩]⟩), (2, ⟨(), []⟩)]⟩ rfl).2.1⟩

/-! ## The record of the main loop -/

theorem relaxLog_erase (P : PriorityQueue W) (g : Digraph VertexInfo EdgeInfo)
    (w : EdgeInfo → W) (u : Int) :
    ∀ (l : List (Int × Int)) (st : SPState P.Q W) (c : Nat),
      (relaxLog P g w u l st c).map Prod.fst = relax P g w u l st := by
  intro l
  induction l with
  | nil => intro st c; rfl
  | cons e rest ih =>
    intro st c
    simp only [relaxLog, relax]
    cases g.edgeInfo e.1 e.2 with
    | error x => rfl
    | ok einf =>
      simp only
      cases (st.dv.index u 0).2.at_ e.2 with
      | error x => rfl
      | ok tidis =>
        simp only
        split
        · cases st.pv.at_ e.2 with
          | error x => rfl
          | ok p => exact ih _ _
        · exact ih _ _

theorem relaxLog_count (P : PriorityQueue W) (g : Digraph VertexInfo EdgeInfo)
    (w : EdgeInfo → W) (u : Int) :
    ∀ (l : List (Int × Int)) (st : SPState P.Q W) (c : Nat) (st' : SPState P.Q W) (k : Nat),
      relaxLog P g w u l st c = .ok (st', k) →
      c ≤ k ∧ k ≤ c + l.length ∧
        (P.items st'.pq).length + c = (P.items st.pq).length + k := by
  intro l
  induction l with
  | nil =>
    intro st c st' k h
    simp only [relaxLog, Except.ok.injEq, Prod.mk.injEq] at h
    obtain ⟨rfl, rfl⟩ := h
    simp
  | cons e rest ih =>
    intro st c st' k h
    simp only [relaxLog] at h
    cases he : g.edgeInfo e.1 e.2 with
    | error x => rw [he] at h; cases h
    | ok einf =>
      rw [he] at h
      simp only at h
      cases hat : (st.dv.index u 0).2.at_ e.2 with
      | error x => rw [hat] at h; cases h
      | ok tidis =>
        rw [hat] at h
        simp only at h
        split at h
        · cases hp : st.pv.at_ e.2 with
          | error x => rw [hp] at h; cases h
          | ok p =>
            rw [hp] at h
            obtain ⟨h1, h2, h3⟩ := ih _ _ _ _ h
            have hl : (P.items (P.push st.pq
                ⟨(st.dv.index u 0).1 + w einf, e.2⟩)).length = (P.items st.pq).length + 1 := by
              rw [(P.items_push _ _).length_eq]; rfl
            simp only [List.length_cons]
            simp only [hl] at h3
            omega
        · obtain ⟨h1, h2, h3⟩ := ih _ _ _ _ h
          simp only [List.length_cons]
          simp only at h3
          omega

theorem spLoopLog_erase (P : PriorityQueue W) (g : Digraph VertexInfo EdgeInfo)
    (w : EdgeInfo → W) :
    ∀ (n : Nat) (st : SPState P.Q W) (log : List SPEvent),
      (spLoopLog P g w n st log).map Prod.fst = spLoop P g w n st := by
  intro n
  induction n with
  | zero => intro st log; rfl
  | succ n ih =>
    intro st log
    simp only [spLoopLog, spLoop]
    cases P.pop st.pq with
    | none => rfl
    | some r =>
      obtain ⟨ver, pq⟩ := r
      simp only
      cases st.kv.at_ ver.v with
      | error x => rfl
      | ok b =>
        simp only
        split
        · cases g.edgesOf ver.v with
          | error x => rfl
          | ok eg =>
            simp only
            have he := relaxLog_erase P g w ver.v eg
              ⟨st.kv.assign ver.v true, st.pv, st.dv, pq⟩ 0
            cases hr : relaxLog P g w ver.v eg ⟨st.kv.assign ver.v true, st.pv, st.dv, pq⟩ 0 with
            | error x =>
              rw [hr] at he
              rw [← he]; rfl
            | ok r =>
              obtain ⟨st', k⟩ := r
              rw [hr] at he
              rw [← he]
              exact ih _ _
        · exact ih _ _

theorem logInv_discard (P : PriorityQueue W) (g : Digraph VertexInfo EdgeInfo)
    (st : SPState P.Q W) (log : List SPEvent) (ver : V W) (pq' : P.Q)
    (hpop : P.pop st.pq = some (ver, pq')) (hkv : st.kv.find ver.v = some true)
    (hl : LogInv P g st log) :
    LogInv P g ⟨st.kv, st.pv, st.dv, pq'⟩ (.discarded ver.v :: log) := by
  have hlen : (P.items st.pq).length = (P.items pq').length + 1 := by
    rw [(P.pop_some _ _ _ hpop).1.length_eq]; rfl
  refine ⟨hl.nodup, hl.marked, ?_, ?_, hl.budget⟩
  · intro post v pre h
    cases post with
    | nil =>
      simp only [List.nil_append, List.cons.injEq, SPEvent.discarded.injEq] at h
      obtain ⟨rfl, rfl⟩ := h
      exact (hl.marked _).1 hkv
    | cons a post =>
      simp only [List.cons_append, List.cons.injEq] at h
      exact hl.stale post v pre h.2
  · have := hl.balance
    show (P.items pq').length + (log.length + 1) = 1 + pushedOf log
    omega

theorem logInv_finalize (P : PriorityQueue W) (g : Digraph VertexInfo EdgeInfo)
    (st st1 : SPState P.Q W) (log : List SPEvent) (ver : V W) (pq' : P.Q) (k : Nat)
    (vr : DigraphVertex VertexInfo EdgeInfo) (hvr : g.obj.find ver.v = some vr)
    (hpop : P.pop st.pq = some (ver, pq')) (hkv : st.kv.find ver.v = some false)
    (hkv1 : st1.kv = st.kv.assign ver.v true) (hk : k ≤ vr.edges.length)
    (hq : (P.items st1.pq).length = (P.items pq').length + k)
    (hl : LogInv P g st log) :
    LogInv P g st1 (.finalized ver.v k :: log) := by
  have hlen : (P.items st.pq).length = (P.items pq').length + 1 := by
    rw [(P.pop_some _ _ _ hpop).1.length_eq]; rfl
  have hfind : ∀ v, st1.kv.find v = if v = ver.v then some true else st.kv.find v := by
    intro v; rw [hkv1]; exact StdMap.find_assign_some _ _ _ _ _ hkv
  have hnot : ver.v ∉ finalizedOf log := by
    intro h
    have := (hl.marked _).2 h
    rw [hkv] at this; cases this
  refine ⟨?_, ?_, ?_, ?_, ?_⟩
  · exact List.nodup_cons.2 ⟨hnot, hl.nodup⟩
  · intro v
    rw [hfind]
    show _ ↔ v ∈ ver.v :: finalizedOf log
    by_cases hv : v = ver.v
    · simp [hv]
    · simp only [if_neg hv, List.mem_cons, hv, false_or]
      exact hl.marked v
  · intro post v pre h
    cases post with
    | nil => simp at h
    | cons a post =>
      simp only [List.cons_append, List.cons.injEq] at h
      exact hl.stale post v pre h.2
  · have := hl.balance
    show (P.items st1.pq).length + (log.length + 1) = 1 + (k + pushedOf log)
    omega
  · have hp := pot_assign_le g st.kv ver.v vr hvr hkv
    have := hl.budget
    show k + pushedOf log + pot g st1.kv ≤ g.edgeCount
    rw [hkv1]
    omega

theorem spLoopLog_spec (P : PriorityQueue W) (g : Digraph VertexInfo EdgeInfo) (w : EdgeInfo → W)
    (s : Int) (ho : g.OwnEdges) (hc : g.Closed) :
    ∀ (n : Nat) (st : SPState P.Q W) (log : List SPEvent), Inv0 P g s st →
      ((∀ e, 0 ≤ w e) → Inv1 P g w s st s []) → LogInv P g st log →
      (P.items st.pq).length + pot g st.kv < n →
      ∃ st' log', (∀ m, n ≤ m → spLoopLog P g w m st log = .ok (st', log')) ∧
        LogInv P g st' log' ∧ P.items st'.pq = [] := by
  intro n
  induction n with
  | zero => intro st _ _ _ _ h; omega
  | succ n ih =>
    intro st log h0 h1 hl hpot
    cases hpop : P.pop st.pq with
    | none =>
      refine ⟨st, log, ?_, hl, (P.pop_none _).1 hpop⟩
      intro m hm
      obtain ⟨m, rfl⟩ : ∃ m', m = m' + 1 := ⟨m - 1, by omega⟩
      simp [spLoopLog, hpop]
    | some r =>
      obtain ⟨ver, pq'⟩ := r
      have hver : ver ∈ P.items st.pq := (mem_items_of_pop P _ _ _ hpop ver).2 (Or.inl rfl)
      have hlen : (P.items st.pq).length = (P.items pq').length + 1 := by
        rw [(P.pop_some _ _ _ hpop).1.length_eq]; rfl
      have hcv := h0.pq_keys ver hver
      obtain ⟨b, hb⟩ := StdMap.exists_find_of_count st.kv ver.v (by rw [h0.kv_keys]; exact hcv)
      cases b with
      | true =>
        obtain ⟨h0', h1'⟩ := discard_inv P g w s s st ver pq' hpop hb h0 h1
        obtain ⟨st', log', hrun, hl', hemp⟩ := ih ⟨st.kv, st.pv, st.dv, pq'⟩ _ h0' h1'
          (logInv_discard P g st log ver pq' hpop hb hl)
          (by show (P.items pq').length + pot g st.kv < n; omega)
        refine ⟨st', log', ?_, hl', hemp⟩
        intro m hm
        obtain ⟨m, rfl⟩ : ∃ m', m = m' + 1 := ⟨m - 1, by omega⟩
        simp only [spLoopLog, hpop, StdMap.at_eq_ok _ _ _ hb]
        exact hrun m (by omega)
      | false =>
        obtain ⟨vr, hvr⟩ := StdMap.exists_find_of_count g.obj ver.v hcv
        have heg := edgesOf_own g ho ver.v vr hvr
        have hmap : vr.edges.map (fun ent => (ver.v, ent.toVertex)) =
            (vr.edges.map (fun ent => ent.toVertex)).map (fun y => (ver.v, y)) := by
          rw [List.map_map]; rfl
        have hpend1 : ∀ y, g.Edge ver.v y → y ∈ vr.edges.map (fun ent => ent.toVertex) := by
          intro y hy
          obtain ⟨vr', h1', e, he, hv⟩ := (edge_iff g ver.v y).1 hy
          rw [hvr] at h1'; cases h1'
          exact List.mem_map.2 ⟨e, he, hv⟩
        have hpend2 : ∀ y ∈ vr.edges.map (fun ent => ent.toVertex), g.Edge ver.v y := by
          intro y hy
          obtain ⟨e, he, hv⟩ := List.mem_map.1 hy
          exact (edge_iff g ver.v y).2 ⟨vr, hvr, e, he, hv⟩
        obtain ⟨h0', h1'⟩ := finalize_inv P g w s s st ver pq' _ hpop hb hpend1 h0 h1
        have hfu : (st.kv.assign ver.v true).find ver.v = some true := by
          rw [StdMap.find_assign_some _ _ _ _ _ hb, if_pos rfl]
        obtain ⟨st1, hrel, h0'', h1'', hkv1, hlen1⟩ := relax_spec P g w s ver.v ho hc _
          ⟨st.kv.assign ver.v true, st.pv, st.dv, pq'⟩ h0' h1' hfu hpend2
        have her := relaxLog_erase P g w ver.v
          ((vr.edges.map (fun ent => ent.toVertex)).map (fun y => (ver.v, y)))
          ⟨st.kv.assign ver.v true, st.pv, st.dv, pq'⟩ 0
        rw [hrel] at her
        obtain ⟨k, hrl⟩ : ∃ k, relaxLog P g w ver.v
            ((vr.edges.map (fun ent => ent.toVertex)).map (fun y => (ver.v, y)))
            ⟨st.kv.assign ver.v true, st.pv, st.dv, pq'⟩ 0 = .ok (st1, k) := by
          cases hr : relaxLog P g w ver.v
            ((vr.edges.map (fun ent => ent.toVertex)).map (fun y => (ver.v, y)))
            ⟨st.kv.assign ver.v true, st.pv, st.dv, pq'⟩ 0 with
          | error x => rw [hr] at her; cases her
          | ok r =>
            rw [hr] at her
            obtain ⟨a, k⟩ := r
            simp only [Except.map, Except.ok.injEq] at her
            subst her
            exact ⟨k, rfl⟩
        obtain ⟨_, hk, hq⟩ := relaxLog_count P g w ver.v _ _ _ _ _ hrl
        simp only [List.length_map, Nat.zero_add, Nat.add_zero] at hk hq
        have hp := pot_assign_le g st.kv ver.v vr hvr hb
        obtain ⟨st', log', hrun, hl', hemp⟩ := ih st1 (.finalized ver.v k :: log) h0''
          (fun hw => (h1'' hw).change_u s)
          (logInv_finalize P g st st1 log ver pq' k vr hvr hpop hb hkv1 hk hq hl)
          (by
            rw [hkv1]
            show (P.items st1.pq).length + pot g (st.kv.assign ver.v true) < n
            have : (P.items st1.pq).length = (P.items pq').length + k := hq
            omega)
        refine ⟨st', log', ?_, hl', hemp⟩
        intro m hm
        obtain ⟨m, rfl⟩ : ∃ m', m = m' + 1 := ⟨m - 1, by omega⟩
        simp only [spLoopLog, hpop, StdMap.at_eq_ok _ _ _ hb, heg, hmap]
        simp only [Bool.not_false, if_true, hrl]
        exact hrun m (by omega)

theorem edgeInfo_ne_fuel (g : Digraph VertexInfo EdgeInfo) (u v : Int) :
    g.edgeInfo u v ≠ .error .fuel := by
  unfold edgeInfo edgesOf
  cases g.obj.find u with
  | none => simp
  | some vr =>
    simp only
    split
    · split
      · cases vr.edges.find? (fun ent => ent.toVertex == v) <;> simp
      · simp
    · simp

theorem relax_facts (P : PriorityQueue W) (g : Digraph VertexInfo EdgeInfo)
    (w : EdgeInfo → W) (u : Int) :
    ∀ (l : List (Int × Int)) (st : SPState P.Q W),
      relax P g w u l st ≠ .error .fuel ∧
      ∀ st', relax P g w u l st = .ok st' →
        st'.kv = st.kv ∧ (P.items st'.pq).length ≤ (P.items st.pq).length + l.length := by
  intro l
  induction l with
  | nil =>
    intro st
    refine ⟨by simp [relax], ?_⟩
    intro st' h
    simp only [relax, Except.ok.injEq] at h
    subst h
    exact ⟨rfl, by simp⟩
  | cons e rest ih =>
    intro st
    simp only [relax]
    cases he : g.edgeInfo e.1 e.2 with
    | error x =>
      refine ⟨?_, fun st' h => by cases h⟩
      intro h
      simp only [Except.error.injEq] at h
      exact edgeInfo_ne_fuel g e.1 e.2 (by rw [he, h])
    | ok einf =>
      simp only
      cases hat : (st.dv.index u 0).2.at_ e.2 with
      | error x =>
        refine ⟨?_, fun st' h => by cases h⟩
        unfold StdMap.at_ at hat
        split at hat
        · cases hat
        · cases hat; simp
      | ok tidis =>
        simp only
        split
        · cases hp : st.pv.at_ e.2 with
          | error x =>
            refine ⟨?_, fun st' h => by cases h⟩
            unfold StdMap.at_ at hp
            split at hp
            · cases hp
            · cases hp; simp
          | ok p =>
            obtain ⟨h1, h2⟩ := ih ⟨st.kv, st.pv.assign e.2 u,
              (st.dv.index u 0).2.assign e.2 ((st.dv.index u 0).1 + w einf),
              P.push st.pq ⟨(st.dv.index u 0).1 + w einf, e.2⟩⟩
            refine ⟨h1, ?_⟩
            intro st' h
            obtain ⟨h3, h4⟩ := h2 st' h
            have hl : (P.items (P.push st.pq
                ⟨(st.dv.index u 0).1 + w einf, e.2⟩)).length = (P.items st.pq).length + 1 := by
              rw [(P.items_push _ _).length_eq]; rfl
            simp only [hl] at h4
            refine ⟨h3, ?_⟩
            simp only [List.length_cons]
            omega
        · obtain ⟨h1, h2⟩ := ih ⟨st.kv, st.pv, (st.dv.index u 0).2, st.pq⟩
          refine ⟨h1, ?_⟩
          intro st' h
          obtain ⟨h3, h4⟩ := h2 st' h
          refine ⟨h3, ?_⟩
          simp only [List.length_cons]
          simp only at h4
          omega

/-- On any graph and from any state, the main loop of `findShortestPaths` ends within one
iteration more than the entries in the queue and the edges of the vertices not finalized:
it leaves by the empty queue or by an exception, never by the end of the budget. -/
theorem spLoop_fuel (P : PriorityQueue W) (g : Digraph VertexInfo EdgeInfo)
    (w : EdgeInfo → W) :
    ∀ (n : Nat) (st : SPState P.Q W), (P.items st.pq).length + pot g st.kv < n →
      spLoop P g w n st ≠ .error .fuel := by
  intro n
  induction n with
  | zero => intro st h; omega
  | succ n ih =>
    intro st hpot
    cases hpop : P.pop st.pq with
    | none => simp [spLoop, hpop]
    | some r =>
      obtain ⟨ver, pq'⟩ := r
      have hlen : (P.items st.pq).length = (P.items pq').length + 1 := by
        rw [(P.pop_some _ _ _ hpop).1.length_eq]; rfl
      cases hb : st.kv.find ver.v with
      | none => simp [spLoop, hpop, StdMap.at_eq_error _ _ hb]
      | some b =>
        cases b with
        | true =>
          simp only [spLoop, hpop, StdMap.at_eq_ok _ _ _ hb]
          exact ih ⟨st.kv, st.pv, st.dv, pq'⟩
            (by show (P.items pq').length + pot g st.kv < n; omega)
        | false =>
          simp only [spLoop, hpop, StdMap.at_eq_ok _ _ _ hb, Bool.not_false, if_true]
          cases hvr : g.obj.find ver.v with
          | none => simp [edgesOf, hvr]
          | some vr =>
            simp only [edgesOf_of_find g ver.v vr hvr]
            obtain ⟨h1, h2⟩ := relax_facts P g w ver.v
              (vr.edges.map (fun ent => (ent.fromVertex, ent.toVertex)))
              ⟨st.kv.assign ver.v true, st.pv, st.dv, pq'⟩
            cases hrel : relax P g w ver.v
              (vr.edges.map (fun ent => (ent.fromVertex, ent.toVertex)))
              ⟨st.kv.assign ver.v true, st.pv, st.dv, pq'⟩ with
            | error x =>
              simp only
              intro h
              simp only [Except.error.injEq] at h
              exact h1 (by rw [hrel, h])
            | ok st1 =>
              simp only
              obtain ⟨h3, h4⟩ := h2 st1 hrel
              have hp := pot_assign_le g st.kv ver.v vr hvr hb
              apply ih
              rw [h3]
              simp only [List.length_map] at h4
              show (P.items st1.pq).length + pot g (st.kv.assign ver.v true) < n
              have : (P.items st1.pq).length ≤ (P.items pq').length + vr.edges.length := h4
              omega

theorem logInv_init (P : PriorityQueue W) (g : Digraph VertexInfo EdgeInfo) (s : Int)
    (kv : StdMap Bool) (pv : StdMap Int) (dv : StdMap W)
    (hinit : initMaps s g.obj (([], [], []) : StdMap Bool × StdMap Int × StdMap W)
      = (kv, pv, dv)) :
    LogInv P g ⟨kv, pv, dv, P.push P.empty ⟨0, s⟩⟩ [] := by
  have hfind := initMaps_find (W := W) s g.obj [] [] []
  rw [hinit] at hfind
  have hkv : ∀ k, kv.find k ≠ some true := by
    intro k h
    have := (hfind k).1
    simp only [StdMap.find, List.find?_nil, Option.map_none', Option.isSome_none,
      Bool.false_eq_true, if_false] at this
    rw [h] at this
    cases hg : StdMap.find g.obj k with
    | none => rw [hg] at this; cases this
    | some a => rw [hg] at this; cases this
  refine ⟨List.nodup_nil, ?_, ?_, ?_, ?_⟩
  · intro v
    exact ⟨fun h => absurd h (hkv v), fun h => by cases h⟩
  · intro post v pre h
    cases post <;> cases h
  · show (P.items (P.push P.empty ⟨0, s⟩)).length + 0 = 1 + 0
    rw [(P.items_push _ _).length_eq, List.length_cons, P.items_empty]
    rfl
  · show 0 + pot g kv ≤ g.edgeCount
    rw [pot_init g kv hkv]
    omega

theorem spLoop_discard (P : PriorityQueue W) (g : Digraph VertexInfo EdgeInfo)
    (w : EdgeInfo → W) (n : Nat) (st : SPState P.Q W) (ver : V W) (pq : P.Q)
    (hpop : P.pop st.pq = some (ver, pq)) (hkv : st.kv.find ver.v = some true) :
    spLoop P g w (n + 1) st = spLoop P g w n ⟨st.kv, st.pv, st.dv, pq⟩ := by
  simp only [spLoop, hpop, StdMap.at_eq_ok _ _ _ hkv]
  rfl

theorem removeVertexCall_undefined_iff (g : Digraph VertexInfo EdgeInfo) (vertex : Int) :
    (g.removeVertexCall vertex).result = .error .undefined ↔
      g.obj.count vertex = true ∧
        ∃ ent ∈ g.obj.erase vertex, ∃ e ∈ ent.2.edges, e.toVertex = vertex := by
  rcases removeVertexCall_cases g vertex with ⟨h1, h2⟩ | ⟨h1, h2, h3⟩ | ⟨h1, h2, h3⟩
  · rw [h2]
    constructor
    · intro h; cases h
    · rintro ⟨h, _⟩; rw [h1] at h; cases h
  · rw [h3]
    constructor
    · intro h; cases h
    · rintro ⟨_, ent, he, e, hee, hv⟩
      exact absurd hv (h2 ent he e hee)
  · exact ⟨fun _ => ⟨h1, h2⟩, fun _ => h3⟩

/-! ## The claims on termination and on the scan of `removeVertex` -/

/-- C21: on a graph whose edge records lie in the lists of their own `fromVertex` and end in
vertices, from a start vertex of the graph and for any weight function, the main loop of
`findShortestPaths` terminates: with any budget of at least `edgeCount() + 2` iterations it
ends with an empty queue, and `findShortestPaths` returns.  In the record of its iterations no
vertex is marked finalized twice, every skipped entry is one of a vertex finalized before,
the inner loop pushes at most `edgeCount()` entries, and there are as many iterations as
entries pushed, the first one included.  An iteration that pops an entry of a finalized
vertex leaves the three maps as they are and pushes nothing. -/
theorem findShortestPaths_terminates (P : PriorityQueue W) (g : Digraph VertexInfo EdgeInfo)
    (hc : g.Closed) (ho : g.OwnEdges) (s : Int) (hs : s ∈ g.vertices) (w : EdgeInfo → W) :
    (∃ (st : SPState P.Q W) (log : List SPEvent),
      (∀ n, g.edgeCount + 2 ≤ n → spLoopLog P g w n (spInit P g s) [] = .ok (st, log)) ∧
      (∀ n, g.edgeCount + 2 ≤ n → spLoop P g w n (spInit P g s) = .ok st) ∧
      findShortestPaths P g s w = .ok st.pv ∧ P.items st.pq = [] ∧
      (finalizedOf log).Nodup ∧
      (∀ post v pre, log = post ++ .discarded v :: pre → v ∈ finalizedOf pre) ∧
      pushedOf log ≤ g.edgeCount ∧ log.length = 1 + pushedOf log) ∧
    ∀ (n : Nat) (st : SPState P.Q W) (ver : V W) (pq : P.Q),
      P.pop st.pq = some (ver, pq) → st.kv.find ver.v = some true →
      spLoop P g w (n + 1) st = spLoop P g w n ⟨st.kv, st.pv, st.dv, pq⟩ := by
  refine ⟨?_, fun n st ver pq => spLoop_discard P g w n st ver pq⟩
  have hcs := (mem_vertices_iff_count g s).1 hs
  rcases hinit : initMaps s g.obj (([], [], []) : StdMap Bool × StdMap Int × StdMap W)
    with ⟨kv, pv, dv⟩
  have hsi : spInit P g s = ⟨kv, pv, dv, P.push P.empty ⟨0, s⟩⟩ := by
    simp only [spInit, hinit]
  obtain ⟨h0, h1, hpot⟩ := init_inv P g w s hcs kv pv dv hinit
  obtain ⟨st, log, hrun, hl, hemp⟩ := spLoopLog_spec P g w s ho hc (g.edgeCount + 2)
    ⟨kv, pv, dv, P.push P.empty ⟨0, s⟩⟩ [] h0 (fun _ => h1) (logInv_init P g s kv pv dv hinit)
    hpot
  have hsp : ∀ n, g.edgeCount + 2 ≤ n →
      spLoop P g w n ⟨kv, pv, dv, P.push P.empty ⟨0, s⟩⟩ = .ok st := by
    intro n hn
    rw [← spLoopLog_erase P g w n _ [], hrun n hn]
    rfl
  have hbal := hl.balance
  rw [hemp] at hbal
  have hbud := hl.budget
  refine ⟨st, log, ?_, ?_, ?_, hemp, hl.nodup, hl.stale, by omega, ?_⟩
  · rw [hsi]; exact hrun
  · rw [hsi]; exact hsp
  · simp only [findShortestPaths, hinit, hsp _ (Nat.le_refl _)]
  · simpa using hbal

/-- Witness of C21: on `roadGraph` from the vertex 1 the loop finalizes 1 (two pushes), 2 (one
push) and 3 and then skips the entry that the first iteration pushed for 3. -/
theorem findShortestPaths_terminates_witness :
    roadGraph.Closed ∧ roadGraph.OwnEdges ∧ (1 : Int) ∈ roadGraph.vertices ∧
    (spLoopLog (listQueue Int) roadGraph natWeight 5
      (spInit (listQueue Int) roadGraph 1) []).map Prod.snd =
      .ok [.discarded 3, .finalized 3 0, .finalized 2 1, .finalized 1 2] ∧
    ∃ (st : SPState (listQueue Int).Q Int) (log : List SPEvent),
      (∀ n, roadGraph.edgeCount + 2 ≤ n →
        spLoopLog (listQueue Int) roadGraph natWeight n (spInit (listQueue Int) roadGraph 1) [] =
          .ok (st, log)) ∧
      (∀ n, roadGraph.edgeCount + 2 ≤ n →
        spLoop (listQueue Int) roadGraph natWeight n (spInit (listQueue Int) roadGraph 1) =
          .ok st) ∧
      findShortestPaths (listQueue Int) roadGraph 1 natWeight = .ok st.pv ∧
      (listQueue Int).items st.pq = [] ∧
      (finalizedOf log).Nodup ∧
      (∀ post v pre, log = post ++ .discarded v :: pre → v ∈ finalizedOf pre) ∧
      pushedOf log ≤ roadGraph.edgeCount ∧ log.length = 1 + pushedOf log :=
  ⟨by decide, by decide, by decide, rfl,
    (findShortestPaths_terminates (listQueue Int) roadGraph (by decide) (by decide) 1
      (by decide) natWeight).1⟩

/-- The failing input of C22: 1 is a vertex of `cycleGraph` and the list of the vertex 3
holds the edge to 1; the scan of that list in `removeVertex(1)` erases the record and then
increments the iterator of the erased record, whose behaviour is undefined. -/
theorem removeVertex_erased_iterator :
    (1 : Int) ∈ cycleGraph.vertices ∧ cycleGraph.Edge 3 1 ∧
    eraseLoop 1 [] [(⟨3, 1, 1⟩ : DigraphEdge Nat)] = (.error .undefined, []) ∧
    (cycleGraph.removeVertexCall 1).result = .error .undefined :=
  ⟨by decide, by decide, rfl, rfl⟩

/-! ## The machine addition where it is exact -/

theorem relaxWith_exact (P : PriorityQueue W) (g : Digraph VertexInfo EdgeInfo)
    (w : EdgeInfo → W) (u : Int) :
    ∀ (l : List (Int × Int)) (st : SPState P.Q W),
      relaxWith P g (fun a b => a + b) w u l st = relax P g w u l st := by
  intro l
  induction l with
  | nil => intro st; rfl
  | cons e rest ih =>
    intro st
    simp only [relaxWith, relax]
    cases g.edgeInfo e.1 e.2 with
    | error x => rfl
    | ok einf =>
      simp only
      cases (st.dv.index u 0).2.at_ e.2 with
      | error x => rfl
      | ok tidis =>
        simp only
        split
        · cases st.pv.at_ e.2 with
          | error x => rfl
          | ok p => exact ih _
        · exact ih _

theorem spLoopWith_exact (P : PriorityQueue W) (g : Digraph VertexInfo EdgeInfo)
    (w : EdgeInfo → W) :
    ∀ (n : Nat) (st : SPState P.Q W),
      spLoopWith P g (fun a b => a + b) w n st = spLoop P g w n st := by
  intro n
  induction n with
  | zero => intro st; rfl
  | succ n ih =>
    intro st
    simp only [spLoopWith, spLoop]
    cases P.pop st.pq with
    | none => rfl
    | some r =>
      obtain ⟨ver, pq⟩ := r
      simp only
      cases st.kv.at_ ver.v with
      | error x => rfl
      | ok b =>
        simp only
        split
        · cases g.edgesOf ver.v with
          | error x => rfl
          | ok eg =>
            simp only [relaxWith_exact]
            cases relax P g w ver.v eg ⟨st.kv.assign ver.v true, st.pv, st.dv, pq⟩ with
            | error x => rfl
            | ok st' => exact ih _
        · exact ih _

/-- With the exact sum for `add`, `findShortestPathsWith` is `findShortestPaths`. -/
theorem findShortestPathsWith_exact (P : PriorityQueue W) (g : Digraph VertexInfo EdgeInfo)
    (s : Int) (w : EdgeInfo → W) :
    findShortestPathsWith P g (fun a b => a + b) s w = findShortestPaths P g s w := by
  simp only [findShortestPathsWith, findShortestPaths]
  rw [spLoopWith_exact]

theorem spLoopWith_discard (P : PriorityQueue W) (g : Digraph VertexInfo EdgeInfo)
    (add : W → W → W) (w : EdgeInfo → W) (n : Nat) (st : SPState P.Q W) (ver : V W)
    (pq : P.Q) (hpop : P.pop st.pq = some (ver, pq)) (hkv : st.kv.find ver.v = some true) :
    spLoopWith P g add w (n + 1) st = spLoopWith P g add w n ⟨st.kv, st.pv, st.dv, pq⟩ := by
  simp only [spLoopWith, hpop, StdMap.at_eq_ok _ _ _ hkv]
  rfl

/-- The failing input of C19: the calls `danglingCalls` make `danglingGraph`, in which the
vertex 2 has the incoming edges from 1 and from 3.  The call `removeVertex(2)` erases the
vertex, erases the record of the edge from 1 and then increments the erased iterator, whose
behaviour is undefined: the sequence of calls has no graph, and where the defined behaviour
ends the list of 3 still holds the record of the edge to 2, which is no vertex any more. -/
theorem removeVertex_dangling_edge :
    runCalls danglingCalls Digraph.empty = some danglingGraph ∧ danglingGraph.Valid ∧
    (danglingGraph.removeVertexCall 2).result = .error .undefined ∧
    (danglingGraph.removeVertexCall 2).after =
      ⟨[(1, ⟨(), []⟩), (3, ⟨(), [⟨3, 2, 6⟩]⟩)]⟩ ∧
    ¬ (danglingGraph.removeVertexCall 2).after.Closed ∧
    runCalls (danglingCalls ++ [.removeVertex 2]) Digraph.empty = none :=
  ⟨rfl, by decide, rfl, rfl, by decide, rfl⟩

end Digraph

end RoadTrip
